import Mathlib

/-! # Video converter task pipeline (`internal/converter/task.go`)

A shallow embedding of the task pipeline of the converter worker and the
properties of its specification.

Conventions of the embedding

* Go strings are Lean `String`s; the path and digit scanning works on their
  characters (`String.data`). Separators and decimal digits are ASCII, so the
  scan over characters and Go's scan over bytes agree.
* File contents are lists of bytes.
* Go `error` values are represented by their `Error()` text; `nil` is `none`.
* `sort.Slice` is the pattern-defeating quicksort of package `sort`
  (`pdqsort_func` and the functions it calls), transcribed function by
  function over lists with access by index. A loop is a recursive definition
  with the number of rounds it can make at most; the facts proved about the
  sort show that no loop stops for want of rounds.
* Everything outside the process (file system, ledger, error store, the
  external transcoder, the clock) is explicit: the files and the ledger are
  fields of `World`, the outcome of each system call is read from `Env`, and
  every call the code makes is appended to `World.trace`.
-/

namespace Converter

/-! ## Library functions used by `extractNumber` -/

/-- The predicate `os.IsPathSeparator` on Unix. -/
def isPathSeparator (c : Char) : Bool := c == '/'

/-- The loop of `filepath.Base` that strips trailing separators. -/
def stripTrailingSeparators (path : List Char) : List Char :=
  (path.reverse.dropWhile isPathSeparator).reverse

/-- The loop of `filepath.Base` that finds the last element: the characters
after the last separator. -/
def lastElement (path : List Char) : List Char :=
  (path.reverse.takeWhile (fun c => !isPathSeparator c)).reverse

/-- The function `filepath.Base`: the last element of the path; trailing
separators are removed first; `"."` for the empty path and `"/"` for a path of
separators only. -/
def Base (path : String) : String :=
  if path.data = [] then "."
  else
    let last := lastElement (stripTrailingSeparators path.data)
    if last = [] then "/" else String.mk last

/-- The call `regexp.MustCompile("\\d+").FindString`: the leftmost match of
one or more decimal digits, extended as far as it goes; empty when the text
has no digit. -/
def FindString (s : List Char) : List Char :=
  (s.dropWhile (fun c => !c.isDigit)).takeWhile Char.isDigit

/-- Width of Go's `int` (`strconv.IntSize`) on a 64-bit platform. -/
def intSize : Nat := 64

/-- The two kinds of `strconv.NumError`. -/
inductive NumError where
  | ErrSyntax
  | ErrRange
  deriving DecidableEq

/-- Value of one decimal digit, `ch - '0'`. -/
def digitVal (c : Char) : Nat := c.toNat - '0'.toNat

/-- The accumulation loop of `strconv`: `n = n*10 + digit`, left to right. -/
def decimalValue (ds : List Char) : Nat :=
  ds.foldl (fun n c => n * 10 + digitVal c) 0

/-- The number that a run of decimal digits denotes, most significant digit
first; the reference against which the scan of `strconv` is compared. -/
def valueOfDigits (ds : List Char) : Nat := Nat.ofDigits 10 (ds.reverse.map digitVal)

/-- The function `strconv.Atoi` (that is `ParseInt(s, 10, 0)`): an optional
sign, then one or more decimal digits; a syntax error for anything else and a
range error when the value does not fit in an `int`. -/
def Atoi (s : List Char) : Except NumError Int :=
  let neg : Bool := s.head? = some '-'
  let body : List Char := if s.head? = some '-' ∨ s.head? = some '+' then s.tail else s
  if body = [] then .error .ErrSyntax
  else if !body.all Char.isDigit then .error .ErrSyntax
  else
    let n := decimalValue body
    if !neg && 2 ^ (intSize - 1) ≤ n then .error .ErrRange
    else if neg && 2 ^ (intSize - 1) < n then .error .ErrRange
    else .ok (if neg then -(n : Int) else (n : Int))

/-! ## `extractNumber` -/

/-- The method `VideoConverter.extractNumber`: the number in the first run of
digits of the base name, and `-1` when `Atoi` reports an error. -/
def extractNumber (fileName : String) : Int :=
  let numStr := FindString (Base fileName).data
  match Atoi numStr with
  | .error _ => -1
  | .ok num => num

/-! ## Library functions used by `mergeChunks` and `processVideo` -/

/-- The text between separators: `"a//b"` has the elements `a`, the empty
element and `b`. -/
def splitPath : List Char → List (List Char)
  | [] => [[]]
  | c :: cs =>
    match splitPath cs with
    | [] => [[c]]
    | h :: t => if isPathSeparator c then [] :: h :: t else (c :: h) :: t

/-- The main loop of `filepath.Clean`, one path element at a time. `out` holds
the elements written so far, the last one first. An empty element and `.` are
skipped; `..` removes the last element written, unless there is none to remove
(then it is dropped in a rooted path and written in a relative one). -/
def cleanElements (rooted : Bool) : List (List Char) → List (List Char) → List (List Char)
  | out, [] => out
  | out, e :: rest =>
    if e = [] ∨ e = ['.'] then cleanElements rooted out rest
    else if e = ['.', '.'] then
      match out with
      | top :: below =>
        if top = ['.', '.'] then cleanElements rooted (e :: out) rest
        else cleanElements rooted below rest
      | [] => if rooted then cleanElements rooted [] rest else cleanElements rooted [e] rest
    else cleanElements rooted (e :: out) rest

/-- The function `filepath.Clean` on Unix. -/
def Clean (path : String) : String :=
  if path.data = [] then "."
  else
    let rooted : Bool := path.data.head? = some '/'
    let out := (cleanElements rooted [] (splitPath path.data)).reverse
    let body := String.intercalate "/" (out.map String.mk)
    if rooted then "/" ++ body
    else if body = "" then "." else body

/-- The function `filepath.Join` for two elements: the elements from the first
non-empty one on, joined by the separator and cleaned. -/
def Join (a b : String) : String :=
  if a ≠ "" then Clean (a ++ "/" ++ b)
  else if b ≠ "" then Clean b
  else ""

/-- The function `filepath.Dir` on Unix: the path up to and including its last
separator, cleaned. -/
def Dir (path : String) : String :=
  Clean (String.mk (path.data.reverse.dropWhile (fun c => !isPathSeparator c)).reverse)

/-! ## Package `sort`: `sort.Slice` -/

/-- The call `data.Less(i, j)` of `lessSwap`: `less` on the elements at the two
indices. -/
def lessAt {α : Type} (less : α → α → Bool) (data : List α) (i j : Nat) : Bool :=
  match data[i]?, data[j]? with
  | some x, some y => less x y
  | _, _ => false

/-- The call `data.Swap(i, j)` of `lessSwap`. -/
def swapAt {α : Type} (data : List α) (i j : Nat) : List α :=
  match data[i]?, data[j]? with
  | some x, some y => (data.set i y).set j x
  | _, _ => data

/-- The inner loop of `insertionSort_func`,
`for j := i; j > a && less(j, j-1); j-- { swap(j, j-1) }`, with `j = a + n`. -/
def insertionInner {α : Type} (less : α → α → Bool) (a : Nat) : Nat → List α → List α
  | 0, data => data
  | n + 1, data =>
    if lessAt less data (a + n + 1) (a + n) then
      insertionInner less a n (swapAt data (a + n + 1) (a + n))
    else data

/-- The outer loop of `insertionSort_func`, `for i := a + 1; i < b; i++`,
with `m` rounds to go, so that `i = b - m`. -/
def insertionOuter {α : Type} (less : α → α → Bool) (a b : Nat) : Nat → List α → List α
  | 0, data => data
  | m + 1, data => insertionOuter less a b m (insertionInner less a (b - (m + 1) - a) data)

/-- The function `insertionSort_func`: sorts `data[a:b]` by insertion. -/
def insertionSort_func {α : Type} (less : α → α → Bool) (data : List α) (a b : Nat) : List α :=
  insertionOuter less a b (b - (a + 1)) data

/-- The function `siftDown_func` on `data[lo:hi]`, the heap starting at
offset `first`; `root` moves down and the loop ends before `root` reaches
`hi`, so `hi - root` rounds at most. -/
def siftDown_func {α : Type} (less : α → α → Bool) (hi first : Nat) :
    Nat → List α → Nat → List α
  | 0, data, _ => data
  | fuel + 1, data, root =>
    if 2 * root + 1 ≥ hi then data
    else
      let child :=
        if 2 * root + 1 + 1 < hi ∧
            lessAt less data (first + (2 * root + 1)) (first + (2 * root + 1) + 1) = true
        then 2 * root + 1 + 1 else 2 * root + 1
      if lessAt less data (first + root) (first + child) = false then data
      else siftDown_func less hi first fuel (swapAt data (first + root) (first + child)) child

/-- The first loop of `heapSort_func`, `for i := (hi - 1) / 2; i >= 0; i--`,
with `k` rounds to go, so that `i = k - 1`. -/
def heapBuild {α : Type} (less : α → α → Bool) (hi first : Nat) : Nat → List α → List α
  | 0, data => data
  | k + 1, data => heapBuild less hi first k (siftDown_func less hi first hi data k)

/-- The second loop of `heapSort_func`, `for i := hi - 1; i >= 0; i--`, with
`k` rounds to go, so that `i = k - 1`. -/
def heapPop {α : Type} (less : α → α → Bool) (first : Nat) : Nat → List α → List α
  | 0, data => data
  | k + 1, data =>
    heapPop less first k (siftDown_func less k first k (swapAt data first (first + k)) 0)

/-- The function `heapSort_func`. -/
def heapSort_func {α : Type} (less : α → α → Bool) (data : List α) (a b : Nat) : List α :=
  heapPop less a (b - a) (heapBuild less (b - a) a ((b - a - 1) / 2 + 1) data)

/-- The loop `for i <= j && less(i, a) { i++ }` of `partition_func`; `n` is
`j + 1 - i`, the number of indices from `i` to `j`. -/
def scanUpLess {α : Type} (less : α → α → Bool) (data : List α) (a : Nat) : Nat → Nat → Nat
  | 0, i => i
  | n + 1, i => if lessAt less data i a then scanUpLess less data a n (i + 1) else i

/-- The loop `for i <= j && !less(j, a) { j-- }` of `partition_func`; `n`
is `j + 1 - i`. -/
def scanDownNotLess {α : Type} (less : α → α → Bool) (data : List α) (a : Nat) :
    Nat → Nat → Nat
  | 0, j => j
  | n + 1, j => if lessAt less data j a then j else scanDownNotLess less data a n (j - 1)

/-- The main loop of `partition_func`; returns the data and `j`. Every round
but the last moves `i` and `j` towards each other, so `j + 1 - i` rounds at
most; with none left, `i > j` and the loop ends. -/
def partitionLoop {α : Type} (less : α → α → Bool) (a : Nat) :
    Nat → List α → Nat → Nat → List α × Nat
  | 0, data, _, j => (data, j)
  | fuel + 1, data, i, j =>
    let i' := scanUpLess less data a (j + 1 - i) i
    let j' := scanDownNotLess less data a (j + 1 - i') j
    if i' > j' then (data, j')
    else partitionLoop less a fuel (swapAt data i' j') (i' + 1) (j' - 1)

/-- The function `partition_func`: one quicksort partition of `data[a:b]`
around `data[pivot]`; returns the data, the new index of the pivot and whether
the slice was already partitioned. -/
def partition_func {α : Type} (less : α → α → Bool) (data : List α) (a b pivot : Nat) :
    List α × Nat × Bool :=
  let data := swapAt data a pivot
  let i := scanUpLess less data a (b - 1 + 1 - (a + 1)) (a + 1)
  let j := scanDownNotLess less data a (b - 1 + 1 - i) (b - 1)
  if i > j then (swapAt data j a, j, true)
  else
    let r := partitionLoop less a (b - a) (swapAt data i j) (i + 1) (j - 1)
    (swapAt r.1 r.2 a, r.2, false)

/-- The loop `for i <= j && !less(a, i) { i++ }` of `partitionEqual_func`. -/
def scanUpNotGreater {α : Type} (less : α → α → Bool) (data : List α) (a : Nat) :
    Nat → Nat → Nat
  | 0, i => i
  | n + 1, i => if lessAt less data a i then i else scanUpNotGreater less data a n (i + 1)

/-- The loop `for i <= j && less(a, j) { j-- }` of `partitionEqual_func`. -/
def scanDownGreater {α : Type} (less : α → α → Bool) (data : List α) (a : Nat) :
    Nat → Nat → Nat
  | 0, j => j
  | n + 1, j => if lessAt less data a j then scanDownGreater less data a n (j - 1) else j

/-- The main loop of `partitionEqual_func`; returns the data and `i`. -/
def partitionEqualLoop {α : Type} (less : α → α → Bool) (a : Nat) :
    Nat → List α → Nat → Nat → List α × Nat
  | 0, data, i, _ => (data, i)
  | fuel + 1, data, i, j =>
    let i' := scanUpNotGreater less data a (j + 1 - i) i
    let j' := scanDownGreater less data a (j + 1 - i') j
    if i' > j' then (data, i')
    else partitionEqualLoop less a fuel (swapAt data i' j') (i' + 1) (j' - 1)

/-- The function `partitionEqual_func`: partitions `data[a:b]` into the
elements equal to `data[pivot]` followed by the greater ones; returns the data
and the index where the greater ones start. -/
def partitionEqual_func {α : Type} (less : α → α → Bool) (data : List α) (a b pivot : Nat) :
    List α × Nat :=
  partitionEqualLoop less a (b - a + 1) (swapAt data a pivot) (a + 1) (b - 1)

/-- The loop `for i < b && !less(i, i-1) { i++ }` of
`partialInsertionSort_func`; `n` is `b - i`. -/
def scanSorted {α : Type} (less : α → α → Bool) (data : List α) : Nat → Nat → Nat
  | 0, i => i
  | n + 1, i => if lessAt less data i (i - 1) then i else scanSorted less data n (i + 1)

/-- The loop `for j := i - 1; j >= 1; j-- { if !less(j, j-1) { break };
swap(j, j-1) }` of `partialInsertionSort_func`, by recursion on `j`. -/
def shiftSmaller {α : Type} (less : α → α → Bool) : Nat → List α → List α
  | 0, data => data
  | j + 1, data =>
    if lessAt less data (j + 1) j then shiftSmaller less j (swapAt data (j + 1) j) else data

/-- The loop `for j := i + 1; j < b; j++ { if !less(j, j-1) { break };
swap(j, j-1) }` of `partialInsertionSort_func`; `n` is `b - j`. -/
def shiftGreater {α : Type} (less : α → α → Bool) : Nat → List α → Nat → List α
  | 0, data, _ => data
  | n + 1, data, j =>
    if lessAt less data j (j - 1) then shiftGreater less n (swapAt data j (j - 1)) (j + 1)
    else data

/-- The loop `for j := 0; j < maxSteps; j++` of `partialInsertionSort_func`,
with `steps` rounds to go; `shortestShifting` is 50. -/
def partialInsertionLoop {α : Type} (less : α → α → Bool) (a b : Nat) :
    Nat → List α → Nat → List α × Bool
  | 0, data, _ => (data, false)
  | steps + 1, data, i =>
    let i' := scanSorted less data (b - i) i
    if i' = b then (data, true)
    else if b - a < 50 then (data, false)
    else
      let data₁ := swapAt data i' (i' - 1)
      let data₂ := if i' - a ≥ 2 then shiftSmaller less (i' - 1) data₁ else data₁
      let data₃ := if b - i' ≥ 2 then shiftGreater less (b - (i' + 1)) data₂ (i' + 1) else data₂
      partialInsertionLoop less a b steps data₃ i'

/-- The function `partialInsertionSort_func`: partially sorts `data[a:b]`;
the flag says whether the slice is sorted at the end; `maxSteps` is 5. -/
def partialInsertionSort_func {α : Type} (less : α → α → Bool) (data : List α) (a b : Nat) :
    List α × Bool :=
  partialInsertionLoop less a b 5 data (a + 1)

/-- The function `bits.Len`: the number of bits of `n`, 0 for 0. -/
def bitsLen (n : Nat) : Nat := if n = 0 then 0 else Nat.log2 n + 1

/-- The method `xorshift.Next` on a `uint64`:
`*r ^= *r << 13; *r ^= *r >> 7; *r ^= *r << 17`. -/
def xorshiftNext (r : Nat) : Nat :=
  let r₁ := r ^^^ ((r <<< 13) % 2 ^ 64)
  let r₂ := r₁ ^^^ (r₁ >>> 7)
  r₂ ^^^ ((r₂ <<< 17) % 2 ^ 64)

/-- The index `other` of `breakPatterns_func` for a random number. -/
def breakIndex (length random : Nat) : Nat :=
  let other := random &&& (2 ^ bitsLen length - 1)
  if other ≥ length then other - length else other

/-- The function `breakPatterns_func`: three swaps around the middle of
`data[a:b]` with indices drawn from `xorshift` seeded with the length. -/
def breakPatterns_func {α : Type} (data : List α) (a b : Nat) : List α :=
  if b - a ≥ 8 then
    let idx := a + (b - a) / 4 * 2 - 1
    let r₁ := xorshiftNext (b - a)
    let r₂ := xorshiftNext r₁
    let r₃ := xorshiftNext r₂
    let data₁ := swapAt data (idx - 1 + 0) (a + breakIndex (b - a) r₁)
    let data₂ := swapAt data₁ (idx - 1 + 1) (a + breakIndex (b - a) r₂)
    swapAt data₂ (idx - 1 + 2) (a + breakIndex (b - a) r₃)
  else data

/-- The type `sortedHint`. -/
inductive sortedHint where
  | unknownHint
  | increasingHint
  | decreasingHint
  deriving DecidableEq

/-- The function `order2_func`: the two indices with the smaller element
first, and the count of swaps. -/
def order2_func {α : Type} (less : α → α → Bool) (data : List α) (a b swaps : Nat) :
    Nat × Nat × Nat :=
  if lessAt less data b a then (b, a, swaps + 1) else (a, b, swaps)

/-- The function `median_func`: the index of the median of three, and the
count of swaps. -/
def median_func {α : Type} (less : α → α → Bool) (data : List α) (a b c swaps : Nat) :
    Nat × Nat :=
  let r₁ := order2_func less data a b swaps
  let r₂ := order2_func less data r₁.2.1 c r₁.2.2
  let r₃ := order2_func less data r₁.1 r₂.1 r₂.2.2
  (r₃.2.1, r₃.2.2)

/-- The function `medianAdjacent_func`. -/
def medianAdjacent_func {α : Type} (less : α → α → Bool) (data : List α) (a swaps : Nat) :
    Nat × Nat :=
  median_func less data (a - 1) a (a + 1) swaps

/-- The function `choosePivot_func`; `shortestNinther` is 50 and `maxSwaps`
is 12. -/
def choosePivot_func {α : Type} (less : α → α → Bool) (data : List α) (a b : Nat) :
    Nat × sortedHint :=
  let l := b - a
  let i := a + l / 4 * 1
  let j := a + l / 4 * 2
  let k := a + l / 4 * 3
  let r :=
    if l ≥ 8 then
      if l ≥ 50 then
        let ri := medianAdjacent_func less data i 0
        let rj := medianAdjacent_func less data j ri.2
        let rk := medianAdjacent_func less data k rj.2
        median_func less data ri.1 rj.1 rk.1 rk.2
      else median_func less data i j k 0
    else (j, 0)
  if r.2 = 0 then (r.1, .increasingHint)
  else if r.2 = 12 then (r.1, .decreasingHint)
  else (r.1, .unknownHint)

/-- The loop of `reverseRange_func`, `for i < j { swap(i, j); i++; j-- }`. -/
def reverseRangeLoop {α : Type} : Nat → List α → Nat → Nat → List α
  | 0, data, _, _ => data
  | n + 1, data, i, j =>
    if i < j then reverseRangeLoop n (swapAt data i j) (i + 1) (j - 1) else data

/-- The function `reverseRange_func`. -/
def reverseRange_func {α : Type} (data : List α) (a b : Nat) : List α :=
  reverseRangeLoop ((b - a) / 2) data a (b - 1)

/-- The function `pdqsort_func` on `data[a:b]`; `maxInsertion` is 12. The
loop of the function and its recursive call are both calls of this
definition: every round either returns or goes on with a shorter slice, so
`b - a` rounds at most (`fuel`); with none left the slice is empty and is
handed to the insertion sort as every short slice is. -/
def pdqsort_func {α : Type} (less : α → α → Bool) :
    Nat → List α → Nat → Nat → Nat → Bool → Bool → List α
  | 0, data, a, b, _, _, _ => insertionSort_func less data a b
  | fuel + 1, data, a, b, limit, wasBalanced, wasPartitioned =>
    if b - a ≤ 12 then insertionSort_func less data a b
    else if limit = 0 then heapSort_func less data a b
    else
      let data₁ := if wasBalanced then data else breakPatterns_func data a b
      let limit₁ := if wasBalanced then limit else limit - 1
      let ph := choosePivot_func less data₁ a b
      let data₂ := if ph.2 = .decreasingHint then reverseRange_func data₁ a b else data₁
      let pivot := if ph.2 = .decreasingHint then (b - 1) - (ph.1 - a) else ph.1
      let hint := if ph.2 = .decreasingHint then sortedHint.increasingHint else ph.2
      let likelySorted : Bool := wasBalanced && wasPartitioned && hint = .increasingHint
      let pi := if likelySorted then partialInsertionSort_func less data₂ a b else (data₂, false)
      if pi.2 then pi.1
      else if a > 0 ∧ lessAt less pi.1 (a - 1) pivot = false then
        let pe := partitionEqual_func less pi.1 a b pivot
        pdqsort_func less fuel pe.1 pe.2 b limit₁ wasBalanced wasPartitioned
      else
        let p := partition_func less pi.1 a b pivot
        let mid := p.2.1
        if mid - a < b - mid then
          pdqsort_func less fuel (pdqsort_func less fuel p.1 a mid limit₁ true true)
            (mid + 1) b limit₁ (decide (mid - a ≥ (b - a) / 8)) p.2.2
        else
          pdqsort_func less fuel (pdqsort_func less fuel p.1 (mid + 1) b limit₁ true true)
            a mid limit₁ (decide (b - mid ≥ (b - a) / 8)) p.2.2

/-- The call `sort.Slice(x, less)`: `pdqsort_func` on the whole slice with
the limit `bits.Len(length)`. -/
def sortSlice {α : Type} (less : α → α → Bool) (x : List α) : List α :=
  pdqsort_func less x.length x 0 x.length (bitsLen x.length) true true

/-! ## Messages -/

/-- A JSON value as `encoding/json` reads it; a number keeps its literal. -/
inductive JValue where
  | null
  | bool (b : Bool)
  | number (literal : String)
  | string (s : String)
  | array (items : List JValue)
  | object (members : List (String × JValue))

/-- The bytes of a message as the scanner of `encoding/json` sees them: text
that is not valid JSON, with the error the scanner reports, or the JSON value
the text denotes. -/
inductive Message where
  | notJSON (err : String)
  | json (v : JValue)

/-! ## Data model -/

/-- The struct `VideoTask`. -/
structure VideoTask where
  VideoID : Int
  Path : String
  deriving DecidableEq

/-- The zero value of `VideoTask`, the content of `var task VideoTask`. -/
def VideoTask.zero : VideoTask := { VideoID := 0, Path := "" }

/-- Contents of a file. -/
abbrev Bytes := List UInt8

/-- The map `errorData` that `logError` builds. -/
structure ErrorData where
  video_id : Int
  error : String
  details : String
  time : Nat
  deriving DecidableEq

/-- Levels of `log/slog` used by the pipeline. -/
inductive Level where
  | Info
  | Warn
  | Error
  deriving DecidableEq

/-- Value of a log attribute: `slog.String`, `slog.Int`, or the string that
`json.Marshal` makes of an `errorData` map (kept as the map). -/
inductive AttrValue where
  | str (s : String)
  | int (n : Int)
  | marshalled (d : ErrorData)
  deriving DecidableEq

/-- One call that leaves the process: a log line, a file-system call, the
external command, or a call on the database handle. -/
inductive Event where
  | slog (level : Level) (msg : String) (attrs : List (String × AttrValue))
  | glob (pattern : String)
  | mkdirAll (path : String)
  | create (path : String)
  | openFile (path : String)
  | copy (src dst : String)
  | exec (argv : List String)
  | remove (path : String)
  | isProcessed (videoID : Int)
  | markProcessed (videoID : Int)
  | registerError (data : ErrorData) (err : String)
  deriving DecidableEq

/-- How the surroundings answer the calls of one run. `none` is a `nil` error.
* `glob pattern`: result of `filepath.Glob`;
* `mkdirAll`, `create`, `openFile`, `remove`: error of the `os` call on a path;
* `read path`: a read error met by `io.Copy` on the file, with the number of
  bytes copied before it;
* `ffmpeg argv`: combined output and error of `exec.Command(...).CombinedOutput`;
  the error is set when the command exits non-zero or cannot be started;
* `ledgerDown`: the error of an insert into the ledger when the store cannot
  be reached;
* `now`: the reading of `time.Now()`. -/
structure Env where
  glob : String → Except String (List String)
  mkdirAll : String → Option String
  create : String → Option String
  openFile : String → Option String
  read : String → Option (Nat × String)
  ffmpeg : List String → String × Option String
  remove : String → Option String
  ledgerDown : Int → Option String
  now : Nat

/-- State outside the process: the regular files with their contents, the
identifiers in the ledger of processed videos, and the calls made so far,
oldest first. Directories and the files the transcoder writes are not
tracked. -/
structure World where
  files : String → Option Bytes
  ledger : List Int
  trace : List Event

/-- Append one call to the trace. -/
def World.emit (w : World) (e : Event) : World :=
  { w with trace := w.trace ++ [e] }

/-- Set or delete the content of a file. -/
def World.setFile (w : World) (path : String) (content : Option Bytes) : World :=
  { w with files := Function.update w.files path content }

/-- The error records handed to the error store by the calls of a trace. -/
def errorRecords : List Event → List ErrorData
  | [] => []
  | .registerError d _ :: rest => d :: errorRecords rest
  | _ :: rest => errorRecords rest

/-- The calls made between an earlier and a later state. -/
def callsSince (w w' : World) : List Event := w'.trace.drop w.trace.length

/-! ## Collaborators of the package that are not in `task.go` -/

/-- Modelled from the spec: `IsProcessed`, whose source is not part of
`task.go`. A pure read of the ledger; a missing record means not processed. -/
def IsProcessed (w : World) (videoID : Int) : World × Bool :=
  (w.emit (.isProcessed videoID), decide (videoID ∈ w.ledger))

/-- Modelled from the spec: `MarkProcessed`, whose source is not part of
`task.go`. An insert into the ledger; it fails when the store cannot be
reached and when the identifier is already there (uniqueness constraint). -/
def MarkProcessed (env : Env) (w : World) (videoID : Int) : World × Option String :=
  let w := w.emit (.markProcessed videoID)
  match env.ledgerDown videoID with
  | some err => (w, some err)
  | none =>
    if videoID ∈ w.ledger then (w, some "duplicate key value violates unique constraint")
    else ({ w with ledger := w.ledger ++ [videoID] }, none)

/-- Modelled from the spec: `RegisterError`, whose source is not part of
`task.go`. The record is handed to the error store; nothing is returned and a
failure to persist it does not reach the caller. -/
def RegisterError (w : World) (data : ErrorData) (err : String) : World :=
  w.emit (.registerError data err)

/-! ## `json.Unmarshal` into a `VideoTask` -/

/-- Name of the kind of a JSON value in an `UnmarshalTypeError`. -/
def JValue.kind : JValue → String
  | .null => "null"
  | .bool _ => "bool"
  | .number _ => "number"
  | .string _ => "string"
  | .array _ => "array"
  | .object _ => "object"

/-- Text of an `UnmarshalTypeError` for a struct field; `value` describes the
JSON value that does not fit. -/
def fieldTypeError (value field goType : String) : String :=
  "json: cannot unmarshal " ++ value ++ " into Go struct field VideoTask." ++ field ++
    " of type " ++ goType

/-- The decoder keeps the first error only (`saveError`). -/
def saveError (saved : Option String) (err : String) : Option String :=
  match saved with
  | some e => some e
  | none => some err

/-- Whether an object key names the struct field with the given tag: the exact
name or, failing that, the name up to letter case. -/
def keyMatches (key tag : String) : Bool :=
  key.data.map Char.toLower = tag.data

/-- Decoding of one object member into the task. `null` leaves the field as it
is; a value of the wrong kind, and a number that is no integer of 64 bits for
`video_id`, leaves the field as it is, records a type error and lets decoding
go on with the next member; a key that names no field is skipped. -/
def storeMember (st : VideoTask × Option String) (m : String × JValue) :
    VideoTask × Option String :=
  if keyMatches m.1 "video_id" then
    match m.2 with
    | .null => st
    | .number literal =>
      match Atoi literal.data with
      | .ok n => ({ st.1 with VideoID := n }, st.2)
      | .error _ =>
        (st.1, saveError st.2 (fieldTypeError ("number " ++ literal) "video_id" "int"))
    | _ => (st.1, saveError st.2 (fieldTypeError m.2.kind "video_id" "int"))
  else if keyMatches m.1 "path" then
    match m.2 with
    | .null => st
    | .string s => ({ st.1 with Path := s }, st.2)
    | _ => (st.1, saveError st.2 (fieldTypeError m.2.kind "path" "string"))
  else st

/-- The call `json.Unmarshal(msg, &task)`: the task as the decoder leaves it
and the error it returns. Text that is not JSON is rejected before anything is
stored; `null` stores nothing and is no error; an object is decoded member by
member; any other value is a type error. -/
def Unmarshal (msg : Message) (task : VideoTask) : VideoTask × Option String :=
  match msg with
  | .notJSON err => (task, some err)
  | .json .null => (task, none)
  | .json (.object members) => members.foldl storeMember (task, none)
  | .json v =>
    (task, some ("json: cannot unmarshal " ++ v.kind ++
      " into Go value of type converter.VideoTask"))

/-! ## The pipeline of `task.go` -/

/-- The method `VideoConverter.logError`: builds `errorData`, logs its
serialisation at level error and hands it to `RegisterError`. -/
def logError (env : Env) (w : World) (task : VideoTask) (message err : String) : World :=
  let errorData : ErrorData :=
    { video_id := task.VideoID, error := message, details := err, time := env.now }
  let w := w.emit (.slog .Error "Processing error" [("error_detalis", .marshalled errorData)])
  RegisterError w errorData err

/-- The content of the file as the copy loop finds it when it opens it. -/
def contentOf (w : World) (path : String) : Bytes := (w.files path).getD []

/-- The loop of `mergeChunks` over the sorted fragments: open the fragment and
copy it to the end of the output; the first error ends the loop, with what was
copied so far left in the output. A fragment is read as it is when it is
opened; the deferred `Close` calls change nothing that is tracked here. -/
def copyChunks (env : Env) (outputFile : String) : World → List String → World × Option String
  | w, [] => (w, none)
  | w, chunk :: rest =>
    let w := w.emit (.openFile chunk)
    match env.openFile chunk with
    | some err => (w, some ("Error opening chunk " ++ chunk ++ ": " ++ err))
    | none =>
      match w.files chunk with
      | none => (w, some ("Error opening chunk " ++ chunk ++ ": open " ++ chunk ++
          ": no such file or directory"))
      | some content =>
        let w := w.emit (.copy chunk outputFile)
        match env.read chunk with
        | some (n, err) =>
          (w.setFile outputFile (some (contentOf w outputFile ++ content.take n)),
            some ("Error copying chunk " ++ chunk ++ " to output: " ++ err))
        | none =>
          copyChunks env outputFile
            (w.setFile outputFile (some (contentOf w outputFile ++ content))) rest

/-- The comparison handed to `sort.Slice` in `mergeChunks`. -/
def chunkLess (a b : String) : Bool := decide (extractNumber a < extractNumber b)

/-- The method `VideoConverter.mergeChunks`. -/
def mergeChunks (env : Env) (w : World) (inputDir outputFile : String) : World × Option String :=
  let pattern := Join inputDir "*.chunk"
  let w := w.emit (.glob pattern)
  match env.glob pattern with
  | .error err => (w, some ("Error reading chunks: " ++ err))
  | .ok chunks =>
    let chunks := sortSlice chunkLess chunks
    let outputDir := Dir outputFile
    let w := w.emit (.mkdirAll outputDir)
    match env.mkdirAll outputDir with
    | some err => (w, some ("Error creating output directory: " ++ err))
    | none =>
      let w := w.emit (.create outputFile)
      match env.create outputFile with
      | some err => (w, some ("Error creating output file: " ++ err))
      | none => copyChunks env outputFile (w.setFile outputFile (some [])) chunks

/-- The argument vector of the transcoder call in `processVideo`. -/
def ffmpegArgs (mergedFile mpegDashPath : String) : List String :=
  ["ffmpeg", "-i", mergedFile, "-f", "dash", Join mpegDashPath "output.mpd"]

/-- The method `VideoConverter.processVideo`. -/
def processVideo (env : Env) (w : World) (task : VideoTask) : World × Option String :=
  let mergedFile := Join task.Path "merged.mp4"
  let mpegDashPath := Join task.Path "mpeg-dash"
  let w := w.emit (.slog .Info "Merging" [("path", .str task.Path)])
  match mergeChunks env w task.Path mergedFile with
  | (w, some err) => (logError env w task "Error merging chunks" err, some err)
  | (w, none) =>
    let w := w.emit (.slog .Info "Creating mpeg-dash dir" [("path", .str task.Path)])
    let w := w.emit (.mkdirAll mpegDashPath)
    match env.mkdirAll mpegDashPath with
    | some err => (logError env w task "Error creating mpeg-dash directory" err, some err)
    | none =>
      let w := w.emit (.slog .Info "Converting video to mpeg-dash" [("path", .str task.Path)])
      let w := w.emit (.exec (ffmpegArgs mergedFile mpegDashPath))
      match env.ffmpeg (ffmpegArgs mergedFile mpegDashPath) with
      | (output, some err) =>
        (w, some ("failed to convert to MPEG-DASH: " ++ err ++ ", output: " ++ output))
      | (_, none) =>
        let w := w.emit (.slog .Info "Video processing completed" [("path", .str mpegDashPath)])
        let w := w.emit (.slog .Info "Removing merged file" [("path", .str mergedFile)])
        let w := w.emit (.remove mergedFile)
        match env.remove mergedFile with
        | some err =>
          (w.emit (.slog .Warn "Failed to remove merged file"
            [("file", .str mergedFile), ("error", .str err)]), none)
        | none => (w.setFile mergedFile none, none)

/-- The method `VideoConverter.Handle`. -/
def Handle (env : Env) (w : World) (msg : Message) : World :=
  match Unmarshal msg VideoTask.zero with
  | (task, some err) => logError env w task "Error decoding task" err
  | (task, none) =>
    match IsProcessed w task.VideoID with
    | (w, true) =>
      w.emit (.slog .Warn "Video already processed" [("video_id", .int task.VideoID)])
    | (w, false) =>
      match processVideo env w task with
      | (w, some err) => logError env w task "Error processing video" err
      | (w, none) =>
        match MarkProcessed env w task.VideoID with
        | (w, some err) => logError env w task "Error marking video as processed" err
        | (w, none) =>
          w.emit (.slog .Info "Video processing completed" [("video_id", .int task.VideoID)])

/-! ## Reading a trace -/

/-- Calls on the file system. -/
def Event.isFileCall : Event → Bool
  | .glob _ => true
  | .mkdirAll _ => true
  | .create _ => true
  | .openFile _ => true
  | .copy _ _ => true
  | .remove _ => true
  | _ => false

/-- The file-system calls that `mergeChunks` makes. -/
def Event.isMergeCall : Event → Bool
  | .glob _ => true
  | .mkdirAll _ => true
  | .create _ => true
  | .openFile _ => true
  | .copy _ _ => true
  | _ => false

/-- Reads and writes of the ledger. -/
def Event.isLedgerCall : Event → Bool
  | .isProcessed _ => true
  | .markProcessed _ => true
  | _ => false

/-- Runs of the external transcoder. -/
def Event.isExec : Event → Bool
  | .exec _ => true
  | _ => false

/-- The identifiers passed to `MarkProcessed` by the calls of a trace. -/
def markCalls : List Event → List Int
  | [] => []
  | .markProcessed videoID :: rest => videoID :: markCalls rest
  | _ :: rest => markCalls rest

/-- The fragments opened by the calls of a trace, in the order of opening. -/
def openedFiles : List Event → List String
  | [] => []
  | .openFile path :: rest => path :: openedFiles rest
  | _ :: rest => openedFiles rest

/-- The files passed to `os.Remove` by the calls of a trace. -/
def removedFiles : List Event → List String
  | [] => []
  | .remove path :: rest => path :: removedFiles rest
  | _ :: rest => removedFiles rest

/-- The argument vectors of the external commands run by the calls of a trace. -/
def execCalls : List Event → List (List String)
  | [] => []
  | .exec argv :: rest => argv :: execCalls rest
  | _ :: rest => execCalls rest

/-! ## The stages of one run, each taken by itself -/

/-- The merged file of a task, `mergedFile` in `processVideo`. -/
def mergedFileOf (task : VideoTask) : String := Join task.Path "merged.mp4"

/-- The output directory of a task, `mpegDashPath` in `processVideo`. -/
def mpegDashPathOf (task : VideoTask) : String := Join task.Path "mpeg-dash"

/-- The error of the merge stage of a task on the files of `w`. -/
def mergeError (env : Env) (w : World) (task : VideoTask) : Option String :=
  (mergeChunks env w task.Path (mergedFileOf task)).2

/-- The files as the merge stage of a task leaves them. -/
def filesAfterMerge (env : Env) (w : World) (task : VideoTask) : String → Option Bytes :=
  (mergeChunks env w task.Path (mergedFileOf task)).1.files

/-- The error of creating the output directory of a task. -/
def mkdirError (env : Env) (task : VideoTask) : Option String :=
  env.mkdirAll (mpegDashPathOf task)

/-- The combined output of the transcoder on the merged file of a task. -/
def transcodeOutput (env : Env) (task : VideoTask) : String :=
  (env.ffmpeg (ffmpegArgs (mergedFileOf task) (mpegDashPathOf task))).1

/-- The error of the transcoder on the merged file of a task: set when it
exits non-zero or cannot be started. -/
def transcodeError (env : Env) (task : VideoTask) : Option String :=
  (env.ffmpeg (ffmpegArgs (mergedFileOf task) (mpegDashPathOf task))).2

/-- The record that `logError` builds for a task, a message and an error. -/
def errorDataOf (env : Env) (task : VideoTask) (message err : String) : ErrorData :=
  { video_id := task.VideoID, error := message, details := err, time := env.now }

/-- The two calls of `logError`: the log line and the hand-over of the record
to the error store. -/
def logErrorCalls (env : Env) (task : VideoTask) (message err : String) : List Event :=
  [.slog .Error "Processing error"
      [("error_detalis", .marshalled (errorDataOf env task message err))],
    .registerError (errorDataOf env task message err) err]

/-- The calls of `processVideo` after a merge without error, up to and
including the run of the transcoder. -/
def transcodeCalls (task : VideoTask) : List Event :=
  [.slog .Info "Creating mpeg-dash dir" [("path", .str task.Path)],
    .mkdirAll (mpegDashPathOf task),
    .slog .Info "Converting video to mpeg-dash" [("path", .str task.Path)],
    .exec (ffmpegArgs (mergedFileOf task) (mpegDashPathOf task))]

/-- The calls of `processVideo` after a transcoder run without error. -/
def cleanupCalls (env : Env) (task : VideoTask) : List Event :=
  [.slog .Info "Video processing completed" [("path", .str (mpegDashPathOf task))],
    .slog .Info "Removing merged file" [("path", .str (mergedFileOf task))],
    .remove (mergedFileOf task)] ++
  match env.remove (mergedFileOf task) with
  | some err =>
    [.slog .Warn "Failed to remove merged file"
      [("file", .str (mergedFileOf task)), ("error", .str err)]]
  | none => []

/-! ## Notions for the properties of `sort.Slice` -/

/-- A comparison by an integer key, as the one handed to `sort.Slice` in
`mergeChunks`. -/
def keyLess {α : Type} (key : α → Int) (x y : α) : Bool := decide (key x < key y)

/-- The key of the element at an index of the slice. -/
def keyAt {α : Type} (key : α → Int) (data : List α) (k : Nat) : Int :=
  match data[k]? with
  | some x => key x
  | none => 0

/-- The keys of `data[a:b]` never decrease. -/
def SortedOn {α : Type} (key : α → Int) (data : List α) (a b : Nat) : Prop :=
  ∀ i j, a ≤ i → i < j → j < b → keyAt key data i ≤ keyAt key data j

/-- The slice `result` has been made from `data` by moving elements inside
`data[a:b]`: the elements are the same, the keys outside the range are in
their places, and every key in the range was in the range before. -/
structure RangeKeep {α : Type} (key : α → Int) (a b : Nat) (data result : List α) : Prop where
  perm : result.Perm data
  length : result.length = data.length
  frame : ∀ k, k < a ∨ b ≤ k → keyAt key result k = keyAt key data k
  inside : ∀ k, a ≤ k → k < b → ∃ k', a ≤ k' ∧ k' < b ∧ keyAt key result k = keyAt key data k'

/-- When `a` is not the start of the slice, no key in `data[a:b]` is below the
key just before `a`. -/
def BoundedBelow {α : Type} (key : α → Int) (data : List α) (a b : Nat) : Prop :=
  0 < a → ∀ k, a ≤ k → k < b → keyAt key data (a - 1) ≤ keyAt key data k

/-- The heap property of `data[first:first+hi]` at every node from `lo` on: no
child has a key above its parent's. The children of node `r` are the nodes
`2 * r + 1` and `2 * r + 2`. -/
def HeapFrom {α : Type} (key : α → Int) (data : List α) (first hi lo : Nat) : Prop :=
  ∀ r c, lo ≤ r → c < hi → (c = 2 * r + 1 ∨ c = 2 * r + 2) →
    keyAt key data (first + c) ≤ keyAt key data (first + r)

/-! ## The order of the specification -/

/-- The order that the specification gives for fragments: by key ascending,
and names with equal keys in the lexical order of the names. -/
def specBefore (a b : String) : Prop :=
  extractNumber a < extractNumber b ∨ (extractNumber a = extractNumber b ∧ a.data ≤ b.data)

/-! ## A concrete run -/

/-- A directory with three fragments: `chunk_1.chunk` holds `AA`,
`chunk_2.chunk` holds `BB` and `chunk_3.chunk` holds `CC`. -/
def threeChunks : World :=
  { files := fun p =>
      if p = "/videos/7/chunk_1.chunk" then some [65, 65]
      else if p = "/videos/7/chunk_2.chunk" then some [66, 66]
      else if p = "/videos/7/chunk_3.chunk" then some [67, 67]
      else none
    ledger := []
    trace := [] }

/-- A directory with a fragment whose name has no digit. -/
def oddChunks : World :=
  { files := fun p =>
      if p = "/videos/8/chunk_1.chunk" then some [49]
      else if p = "/videos/8/chunk_10.chunk" then some [49, 48]
      else if p = "/videos/8/chunk_2.chunk" then some [50]
      else if p = "/videos/8/chunk_abc.chunk" then some [97]
      else none
    ledger := []
    trace := [] }

/-- Surroundings in which every call succeeds; the listings of
`/videos/7/*.chunk` and of `/videos/8/*.chunk` give the fragments of the two
directories in the lexical order of their names, as `filepath.Glob` does. -/
def calmEnv : Env :=
  { glob := fun pattern =>
      if pattern = "/videos/7/*.chunk" then
        .ok ["/videos/7/chunk_1.chunk", "/videos/7/chunk_2.chunk", "/videos/7/chunk_3.chunk"]
      else if pattern = "/videos/8/*.chunk" then
        .ok ["/videos/8/chunk_1.chunk", "/videos/8/chunk_10.chunk", "/videos/8/chunk_2.chunk",
          "/videos/8/chunk_abc.chunk"]
      else .ok []
    mkdirAll := fun _ => none
    create := fun _ => none
    openFile := fun _ => none
    read := fun _ => none
    ffmpeg := fun _ => ("", none)
    remove := fun _ => none
    ledgerDown := fun _ => none
    now := 0 }

/-- The listing of a directory with fourteen fragments, `chunk_01.chunk` to
`chunk_07.chunk` and `chunk_1.chunk` to `chunk_7.chunk`, in the lexical order
of the names, which is the order in which `filepath.Glob` returns them. -/
def doubledChunks : List String :=
  ["/videos/9/chunk_01.chunk", "/videos/9/chunk_02.chunk", "/videos/9/chunk_03.chunk",
    "/videos/9/chunk_04.chunk", "/videos/9/chunk_05.chunk", "/videos/9/chunk_06.chunk",
    "/videos/9/chunk_07.chunk", "/videos/9/chunk_1.chunk", "/videos/9/chunk_2.chunk",
    "/videos/9/chunk_3.chunk", "/videos/9/chunk_4.chunk", "/videos/9/chunk_5.chunk",
    "/videos/9/chunk_6.chunk", "/videos/9/chunk_7.chunk"]

/-- The directory of `doubledChunks`; every fragment holds one byte. -/
def doubledWorld : World :=
  { files := fun p => if p ∈ doubledChunks then some [120] else none
    ledger := []
    trace := [] }

/-- Surroundings in which every call succeeds and the listing of
`/videos/9/*.chunk` is `doubledChunks`. -/
def doubledEnv : Env :=
  { calmEnv with
    glob := fun pattern => if pattern = "/videos/9/*.chunk" then .ok doubledChunks else .ok [] }

/-- Surroundings in which the transcoder exits with status 1. -/
def failingTranscoder : Env :=
  { calmEnv with
    ffmpeg := fun _ => ("merged.mp4: Invalid data found when processing input", some "exit status 1") }

/-- Surroundings in which the output file cannot be created. -/
def readOnlyDisk : Env :=
  { calmEnv with create := fun _ => some "open /videos/7/merged.mp4: read-only file system" }

/-- The message `{"video_id": 5, "path": 123}`, whose `path` is a number. -/
def illTypedMessage : Message :=
  .json (.object [("video_id", .number "5"), ("path", .number "123")])

/-- A message that is not JSON. -/
def garbledMessage : Message :=
  .notJSON "invalid character 'v' looking for beginning of value"

/-- The message `{"video_id": 7, "path": "/videos/7"}`. -/
def task7Message : Message :=
  .json (.object [("video_id", .number "7"), ("path", .string "/videos/7")])

/-! # Properties -/

/-! ## Facts about the library functions -/

theorem dropWhile_notDigit_append (pre rest : List Char)
    (hpre : ∀ c ∈ pre, c.isDigit = false) :
    (pre ++ rest).dropWhile (fun c => !c.isDigit) = rest.dropWhile (fun c => !c.isDigit) := by
  induction pre with
  | nil => rfl
  | cons c cs ih =>
    have hc : c.isDigit = false := hpre c (List.mem_cons_self _ _)
    have hcs : ∀ d ∈ cs, d.isDigit = false := fun d hd => hpre d (List.mem_cons_of_mem _ hd)
    simp [List.dropWhile, hc, ih hcs]

theorem takeWhile_digit_append (run post : List Char)
    (hdig : ∀ c ∈ run, c.isDigit = true)
    (hpost : ∀ c, post.head? = some c → c.isDigit = false) :
    (run ++ post).takeWhile Char.isDigit = run := by
  induction run with
  | nil =>
    cases post with
    | nil => rfl
    | cons p ps => simp [List.takeWhile, hpost p rfl]
  | cons c cs ih =>
    have hc : c.isDigit = true := hdig c (List.mem_cons_self _ _)
    have hcs : ∀ d ∈ cs, d.isDigit = true := fun d hd => hdig d (List.mem_cons_of_mem _ hd)
    simp [List.takeWhile, hc, ih hcs]

/-- The match of `\d+` in a text with a first run of digits is that run. -/
theorem FindString_run (pre run post : List Char)
    (hpre : ∀ c ∈ pre, c.isDigit = false)
    (hrun : run ≠ []) (hdig : ∀ c ∈ run, c.isDigit = true)
    (hpost : ∀ c, post.head? = some c → c.isDigit = false) :
    FindString (pre ++ run ++ post) = run := by
  unfold FindString
  rw [List.append_assoc, dropWhile_notDigit_append pre _ hpre]
  cases run with
  | nil => exact absurd rfl hrun
  | cons c cs =>
    have hc : c.isDigit = true := hdig c (List.mem_cons_self _ _)
    have : (c :: cs ++ post).dropWhile (fun c => !c.isDigit) = c :: cs ++ post := by
      simp [List.dropWhile, hc]
    rw [this]
    exact takeWhile_digit_append (c :: cs) post hdig hpost

/-- There is no match of `\d+` in a text without digits. -/
theorem FindString_none (s : List Char) (h : ∀ c ∈ s, c.isDigit = false) :
    FindString s = [] := by
  unfold FindString
  have := dropWhile_notDigit_append s [] h
  simp only [List.append_nil] at this
  rw [this]
  rfl

/-- The loop of `strconv` computes the value of the digits in base ten. -/
theorem decimalValue_eq_ofDigits (ds : List Char) :
    decimalValue ds = valueOfDigits ds := by
  unfold valueOfDigits
  induction ds using List.reverseRecOn with
  | nil => rfl
  | append_singleton ds c ih =>
    have h1 : decimalValue (ds ++ [c]) = decimalValue ds * 10 + digitVal c := by
      simp [decimalValue, List.foldl_append]
    rw [h1, ih]
    simp [Nat.ofDigits_cons]
    ring

/-- What `Atoi` makes of a non-empty run of digits. -/
theorem Atoi_digits (run : List Char) (hrun : run ≠ [])
    (hdig : ∀ c ∈ run, c.isDigit = true) :
    Atoi run = if decimalValue run < 2 ^ (intSize - 1) then .ok (decimalValue run : Int)
      else .error .ErrRange := by
  cases run with
  | nil => exact absurd rfl hrun
  | cons c cs =>
    have hc : c.isDigit = true := hdig c (List.mem_cons_self _ _)
    have hm : c ≠ '-' := by rintro rfl; exact absurd hc (by decide)
    have hp : c ≠ '+' := by rintro rfl; exact absurd hc (by decide)
    have hall : (c :: cs).all Char.isDigit = true := by
      rw [List.all_eq_true]; exact hdig
    unfold Atoi
    simp only [List.head?_cons, Option.some.injEq, hm, hp, or_self, if_false, decide_False,
      hall, Bool.not_true, Bool.not_false, Bool.true_and, Bool.false_and, reduceCtorEq]
    by_cases hlt : decimalValue (c :: cs) < 2 ^ (intSize - 1)
    · simp [hlt, Nat.not_le.mpr hlt]
    · simp [hlt, Nat.not_lt.mp hlt]



theorem takeWhile_notSep_append (name rest : List Char) (hname : ∀ c ∈ name, c ≠ '/') :
    (name ++ '/' :: rest).takeWhile (fun c => !isPathSeparator c) = name := by
  induction name with
  | nil => simp [List.takeWhile, isPathSeparator]
  | cons c cs ih =>
    have hc : (c == '/') = false := beq_false_of_ne (hname c (List.mem_cons_self _ _))
    have hcs : ∀ d ∈ cs, d ≠ '/' := fun d hd => hname d (List.mem_cons_of_mem _ hd)
    have ih' := ih hcs
    simp only [isPathSeparator] at ih'
    simp [List.takeWhile, isPathSeparator, hc, ih']

theorem takeWhile_notSep_self (name : List Char) (hname : ∀ c ∈ name, c ≠ '/') :
    name.takeWhile (fun c => !isPathSeparator c) = name := by
  induction name with
  | nil => rfl
  | cons c cs ih =>
    have hc : (c == '/') = false := beq_false_of_ne (hname c (List.mem_cons_self _ _))
    have hcs : ∀ d ∈ cs, d ≠ '/' := fun d hd => hname d (List.mem_cons_of_mem _ hd)
    have ih' := ih hcs
    simp only [isPathSeparator] at ih'
    simp [List.takeWhile, isPathSeparator, hc, ih']

theorem stripTrailingSeparators_of_name (front name : List Char) (hne : name ≠ [])
    (hname : ∀ c ∈ name, c ≠ '/') :
    stripTrailingSeparators (front ++ name) = front ++ name := by
  unfold stripTrailingSeparators
  obtain ⟨init, last, rfl⟩ : ∃ init last, name = init ++ [last] :=
    ⟨name.dropLast, name.getLast hne, (List.dropLast_append_getLast hne).symm⟩
  have hl : last ≠ '/' := hname last (by simp)
  simp [List.dropWhile, isPathSeparator, hl]

/-- The base name of `dir/name` is `name`. -/
theorem Base_dir_name (dir name : List Char) (hne : name ≠ [])
    (hname : ∀ c ∈ name, c ≠ '/') :
    Base (String.mk (dir ++ '/' :: name)) = String.mk name := by
  have hrev : ∀ c ∈ name.reverse, c ≠ '/' := fun c hc => hname c (List.mem_reverse.mp hc)
  have h1 : stripTrailingSeparators (dir ++ '/' :: name) = dir ++ '/' :: name := by
    have := stripTrailingSeparators_of_name (dir ++ ['/']) name hne hname
    simpa using this
  have h2 : lastElement (dir ++ '/' :: name) = name := by
    unfold lastElement
    have : (dir ++ '/' :: name).reverse = name.reverse ++ '/' :: dir.reverse := by simp
    rw [this, takeWhile_notSep_append _ _ hrev, List.reverse_reverse]
  unfold Base
  simp [h1, h2, hne]

/-- The base name of a name without separator is the name. -/
theorem Base_name (name : List Char) (hne : name ≠ [])
    (hname : ∀ c ∈ name, c ≠ '/') :
    Base (String.mk name) = String.mk name := by
  have hrev : ∀ c ∈ name.reverse, c ≠ '/' := fun c hc => hname c (List.mem_reverse.mp hc)
  have h1 : stripTrailingSeparators name = name := by
    simpa using stripTrailingSeparators_of_name [] name hne hname
  have h2 : lastElement name = name := by
    unfold lastElement
    rw [takeWhile_notSep_self _ hrev, List.reverse_reverse]
  unfold Base
  simp [h1, h2, hne]

/-- The result of `extractNumber` on a path whose base name has a first run of
digits. -/
theorem extractNumber_of_run (path : String) (pre run post : List Char)
    (hbase : (Base path).data = pre ++ run ++ post)
    (hpre : ∀ c ∈ pre, c.isDigit = false)
    (hrun : run ≠ []) (hdig : ∀ c ∈ run, c.isDigit = true)
    (hpost : ∀ c, post.head? = some c → c.isDigit = false) :
    extractNumber path =
      if valueOfDigits run < 2 ^ (intSize - 1)
      then (valueOfDigits run : Int) else -1 := by
  unfold extractNumber
  simp only [hbase, FindString_run pre run post hpre hrun hdig hpost, Atoi_digits run hrun hdig,
    decimalValue_eq_ofDigits]
  split_ifs <;> simp

/-- A base name without digit gives the sentinel. -/
theorem extractNumber_of_no_digit (path : String)
    (h : ∀ c ∈ (Base path).data, c.isDigit = false) : extractNumber path = -1 := by
  unfold extractNumber
  rw [FindString_none _ h]
  rfl

/-- C3: when the base name of a path has a digit and its first maximal run of
digits denotes a value that fits in an int, `extractNumber` returns that value
(so leading zeros do not count); and the result for `dir/name` is the result
for `name`, whatever digits `dir` has. -/
theorem extractNumber_first_digit_run (path : String) (pre run post : List Char)
    (hbase : (Base path).data = pre ++ run ++ post)
    (hpre : ∀ c ∈ pre, c.isDigit = false)
    (hrun : run ≠ []) (hdig : ∀ c ∈ run, c.isDigit = true)
    (hpost : ∀ c, post.head? = some c → c.isDigit = false)
    (hfit : valueOfDigits run < 2 ^ (intSize - 1)) :
    extractNumber path = (valueOfDigits run : Int) ∧
    ∀ dir name : List Char, name ≠ [] → (∀ c ∈ name, c ≠ '/') →
      extractNumber (String.mk (dir ++ '/' :: name)) = extractNumber (String.mk name) := by
  refine ⟨?_, ?_⟩
  · rw [extractNumber_of_run path pre run post hbase hpre hrun hdig hpost, if_pos hfit]
  · intro dir name hne hname
    unfold extractNumber
    rw [Base_dir_name dir name hne hname, Base_name name hne hname]

/-- In `/videos/12/chunk_007x9.chunk` the first run of digits of the base name
is `007`: the key is 7, whatever the digits of the directory and the later
digit. -/
theorem extractNumber_first_digit_run_witness :
    extractNumber "/videos/12/chunk_007x9.chunk" = 7 ∧
    extractNumber "/videos/12/chunk_abc.chunk" = extractNumber "chunk_abc.chunk" := by
  have h := extractNumber_first_digit_run "/videos/12/chunk_007x9.chunk"
    "chunk_".data "007".data "x9.chunk".data (by decide) (by decide) (by decide) (by decide)
    (by decide) (by decide)
  refine ⟨?_, ?_⟩
  · have h1 := h.1
    have : (valueOfDigits "007".data : Int) = 7 := by decide
    rw [this] at h1
    exact h1
  · exact h.2 "/videos/12".data "chunk_abc.chunk".data (by decide) (by decide)

/-- C4: `extractNumber` returns `-1` when the base name has no digit and when
the value of its first run of digits does not fit in an int; when the value
fits, the result is that of a parse that succeeded and is at least `0`, hence
greater than the sentinel `-1`. -/
theorem extractNumber_sentinel (path : String) :
    ((∀ c ∈ (Base path).data, c.isDigit = false) → extractNumber path = -1) ∧
    (∀ pre run post : List Char, (Base path).data = pre ++ run ++ post →
      (∀ c ∈ pre, c.isDigit = false) → run ≠ [] → (∀ c ∈ run, c.isDigit = true) →
      (∀ c, post.head? = some c → c.isDigit = false) →
      (2 ^ (intSize - 1) ≤ valueOfDigits run →
        Atoi (FindString (Base path).data) = .error .ErrRange ∧ extractNumber path = -1) ∧
      (valueOfDigits run < 2 ^ (intSize - 1) →
        Atoi (FindString (Base path).data) = .ok (extractNumber path) ∧
        0 ≤ extractNumber path ∧ -1 < extractNumber path)) := by
  refine ⟨extractNumber_of_no_digit path, ?_⟩
  · intro pre run post hbase hpre hrun hdig hpost
    have hE := extractNumber_of_run path pre run post hbase hpre hrun hdig hpost
    have hA : Atoi (FindString (Base path).data) =
        if valueOfDigits run < 2 ^ (intSize - 1)
        then .ok (valueOfDigits run : Int) else .error .ErrRange := by
      rw [hbase, FindString_run pre run post hpre hrun hdig hpost, Atoi_digits run hrun hdig,
        decimalValue_eq_ofDigits]
    refine ⟨?_, ?_⟩
    · intro hbig
      rw [hE, hA, if_neg (Nat.not_lt.mpr hbig), if_neg (Nat.not_lt.mpr hbig)]
      exact ⟨rfl, rfl⟩
    · intro hfit
      rw [hE, hA, if_pos hfit, if_pos hfit]
      refine ⟨rfl, ?_, ?_⟩
      · exact Int.natCast_nonneg _
      · have := Int.natCast_nonneg (valueOfDigits run)
        omega

/-! ## Facts about `lessSwap` -/

theorem length_swapAt {α : Type} (data : List α) (i j : Nat) :
    (swapAt data i j).length = data.length := by
  unfold swapAt
  split <;> simp

theorem swapAt_perm {α : Type} (data : List α) (i j : Nat) : (swapAt data i j).Perm data := by
  classical
  unfold swapAt
  split
  · next x y hx hy =>
    obtain ⟨hi, rfl⟩ := List.getElem?_eq_some.mp hx
    obtain ⟨hj, rfl⟩ := List.getElem?_eq_some.mp hy
    rw [List.perm_iff_count]
    intro c
    have hj' : j < (data.set i data[j]).length := by simpa using hj
    rw [List.count_set _ _ _ _ hj', List.count_set _ _ _ _ hi]
    have h1 := List.count_pos_iff.mpr (List.getElem_mem hi)
    have h2 := List.count_pos_iff.mpr (List.getElem_mem hj)
    by_cases hij : i = j
    · subst hij
      simp only [List.getElem_set_self]
      by_cases hc : (data[i] == c) = true
      · have : data[i] = c := by simpa using hc
        subst this
        simp
      · simp [hc]
    · rw [List.getElem_set_ne hij]
      by_cases hc1 : (data[i] == c) = true <;> by_cases hc2 : (data[j] == c) = true
      · have e1 : data[i] = c := by simpa using hc1
        have e2 : data[j] = c := by simpa using hc2
        simp only [hc1, hc2, if_true]
        rw [e1] at h1
        omega
      · have e1 : data[i] = c := by simpa using hc1
        simp only [hc1, hc2, if_true]
        rw [e1] at h1
        simp; omega
      · have e2 : data[j] = c := by simpa using hc2
        simp only [hc1, hc2, if_true]
        rw [e2] at h2
        simp
      · simp [hc1, hc2]
  · exact List.Perm.refl _

theorem keyAt_of_lt {α : Type} (key : α → Int) (data : List α) (k : Nat) (h : k < data.length) :
    keyAt key data k = key data[k] := by
  simp [keyAt, List.getElem?_eq_getElem h]

theorem lessAt_keyLess {α : Type} (key : α → Int) (data : List α) (i j : Nat)
    (hi : i < data.length) (hj : j < data.length) :
    lessAt (keyLess key) data i j = decide (keyAt key data i < keyAt key data j) := by
  simp [lessAt, keyAt, keyLess, List.getElem?_eq_getElem hi, List.getElem?_eq_getElem hj]

theorem keyAt_swapAt {α : Type} (key : α → Int) (data : List α) (i j k : Nat)
    (hi : i < data.length) (hj : j < data.length) :
    keyAt key (swapAt data i j) k =
      if k = j then keyAt key data i else if k = i then keyAt key data j
      else keyAt key data k := by
  simp only [swapAt, List.getElem?_eq_getElem hi, List.getElem?_eq_getElem hj, keyAt]
  by_cases hkj : k = j
  · subst hkj
    simp [hj]
  · by_cases hki : k = i
    · subst hki
      simp [hkj, Ne.symm hkj, hi]
    · simp [hkj, hki, Ne.symm hkj, Ne.symm hki]

/-! ## Facts about `RangeKeep`, `SortedOn` and `BoundedBelow` -/

theorem RangeKeep.refl {α : Type} (key : α → Int) (a b : Nat) (data : List α) :
    RangeKeep key a b data data :=
  ⟨List.Perm.refl _, rfl, fun _ _ => rfl, fun k h1 h2 => ⟨k, h1, h2, rfl⟩⟩

theorem RangeKeep.trans {α : Type} {key : α → Int} {a b : Nat} {d₁ d₂ d₃ : List α}
    (h₁ : RangeKeep key a b d₁ d₂) (h₂ : RangeKeep key a b d₂ d₃) : RangeKeep key a b d₁ d₃ := by
  refine ⟨h₂.perm.trans h₁.perm, h₂.length.trans h₁.length, ?_, ?_⟩
  · intro k hk
    rw [h₂.frame k hk, h₁.frame k hk]
  · intro k hk1 hk2
    obtain ⟨k', h1, h2, h3⟩ := h₂.inside k hk1 hk2
    obtain ⟨k'', h4, h5, h6⟩ := h₁.inside k' h1 h2
    exact ⟨k'', h4, h5, h3.trans h6⟩

theorem RangeKeep.mono {α : Type} {key : α → Int} {a b a' b' : Nat} {d₁ d₂ : List α}
    (h : RangeKeep key a' b' d₁ d₂) (ha : a ≤ a') (hb : b' ≤ b) : RangeKeep key a b d₁ d₂ := by
  refine ⟨h.perm, h.length, ?_, ?_⟩
  · intro k hk
    exact h.frame k (by omega)
  · intro k hk1 hk2
    by_cases hin : a' ≤ k ∧ k < b'
    · obtain ⟨k', h1, h2, h3⟩ := h.inside k hin.1 hin.2
      exact ⟨k', by omega, by omega, h3⟩
    · exact ⟨k, hk1, hk2, h.frame k (by omega)⟩

theorem RangeKeep.swap {α : Type} (key : α → Int) (a b : Nat) (data : List α) (i j : Nat)
    (hai : a ≤ i) (hib : i < b) (haj : a ≤ j) (hjb : j < b) (hb : b ≤ data.length) :
    RangeKeep key a b data (swapAt data i j) := by
  have hi : i < data.length := by omega
  have hj : j < data.length := by omega
  refine ⟨swapAt_perm data i j, length_swapAt data i j, ?_, ?_⟩
  · intro k hk
    rw [keyAt_swapAt key data i j k hi hj, if_neg (by omega), if_neg (by omega)]
  · intro k hk1 hk2
    rw [keyAt_swapAt key data i j k hi hj]
    by_cases hkj : k = j
    · exact ⟨i, hai, hib, by rw [if_pos hkj]⟩
    · by_cases hki : k = i
      · exact ⟨j, haj, hjb, by rw [if_neg hkj, if_pos hki]⟩
      · exact ⟨k, hk1, hk2, by rw [if_neg hkj, if_neg hki]⟩

/-- A lower bound on the keys of a range is kept when elements are moved
inside the range. -/
theorem RangeKeep.lower {α : Type} {key : α → Int} {a b : Nat} {d₁ d₂ : List α}
    (h : RangeKeep key a b d₁ d₂) (c : Int)
    (hc : ∀ k, a ≤ k → k < b → c ≤ keyAt key d₁ k) :
    ∀ k, a ≤ k → k < b → c ≤ keyAt key d₂ k := by
  intro k h1 h2
  obtain ⟨k', h3, h4, h5⟩ := h.inside k h1 h2
  rw [h5]
  exact hc k' h3 h4

/-- An upper bound on the keys of a range is kept when elements are moved
inside the range. -/
theorem RangeKeep.upper {α : Type} {key : α → Int} {a b : Nat} {d₁ d₂ : List α}
    (h : RangeKeep key a b d₁ d₂) (c : Int)
    (hc : ∀ k, a ≤ k → k < b → keyAt key d₁ k ≤ c) :
    ∀ k, a ≤ k → k < b → keyAt key d₂ k ≤ c := by
  intro k h1 h2
  obtain ⟨k', h3, h4, h5⟩ := h.inside k h1 h2
  rw [h5]
  exact hc k' h3 h4

theorem RangeKeep.upper_lt {α : Type} {key : α → Int} {a b : Nat} {d₁ d₂ : List α}
    (h : RangeKeep key a b d₁ d₂) (c : Int)
    (hc : ∀ k, a ≤ k → k < b → keyAt key d₁ k < c) :
    ∀ k, a ≤ k → k < b → keyAt key d₂ k < c := by
  intro k h1 h2
  obtain ⟨k', h3, h4, h5⟩ := h.inside k h1 h2
  rw [h5]
  exact hc k' h3 h4

theorem RangeKeep.lower_lt {α : Type} {key : α → Int} {a b : Nat} {d₁ d₂ : List α}
    (h : RangeKeep key a b d₁ d₂) (c : Int)
    (hc : ∀ k, a ≤ k → k < b → c < keyAt key d₁ k) :
    ∀ k, a ≤ k → k < b → c < keyAt key d₂ k := by
  intro k h1 h2
  obtain ⟨k', h3, h4, h5⟩ := h.inside k h1 h2
  rw [h5]
  exact hc k' h3 h4

theorem BoundedBelow.keep {α : Type} {key : α → Int} {a b : Nat} {d₁ d₂ : List α}
    (hb : BoundedBelow key d₁ a b) (h : RangeKeep key a b d₁ d₂) : BoundedBelow key d₂ a b := by
  intro ha k h1 h2
  rw [h.frame (a - 1) (by omega)]
  exact h.lower _ (hb ha) k h1 h2

/-! ## `insertionSort_func` -/

/-- The inner loop of the insertion sort. The element at `a + n` moves left
into its place; `top` is the last index of the part being put in order. -/
theorem insertionInner_spec {α : Type} (key : α → Int) (a top : Nat) :
    ∀ (n : Nat) (data : List α), a + n ≤ top → top < data.length →
      (∀ p q, a ≤ p → p < q → q ≤ top → p ≠ a + n → q ≠ a + n →
        keyAt key data p ≤ keyAt key data q) →
      (∀ q, a + n < q → q ≤ top → keyAt key data (a + n) < keyAt key data q) →
      SortedOn key (insertionInner (keyLess key) a n data) a (top + 1) ∧
      RangeKeep key a (top + 1) data (insertionInner (keyLess key) a n data) := by
  intro n
  induction n with
  | zero =>
    intro data hn htop H1 H2
    refine ⟨?_, RangeKeep.refl _ _ _ _⟩
    intro p q hp hpq hq
    simp only [insertionInner]
    by_cases hpa : p = a
    · subst hpa
      exact le_of_lt (H2 q (by omega) (by omega))
    · exact H1 p q hp hpq (by omega) (by omega) (by omega)
  | succ n ih =>
    intro data hn htop H1 H2
    have hj : a + n + 1 < data.length := by omega
    have hj' : a + n < data.length := by omega
    simp only [insertionInner, lessAt_keyLess key data _ _ hj hj', decide_eq_true_eq]
    by_cases hlt : keyAt key data (a + n + 1) < keyAt key data (a + n)
    · rw [if_pos hlt]
      have hlen := length_swapAt data (a + n + 1) (a + n)
      have hk : ∀ k, keyAt key (swapAt data (a + n + 1) (a + n)) k =
          if k = a + n then keyAt key data (a + n + 1)
          else if k = a + n + 1 then keyAt key data (a + n) else keyAt key data k :=
        fun k => keyAt_swapAt key data _ _ k hj hj'
      obtain ⟨s, r⟩ := ih (swapAt data (a + n + 1) (a + n)) (by omega) (by omega)
        (by
          intro p q hp hpq hq hpn hqn
          rw [hk p, hk q, if_neg hpn, if_neg hqn]
          by_cases hq1 : q = a + n + 1
          · rw [if_pos hq1, if_neg (by omega)]
            exact H1 p (a + n) hp (by omega) (by omega) (by omega) (by omega)
          · rw [if_neg hq1]
            by_cases hp1 : p = a + n + 1
            · rw [if_pos hp1]
              exact H1 (a + n) q (by omega) (by omega) hq (by omega) (by omega)
            · rw [if_neg hp1]
              exact H1 p q hp hpq hq (by omega) (by omega))
        (by
          intro q hq1 hq2
          rw [hk (a + n), hk q, if_pos rfl, if_neg (by omega)]
          by_cases hq3 : q = a + n + 1
          · rw [if_pos hq3]; exact hlt
          · rw [if_neg hq3]
            exact H2 q (by omega) hq2)
      exact ⟨s, (RangeKeep.swap key a (top + 1) data _ _ (by omega) (by omega) (by omega)
        (by omega) (by omega)).trans r⟩
    · rw [if_neg hlt]
      refine ⟨?_, RangeKeep.refl _ _ _ _⟩
      intro p q hp hpq hq
      by_cases hp1 : p = a + n + 1
      · subst hp1
        exact le_of_lt (H2 q (by omega) (by omega))
      · by_cases hq1 : q = a + n + 1
        · subst hq1
          by_cases hp2 : p = a + n
          · subst hp2; omega
          · have := H1 p (a + n) hp (by omega) (by omega) (by omega) (by omega)
            omega
        · exact H1 p q hp hpq (by omega) hp1 hq1

/-- The outer loop of the insertion sort: with `data[a:b-m]` in order at the
start, `data[a:b]` is in order at the end. -/
theorem insertionOuter_spec {α : Type} (key : α → Int) (a b : Nat) :
    ∀ (m : Nat) (data : List α), a + m < b → b ≤ data.length →
      SortedOn key data a (b - m) →
      SortedOn key (insertionOuter (keyLess key) a b m data) a b ∧
      RangeKeep key a b data (insertionOuter (keyLess key) a b m data) := by
  intro m
  induction m with
  | zero =>
    intro data _ _ hs
    exact ⟨by simpa [insertionOuter] using hs, RangeKeep.refl _ _ _ _⟩
  | succ m ih =>
    intro data hm hb hs
    simp only [insertionOuter]
    obtain ⟨s1, r1⟩ := insertionInner_spec key a (b - (m + 1)) (b - (m + 1) - a) data
      (by omega) (by omega)
      (by
        intro p q hp hpq hq hpn hqn
        exact hs p q hp hpq (by omega))
      (by intro q hq1 hq2; omega)
    have e : b - (m + 1) + 1 = b - m := by omega
    rw [e] at s1 r1
    obtain ⟨s2, r2⟩ := ih _ (by omega) (by rw [r1.length]; exact hb) s1
    exact ⟨s2, (r1.mono (le_refl _) (by omega)).trans r2⟩

/-- The insertion sort puts `data[a:b]` in order and moves nothing else. -/
theorem insertionSort_func_spec {α : Type} (key : α → Int) (data : List α) (a b : Nat)
    (hb : b ≤ data.length) :
    SortedOn key (insertionSort_func (keyLess key) data a b) a b ∧
    RangeKeep key a b data (insertionSort_func (keyLess key) data a b) := by
  unfold insertionSort_func
  by_cases hab : a + 1 < b
  · exact insertionOuter_spec key a b (b - (a + 1)) data (by omega) hb
      (by intro i j h1 h2 h3; omega)
  · have : b - (a + 1) = 0 := by omega
    rw [this]
    exact ⟨by intro i j h1 h2 h3; omega, RangeKeep.refl _ _ _ _⟩

/-! ## `partition_func` and `partitionEqual_func` -/

theorem scanUpLess_spec {α : Type} (key : α → Int) (data : List α) (a : Nat)
    (ha : a < data.length) :
    ∀ (n i : Nat), i + n ≤ data.length →
      i ≤ scanUpLess (keyLess key) data a n i ∧
      scanUpLess (keyLess key) data a n i ≤ i + n ∧
      (∀ k, i ≤ k → k < scanUpLess (keyLess key) data a n i →
        keyAt key data k < keyAt key data a) ∧
      (scanUpLess (keyLess key) data a n i < i + n →
        keyAt key data a ≤ keyAt key data (scanUpLess (keyLess key) data a n i)) := by
  intro n
  induction n with
  | zero =>
    intro i _
    simp only [scanUpLess]
    exact ⟨le_refl _, by omega, fun k h1 h2 => by omega, fun h => by omega⟩
  | succ n ih =>
    intro i hi
    simp only [scanUpLess, lessAt_keyLess key data i a (by omega) ha, decide_eq_true_eq]
    by_cases h : keyAt key data i < keyAt key data a
    · rw [if_pos h]
      obtain ⟨h1, h2, h3, h4⟩ := ih (i + 1) (by omega)
      refine ⟨by omega, by omega, ?_, fun hlt => h4 (by omega)⟩
      intro k hk1 hk2
      by_cases hki : k = i
      · subst hki; exact h
      · exact h3 k (by omega) hk2
    · rw [if_neg h]
      exact ⟨le_refl _, by omega, fun k h1 h2 => by omega, fun _ => by omega⟩

theorem scanDownNotLess_spec {α : Type} (key : α → Int) (data : List α) (a : Nat)
    (ha : a < data.length) :
    ∀ (n j : Nat), n ≤ j → j < data.length →
      scanDownNotLess (keyLess key) data a n j ≤ j ∧
      j ≤ scanDownNotLess (keyLess key) data a n j + n ∧
      (∀ k, scanDownNotLess (keyLess key) data a n j < k → k ≤ j →
        keyAt key data a ≤ keyAt key data k) ∧
      (j < scanDownNotLess (keyLess key) data a n j + n →
        keyAt key data (scanDownNotLess (keyLess key) data a n j) < keyAt key data a) := by
  intro n
  induction n with
  | zero =>
    intro j _ _
    simp only [scanDownNotLess]
    exact ⟨le_refl _, by omega, fun k h1 h2 => by omega, fun h => by omega⟩
  | succ n ih =>
    intro j hn hj
    simp only [scanDownNotLess, lessAt_keyLess key data j a hj ha, decide_eq_true_eq]
    by_cases h : keyAt key data j < keyAt key data a
    · rw [if_pos h]
      exact ⟨le_refl _, by omega, fun k h1 h2 => by omega, fun _ => h⟩
    · rw [if_neg h]
      obtain ⟨h1, h2, h3, h4⟩ := ih (j - 1) (by omega) (by omega)
      refine ⟨by omega, by omega, ?_, fun hlt => h4 (by omega)⟩
      intro k hk1 hk2
      by_cases hkj : k = j
      · subst hkj; omega
      · exact h3 k hk1 (by omega)

/-- The main loop of the partition: at the end the keys from `a + 1` to `j` are
below the key of the pivot at `a`, and the keys after `j` are not. -/
theorem partitionLoop_spec {α : Type} (key : α → Int) (a b : Nat) :
    ∀ (fuel : Nat) (data : List α) (i j : Nat),
      a + 1 ≤ i → j < b → i ≤ j + 1 → b ≤ data.length → j + 1 - i ≤ fuel →
      (∀ k, a + 1 ≤ k → k < i → keyAt key data k < keyAt key data a) →
      (∀ k, j < k → k < b → keyAt key data a ≤ keyAt key data k) →
      RangeKeep key (a + 1) b data (partitionLoop (keyLess key) a fuel data i j).1 ∧
      a ≤ (partitionLoop (keyLess key) a fuel data i j).2 ∧
      (partitionLoop (keyLess key) a fuel data i j).2 < b ∧
      (∀ k, a + 1 ≤ k → k ≤ (partitionLoop (keyLess key) a fuel data i j).2 →
        keyAt key (partitionLoop (keyLess key) a fuel data i j).1 k < keyAt key data a) ∧
      (∀ k, (partitionLoop (keyLess key) a fuel data i j).2 < k → k < b →
        keyAt key data a ≤ keyAt key (partitionLoop (keyLess key) a fuel data i j).1 k) := by
  intro fuel
  induction fuel with
  | zero =>
    intro data i j hi hj hij hb hf L R
    simp only [partitionLoop]
    exact ⟨RangeKeep.refl _ _ _ _, by omega, hj, fun k h1 h2 => L k h1 (by omega), R⟩
  | succ fuel ih =>
    intro data i j hi hj hij hb hf L R
    have ha : a < data.length := by omega
    obtain ⟨u1, u2, u3, u4⟩ := scanUpLess_spec key data a ha (j + 1 - i) i (by omega)
    obtain ⟨d1, d2, d3, d4⟩ := scanDownNotLess_spec key data a ha
      (j + 1 - scanUpLess (keyLess key) data a (j + 1 - i) i) j (by omega) (by omega)
    simp only [partitionLoop]
    generalize scanUpLess (keyLess key) data a (j + 1 - i) i = i' at *
    generalize scanDownNotLess (keyLess key) data a (j + 1 - i') j = j' at *
    by_cases hgt : i' > j'
    · rw [if_pos hgt]
      refine ⟨RangeKeep.refl _ _ _ _, by omega, by omega, ?_, ?_⟩
      · intro k h1 h2
        by_cases hk : k < i
        · exact L k h1 hk
        · exact u3 k (by omega) (by omega)
      · intro k h1 h2
        by_cases hk : j < k
        · exact R k hk h2
        · exact d3 k h1 (by omega)
    · rw [if_neg hgt]
      have hi' : keyAt key data a ≤ keyAt key data i' := u4 (by omega)
      have hj' : keyAt key data j' < keyAt key data a := d4 (by omega)
      have hne : i' ≠ j' := by
        intro h; rw [h] at hi'; omega
      have hil : i' < data.length := by omega
      have hjl : j' < data.length := by omega
      have hk : ∀ k, keyAt key (swapAt data i' j') k =
          if k = j' then keyAt key data i' else if k = i' then keyAt key data j'
          else keyAt key data k := fun k => keyAt_swapAt key data i' j' k hil hjl
      have hka : keyAt key (swapAt data i' j') a = keyAt key data a := by
        rw [hk a, if_neg (by omega), if_neg (by omega)]
      obtain ⟨r, m1, m2, m3, m4⟩ := ih (swapAt data i' j') (i' + 1) (j' - 1) (by omega) (by omega)
        (by omega) (by rw [length_swapAt]; exact hb) (by omega)
        (by
          intro k h1 h2
          rw [hka, hk k, if_neg (by omega)]
          by_cases hki : k = i'
          · rw [if_pos hki]; exact hj'
          · rw [if_neg hki]
            by_cases hk2 : k < i
            · exact L k h1 hk2
            · exact u3 k (by omega) (by omega))
        (by
          intro k h1 h2
          rw [hka, hk k]
          by_cases hkj : k = j'
          · rw [if_pos hkj]; exact hi'
          · rw [if_neg hkj, if_neg (by omega)]
            by_cases hk2 : j < k
            · exact R k hk2 h2
            · exact d3 k (by omega) (by omega))
      rw [hka] at m3 m4
      exact ⟨(RangeKeep.swap key (a + 1) b data i' j' (by omega) (by omega) (by omega)
        (by omega) hb).trans r, m1, m2, m3, m4⟩

/-- The partition is one round of its main loop more than the loop after the
first swap (the flag aside), followed by the swap of the pivot into place. -/
theorem partition_func_eq {α : Type} (less : α → α → Bool) (data : List α) (a b pivot : Nat) :
    (partition_func less data a b pivot).1 =
      swapAt (partitionLoop less a (b - a + 1) (swapAt data a pivot) (a + 1) (b - 1)).1
        (partitionLoop less a (b - a + 1) (swapAt data a pivot) (a + 1) (b - 1)).2 a ∧
    (partition_func less data a b pivot).2.1 =
      (partitionLoop less a (b - a + 1) (swapAt data a pivot) (a + 1) (b - 1)).2 := by
  simp only [partition_func, partitionLoop]
  split_ifs <;> exact ⟨rfl, rfl⟩

/-- The partition of `data[a:b]`: the pivot ends at `mid`, the keys before it
are below its key and the keys after it are not. -/
theorem partition_func_spec {α : Type} (key : α → Int) (data : List α) (a b pivot : Nat)
    (hab : a < b) (hb : b ≤ data.length) (hp1 : a ≤ pivot) (hp2 : pivot < b) :
    RangeKeep key a b data (partition_func (keyLess key) data a b pivot).1 ∧
    a ≤ (partition_func (keyLess key) data a b pivot).2.1 ∧
    (partition_func (keyLess key) data a b pivot).2.1 < b ∧
    (∀ k, a ≤ k → k < (partition_func (keyLess key) data a b pivot).2.1 →
      keyAt key (partition_func (keyLess key) data a b pivot).1 k <
        keyAt key (partition_func (keyLess key) data a b pivot).1
          (partition_func (keyLess key) data a b pivot).2.1) ∧
    (∀ k, (partition_func (keyLess key) data a b pivot).2.1 < k → k < b →
      keyAt key (partition_func (keyLess key) data a b pivot).1
          (partition_func (keyLess key) data a b pivot).2.1 ≤
        keyAt key (partition_func (keyLess key) data a b pivot).1 k) := by
  obtain ⟨e1, e2⟩ := partition_func_eq (keyLess key) data a b pivot
  rw [e1, e2]
  have hs := RangeKeep.swap key a b data a pivot (le_refl _) hab hp1 hp2 hb
  have hlen : (swapAt data a pivot).length = data.length := length_swapAt _ _ _
  obtain ⟨r, m1, m2, m3, m4⟩ := partitionLoop_spec key a b (b - a + 1) (swapAt data a pivot)
    (a + 1) (b - 1) (le_refl _) (by omega) (by omega) (by omega) (by omega)
    (by intro k h1 h2; omega) (by intro k h1 h2; omega)
  generalize partitionLoop (keyLess key) a (b - a + 1) (swapAt data a pivot) (a + 1) (b - 1)
    = res at *
  have hrl : res.1.length = data.length := r.length.trans hlen
  have hra : keyAt key res.1 a = keyAt key (swapAt data a pivot) a := r.frame a (by omega)
  have hk : ∀ k, keyAt key (swapAt res.1 res.2 a) k =
      if k = a then keyAt key res.1 res.2 else if k = res.2 then keyAt key res.1 a
      else keyAt key res.1 k := fun k => keyAt_swapAt key res.1 res.2 a k (by omega) (by omega)
  have hmid : keyAt key (swapAt res.1 res.2 a) res.2 = keyAt key (swapAt data a pivot) a := by
    rw [hk res.2]
    by_cases h : res.2 = a
    · rw [if_pos h, h, hra]
    · rw [if_neg h, if_pos rfl, hra]
  refine ⟨hs.trans ((r.mono (by omega) (le_refl _)).trans
    (RangeKeep.swap key a b res.1 res.2 a m1 m2 (le_refl _) hab (by omega))), m1, m2, ?_, ?_⟩
  · intro k h1 h2
    rw [hmid, hk k]
    by_cases hka : k = a
    · rw [if_pos hka]
      exact m3 res.2 (by omega) (le_refl _)
    · rw [if_neg hka, if_neg (by omega)]
      exact m3 k (by omega) (by omega)
  · intro k h1 h2
    rw [hmid, hk k, if_neg (by omega), if_neg (by omega)]
    exact m4 k h1 h2

theorem scanUpNotGreater_spec {α : Type} (key : α → Int) (data : List α) (a : Nat)
    (ha : a < data.length) :
    ∀ (n i : Nat), i + n ≤ data.length →
      i ≤ scanUpNotGreater (keyLess key) data a n i ∧
      scanUpNotGreater (keyLess key) data a n i ≤ i + n ∧
      (∀ k, i ≤ k → k < scanUpNotGreater (keyLess key) data a n i →
        keyAt key data k ≤ keyAt key data a) ∧
      (scanUpNotGreater (keyLess key) data a n i < i + n →
        keyAt key data a < keyAt key data (scanUpNotGreater (keyLess key) data a n i)) := by
  intro n
  induction n with
  | zero =>
    intro i _
    simp only [scanUpNotGreater]
    exact ⟨le_refl _, by omega, fun k h1 h2 => by omega, fun h => by omega⟩
  | succ n ih =>
    intro i hi
    simp only [scanUpNotGreater, lessAt_keyLess key data a i ha (by omega), decide_eq_true_eq]
    by_cases h : keyAt key data a < keyAt key data i
    · rw [if_pos h]
      exact ⟨le_refl _, by omega, fun k h1 h2 => by omega, fun _ => h⟩
    · rw [if_neg h]
      obtain ⟨h1, h2, h3, h4⟩ := ih (i + 1) (by omega)
      refine ⟨by omega, by omega, ?_, fun hlt => h4 (by omega)⟩
      intro k hk1 hk2
      by_cases hki : k = i
      · subst hki; omega
      · exact h3 k (by omega) hk2

theorem scanDownGreater_spec {α : Type} (key : α → Int) (data : List α) (a : Nat)
    (ha : a < data.length) :
    ∀ (n j : Nat), n ≤ j → j < data.length →
      scanDownGreater (keyLess key) data a n j ≤ j ∧
      j ≤ scanDownGreater (keyLess key) data a n j + n ∧
      (∀ k, scanDownGreater (keyLess key) data a n j < k → k ≤ j →
        keyAt key data a < keyAt key data k) ∧
      (j < scanDownGreater (keyLess key) data a n j + n →
        keyAt key data (scanDownGreater (keyLess key) data a n j) ≤ keyAt key data a) := by
  intro n
  induction n with
  | zero =>
    intro j _ _
    simp only [scanDownGreater]
    exact ⟨le_refl _, by omega, fun k h1 h2 => by omega, fun h => by omega⟩
  | succ n ih =>
    intro j hn hj
    simp only [scanDownGreater, lessAt_keyLess key data a j ha hj, decide_eq_true_eq]
    by_cases h : keyAt key data a < keyAt key data j
    · rw [if_pos h]
      obtain ⟨h1, h2, h3, h4⟩ := ih (j - 1) (by omega) (by omega)
      refine ⟨by omega, by omega, ?_, fun hlt => h4 (by omega)⟩
      intro k hk1 hk2
      by_cases hkj : k = j
      · subst hkj; exact h
      · exact h3 k hk1 (by omega)
    · rw [if_neg h]
      exact ⟨le_refl _, by omega, fun k h1 h2 => by omega, fun _ => by omega⟩

/-- The main loop of the partition into equal and greater keys. -/
theorem partitionEqualLoop_spec {α : Type} (key : α → Int) (a b : Nat) :
    ∀ (fuel : Nat) (data : List α) (i j : Nat),
      a + 1 ≤ i → j < b → i ≤ j + 1 → b ≤ data.length → j + 1 - i ≤ fuel →
      (∀ k, a + 1 ≤ k → k < i → keyAt key data k ≤ keyAt key data a) →
      (∀ k, j < k → k < b → keyAt key data a < keyAt key data k) →
      RangeKeep key (a + 1) b data (partitionEqualLoop (keyLess key) a fuel data i j).1 ∧
      a + 1 ≤ (partitionEqualLoop (keyLess key) a fuel data i j).2 ∧
      (partitionEqualLoop (keyLess key) a fuel data i j).2 ≤ b ∧
      (∀ k, a + 1 ≤ k → k < (partitionEqualLoop (keyLess key) a fuel data i j).2 →
        keyAt key (partitionEqualLoop (keyLess key) a fuel data i j).1 k ≤ keyAt key data a) ∧
      (∀ k, (partitionEqualLoop (keyLess key) a fuel data i j).2 ≤ k → k < b →
        keyAt key data a < keyAt key (partitionEqualLoop (keyLess key) a fuel data i j).1 k) := by
  intro fuel
  induction fuel with
  | zero =>
    intro data i j hi hj hij hb hf L R
    simp only [partitionEqualLoop]
    exact ⟨RangeKeep.refl _ _ _ _, hi, by omega, L, fun k h1 h2 => R k (by omega) h2⟩
  | succ fuel ih =>
    intro data i j hi hj hij hb hf L R
    have ha : a < data.length := by omega
    obtain ⟨u1, u2, u3, u4⟩ := scanUpNotGreater_spec key data a ha (j + 1 - i) i (by omega)
    obtain ⟨d1, d2, d3, d4⟩ := scanDownGreater_spec key data a ha
      (j + 1 - scanUpNotGreater (keyLess key) data a (j + 1 - i) i) j (by omega) (by omega)
    simp only [partitionEqualLoop]
    generalize scanUpNotGreater (keyLess key) data a (j + 1 - i) i = i' at *
    generalize scanDownGreater (keyLess key) data a (j + 1 - i') j = j' at *
    by_cases hgt : i' > j'
    · rw [if_pos hgt]
      refine ⟨RangeKeep.refl _ _ _ _, by omega, by omega, ?_, ?_⟩
      · intro k h1 h2
        by_cases hk : k < i
        · exact L k h1 hk
        · exact u3 k (by omega) (by omega)
      · intro k h1 h2
        by_cases hk : j < k
        · exact R k hk h2
        · exact d3 k (by omega) (by omega)
    · rw [if_neg hgt]
      have hi' : keyAt key data a < keyAt key data i' := u4 (by omega)
      have hj' : keyAt key data j' ≤ keyAt key data a := d4 (by omega)
      have hne : i' ≠ j' := by
        intro h; rw [h] at hi'; omega
      have hil : i' < data.length := by omega
      have hjl : j' < data.length := by omega
      have hk : ∀ k, keyAt key (swapAt data i' j') k =
          if k = j' then keyAt key data i' else if k = i' then keyAt key data j'
          else keyAt key data k := fun k => keyAt_swapAt key data i' j' k hil hjl
      have hka : keyAt key (swapAt data i' j') a = keyAt key data a := by
        rw [hk a, if_neg (by omega), if_neg (by omega)]
      obtain ⟨r, m1, m2, m3, m4⟩ := ih (swapAt data i' j') (i' + 1) (j' - 1) (by omega) (by omega)
        (by omega) (by rw [length_swapAt]; exact hb) (by omega)
        (by
          intro k h1 h2
          rw [hka, hk k, if_neg (by omega)]
          by_cases hki : k = i'
          · rw [if_pos hki]; exact hj'
          · rw [if_neg hki]
            by_cases hk2 : k < i
            · exact L k h1 hk2
            · exact u3 k (by omega) (by omega))
        (by
          intro k h1 h2
          rw [hka, hk k]
          by_cases hkj : k = j'
          · rw [if_pos hkj]; exact hi'
          · rw [if_neg hkj, if_neg (by omega)]
            by_cases hk2 : j < k
            · exact R k hk2 h2
            · exact d3 k (by omega) (by omega))
      rw [hka] at m3 m4
      exact ⟨(RangeKeep.swap key (a + 1) b data i' j' (by omega) (by omega) (by omega)
        (by omega) hb).trans r, m1, m2, m3, m4⟩

/-- The partition of `data[a:b]` into the keys up to the pivot's and the keys
above it: the second part starts at `mid`, and `mid` is beyond `a`. -/
theorem partitionEqual_func_spec {α : Type} (key : α → Int) (data : List α) (a b pivot : Nat)
    (hab : a < b) (hb : b ≤ data.length) (hp1 : a ≤ pivot) (hp2 : pivot < b) :
    RangeKeep key a b data (partitionEqual_func (keyLess key) data a b pivot).1 ∧
    a + 1 ≤ (partitionEqual_func (keyLess key) data a b pivot).2 ∧
    (partitionEqual_func (keyLess key) data a b pivot).2 ≤ b ∧
    (∀ k, a ≤ k → k < (partitionEqual_func (keyLess key) data a b pivot).2 →
      keyAt key (partitionEqual_func (keyLess key) data a b pivot).1 k ≤ keyAt key data pivot) ∧
    (∀ k, (partitionEqual_func (keyLess key) data a b pivot).2 ≤ k → k < b →
      keyAt key data pivot < keyAt key (partitionEqual_func (keyLess key) data a b pivot).1 k) := by
  unfold partitionEqual_func
  have hs := RangeKeep.swap key a b data a pivot (le_refl _) hab hp1 hp2 hb
  have hlen : (swapAt data a pivot).length = data.length := length_swapAt _ _ _
  have hpa : keyAt key (swapAt data a pivot) a = keyAt key data pivot := by
    rw [keyAt_swapAt key data a pivot a (by omega) (by omega)]
    by_cases h : a = pivot
    · rw [if_pos h, h]
    · rw [if_neg h, if_pos rfl]
  obtain ⟨r, m1, m2, m3, m4⟩ := partitionEqualLoop_spec key a b (b - a + 1)
    (swapAt data a pivot) (a + 1) (b - 1) (le_refl _) (by omega) (by omega) (by omega)
    (by omega) (by intro k h1 h2; omega) (by intro k h1 h2; omega)
  rw [hpa] at m3 m4
  refine ⟨hs.trans (r.mono (by omega) (le_refl _)), m1, m2, ?_, m4⟩
  intro k h1 h2
  by_cases hka : k = a
  · subst hka
    rw [r.frame k (by omega), hpa]
  · exact m3 k (by omega) h2

/-! ## `heapSort_func` -/

/-- The function `siftDown` restores the heap property from `lo` on when it
fails at `root` only and the children of `root` are not above its parent. -/
theorem siftDown_func_spec {α : Type} (key : α → Int) (hi first lo : Nat) :
    ∀ (fuel : Nat) (data : List α) (root : Nat),
      first + hi ≤ data.length → lo ≤ root → hi ≤ root + fuel →
      (∀ r c, lo ≤ r → r ≠ root → c < hi → (c = 2 * r + 1 ∨ c = 2 * r + 2) →
        keyAt key data (first + c) ≤ keyAt key data (first + r)) →
      (∀ r c, lo ≤ r → (root = 2 * r + 1 ∨ root = 2 * r + 2) → c < hi →
        (c = 2 * root + 1 ∨ c = 2 * root + 2) →
        keyAt key data (first + c) ≤ keyAt key data (first + r)) →
      HeapFrom key (siftDown_func (keyLess key) hi first fuel data root) first hi lo ∧
      RangeKeep key first (first + hi) data
        (siftDown_func (keyLess key) hi first fuel data root) := by
  intro fuel
  induction fuel with
  | zero =>
    intro data root hlen hlo hf H1 H2
    simp only [siftDown_func]
    refine ⟨?_, RangeKeep.refl _ _ _ _⟩
    intro r c hr hc hch
    by_cases hrr : r = root
    · omega
    · exact H1 r c hr hrr hc hch
  | succ fuel ih =>
    intro data root hlen hlo hf H1 H2
    rw [siftDown_func]
    by_cases hleaf : 2 * root + 1 ≥ hi
    · rw [if_pos hleaf]
      refine ⟨?_, RangeKeep.refl _ _ _ _⟩
      intro r c hr hc hch
      by_cases hrr : r = root
      · omega
      · exact H1 r c hr hrr hc hch
    · rw [if_neg hleaf]
      have hchild : ∃ c, (if 2 * root + 1 + 1 < hi ∧
            lessAt (keyLess key) data (first + (2 * root + 1)) (first + (2 * root + 1) + 1) = true
          then 2 * root + 1 + 1 else 2 * root + 1) = c ∧
          (c = 2 * root + 1 ∨ c = 2 * root + 2) ∧ c < hi ∧
          ∀ c', c' < hi → (c' = 2 * root + 1 ∨ c' = 2 * root + 2) →
            keyAt key data (first + c') ≤ keyAt key data (first + c) := by
        by_cases hc : 2 * root + 1 + 1 < hi ∧
            lessAt (keyLess key) data (first + (2 * root + 1)) (first + (2 * root + 1) + 1) = true
        · refine ⟨2 * root + 1 + 1, if_pos hc, Or.inr rfl, hc.1, ?_⟩
          intro c' _ h
          have h2 := hc.2
          rw [lessAt_keyLess key data _ _ (by omega) (by omega), decide_eq_true_eq] at h2
          rcases h with rfl | rfl
          · exact le_of_lt h2
          · exact le_refl _
        · refine ⟨2 * root + 1, if_neg hc, Or.inl rfl, by omega, ?_⟩
          intro c' hc' h
          rcases h with rfl | rfl
          · exact le_refl _
          · have h2 : ¬ lessAt (keyLess key) data (first + (2 * root + 1))
                (first + (2 * root + 1) + 1) = true := fun h => hc ⟨hc', h⟩
            rw [lessAt_keyLess key data _ _ (by omega) (by omega), decide_eq_true_eq] at h2
            have e : first + (2 * root + 2) = first + (2 * root + 1) + 1 := by omega
            rw [e]
            omega
      obtain ⟨c, hceq, hcc, hchi, hmax⟩ := hchild
      simp only [hceq]
      rw [lessAt_keyLess key data _ _ (by omega) (by omega)]
      by_cases hlt : keyAt key data (first + root) < keyAt key data (first + c)
      · rw [if_neg (by simpa using hlt)]
        have hk : ∀ k, keyAt key (swapAt data (first + root) (first + c)) k =
            if k = first + c then keyAt key data (first + root)
            else if k = first + root then keyAt key data (first + c)
            else keyAt key data k :=
          fun k => keyAt_swapAt key data _ _ k (by omega) (by omega)
        obtain ⟨hp, r⟩ := ih (swapAt data (first + root) (first + c)) c
          (by rw [length_swapAt]; exact hlen) (by omega) (by omega)
          (by
            intro r ch hr hrc hch hchild
            have n0 : first + root ≠ first + c := by omega
            by_cases hrr : r = root
            · rw [hrr]
              by_cases hcc' : ch = c
              · rw [hcc']
                simp only [hk, n0, ↓reduceIte]
                exact le_of_lt hlt
              · have n2 : first + ch ≠ first + c := by omega
                have n3 : first + ch ≠ first + root := by omega
                simp only [hk, n0, n2, n3, ↓reduceIte]
                exact hmax ch hch (by omega)
            · have n1 : first + r ≠ first + c := by omega
              have n4 : first + r ≠ first + root := by omega
              by_cases hcr : ch = root
              · rw [hcr]
                simp only [hk, n0, n1, n4, ↓reduceIte]
                exact H2 r c hr (by omega) hchi hcc
              · have n2 : first + ch ≠ first + c := by omega
                have n3 : first + ch ≠ first + root := by omega
                simp only [hk, n1, n4, n2, n3, ↓reduceIte]
                exact H1 r ch hr hrr hch hchild)
          (by
            intro r ch hr hrc hch hchild
            have hrr : r = root := by omega
            have n0 : first + root ≠ first + c := by omega
            have n2 : first + ch ≠ first + c := by omega
            have n3 : first + ch ≠ first + root := by omega
            rw [hrr]
            simp only [hk, n0, n2, n3, ↓reduceIte]
            exact H1 c ch (by omega) (by omega) hch hchild)
        exact ⟨hp, (RangeKeep.swap key first (first + hi) data _ _ (by omega) (by omega)
          (by omega) (by omega) hlen).trans r⟩
      · rw [if_pos (by simpa using hlt)]
        refine ⟨?_, RangeKeep.refl _ _ _ _⟩
        intro r ch hr hch hchild
        by_cases hrr : r = root
        · have := hmax ch hch (by omega)
          rw [hrr]
          omega
        · exact H1 r ch hr hrr hch hchild

/-- The first loop of the heap sort: after the nodes `k - 1`, ..., `0` have
been sifted down, the heap property holds at every node. -/
theorem heapBuild_spec {α : Type} (key : α → Int) (hi first : Nat) :
    ∀ (k : Nat) (data : List α), first + hi ≤ data.length →
      HeapFrom key data first hi k →
      HeapFrom key (heapBuild (keyLess key) hi first k data) first hi 0 ∧
      RangeKeep key first (first + hi) data (heapBuild (keyLess key) hi first k data) := by
  intro k
  induction k with
  | zero =>
    intro data _ h
    exact ⟨h, RangeKeep.refl _ _ _ _⟩
  | succ k ih =>
    intro data hlen h
    simp only [heapBuild]
    obtain ⟨h1, r1⟩ := siftDown_func_spec key hi first k hi data k hlen (le_refl _) (by omega)
      (by
        intro r c hr hrk hc hch
        exact h r c (by omega) hc hch)
      (by
        intro r c hr hrk hc hch
        omega)
    obtain ⟨h2, r2⟩ := ih _ (by rw [r1.length]; exact hlen) h1
    exact ⟨h2, r1.trans r2⟩

/-- In a heap no key is above the key of the root. -/
theorem HeapFrom.root_max {α : Type} {key : α → Int} {data : List α} {first hi : Nat}
    (h : HeapFrom key data first hi 0) :
    ∀ c, c < hi → keyAt key data (first + c) ≤ keyAt key data (first + 0) := by
  intro c
  induction c using Nat.strong_induction_on with
  | _ c ih =>
    intro hc
    by_cases h0 : c = 0
    · subst h0; exact le_refl _
    · have h1 := h ((c - 1) / 2) c (Nat.zero_le _) hc (by omega)
      have h2 := ih ((c - 1) / 2) (by omega) (by omega)
      exact le_trans h1 h2

/-- The second loop of the heap sort: with a heap in `data[first:first+k]` and
the keys from `first + k` on in order and not below the keys before them, the
range `data[first:b]` is in order at the end. -/
theorem heapPop_spec {α : Type} (key : α → Int) (first b : Nat) :
    ∀ (k : Nat) (data : List α), first + k ≤ b → b ≤ data.length →
      HeapFrom key data first k 0 →
      (∀ p q, first ≤ p → p < q → q < b → first + k ≤ q →
        keyAt key data p ≤ keyAt key data q) →
      SortedOn key (heapPop (keyLess key) first k data) first b ∧
      RangeKeep key first b data (heapPop (keyLess key) first k data) := by
  intro k
  induction k with
  | zero =>
    intro data _ _ _ T
    simp only [heapPop]
    exact ⟨fun p q h1 h2 h3 => T p q h1 h2 h3 (by omega), RangeKeep.refl _ _ _ _⟩
  | succ k ih =>
    intro data hk hb H T
    simp only [heapPop]
    have hmax := H.root_max
    have hk0 : ∀ j, keyAt key (swapAt data first (first + k)) j =
        if j = first + k then keyAt key data first
        else if j = first then keyAt key data (first + k)
        else keyAt key data j :=
      fun j => keyAt_swapAt key data _ _ j (by omega) (by omega)
    have rs : RangeKeep key first (first + (k + 1)) data (swapAt data first (first + k)) :=
      RangeKeep.swap key first (first + (k + 1)) data _ _ (le_refl _) (by omega) (by omega)
        (by omega) (by omega)
    obtain ⟨h1, r1⟩ := siftDown_func_spec key k first 0 k (swapAt data first (first + k)) 0
      (by rw [length_swapAt]; omega) (le_refl _) (by omega)
      (by
        intro r c hr hr0 hc hch
        rw [hk0 (first + c), hk0 (first + r), if_neg (by omega), if_neg (by omega),
          if_neg (by omega), if_neg (by omega)]
        exact H r c hr (by omega) hch)
      (by
        intro r c hr hr0 hc hch
        omega)
    have rall : RangeKeep key first (first + (k + 1)) data
        (siftDown_func (keyLess key) k first k (swapAt data first (first + k)) 0) :=
      rs.trans (r1.mono (le_refl _) (by omega))
    obtain ⟨s2, r2⟩ := ih _ (by omega) (by rw [rall.length]; exact hb) h1
      (by
        intro p q hp hpq hq hkq
        by_cases hqk : q = first + k
        · subst hqk
          rw [r1.frame (first + k) (Or.inr (le_refl _)), hk0 (first + k), if_pos rfl]
          obtain ⟨p', hp1, hp2, hp3⟩ := rall.inside p hp (by omega)
          rw [hp3]
          have := hmax (p' - first) (by omega)
          rw [show first + (p' - first) = p' by omega] at this
          simpa using this
        · rw [rall.frame q (Or.inr (by omega))]
          by_cases hpk : p < first + (k + 1)
          · obtain ⟨p', hp1, hp2, hp3⟩ := rall.inside p hp hpk
            rw [hp3]
            exact T p' q hp1 (by omega) hq (by omega)
          · rw [rall.frame p (Or.inr (by omega))]
            exact T p q hp hpq hq (by omega))
    exact ⟨s2, (rall.mono (le_refl _) hk).trans r2⟩

/-- The heap sort puts `data[a:b]` in order and moves nothing else. -/
theorem heapSort_func_spec {α : Type} (key : α → Int) (data : List α) (a b : Nat)
    (hab : a ≤ b) (hb : b ≤ data.length) :
    SortedOn key (heapSort_func (keyLess key) data a b) a b ∧
    RangeKeep key a b data (heapSort_func (keyLess key) data a b) := by
  unfold heapSort_func
  obtain ⟨h1, r1⟩ := heapBuild_spec key (b - a) a ((b - a - 1) / 2 + 1) data (by omega)
    (by
      intro r c hr hc hch
      omega)
  have e : a + (b - a) = b := by omega
  rw [e] at r1
  obtain ⟨s2, r2⟩ := heapPop_spec key a b (b - a) _ (by omega) (by rw [r1.length]; exact hb) h1
    (by
      intro p q hp hpq hq hkq
      omega)
  exact ⟨s2, r1.trans r2⟩

/-! ## `breakPatterns_func`, `reverseRange_func`, `choosePivot_func` -/

theorem two_pow_bitsLen_le (n : Nat) (hn : 0 < n) : 2 ^ bitsLen n ≤ 2 * n := by
  unfold bitsLen
  rw [if_neg (by omega), pow_succ]
  have := Nat.log2_self_le (show n ≠ 0 by omega)
  omega

/-- The index `breakPatterns` draws is inside the range. -/
theorem breakIndex_lt (length random : Nat) (hl : 0 < length) :
    breakIndex length random < length := by
  unfold breakIndex
  have h1 : random &&& (2 ^ bitsLen length - 1) < 2 ^ bitsLen length :=
    Nat.and_lt_two_pow _ (by have := Nat.two_pow_pos (bitsLen length); omega)
  have h2 := two_pow_bitsLen_le length hl
  simp only []
  split_ifs <;> omega

theorem breakPatterns_func_keep {α : Type} (key : α → Int) (data : List α) (a b : Nat)
    (hb : b ≤ data.length) : RangeKeep key a b data (breakPatterns_func data a b) := by
  unfold breakPatterns_func
  by_cases h : b - a ≥ 8
  · rw [if_pos h]
    simp only []
    have i1 := breakIndex_lt (b - a) (xorshiftNext (b - a)) (by omega)
    have i2 := breakIndex_lt (b - a) (xorshiftNext (xorshiftNext (b - a))) (by omega)
    have i3 := breakIndex_lt (b - a) (xorshiftNext (xorshiftNext (xorshiftNext (b - a))))
      (by omega)
    have r1 := RangeKeep.swap key a b data (a + (b - a) / 4 * 2 - 1 - 1 + 0)
      (a + breakIndex (b - a) (xorshiftNext (b - a))) (by omega) (by omega) (by omega)
      (by omega) hb
    have r2 := RangeKeep.swap key a b _ (a + (b - a) / 4 * 2 - 1 - 1 + 1)
      (a + breakIndex (b - a) (xorshiftNext (xorshiftNext (b - a)))) (by omega) (by omega)
      (by omega) (by omega) (r1.length ▸ hb)
    have r3 := RangeKeep.swap key a b _ (a + (b - a) / 4 * 2 - 1 - 1 + 2)
      (a + breakIndex (b - a) (xorshiftNext (xorshiftNext (xorshiftNext (b - a)))))
      (by omega) (by omega) (by omega) (by omega) ((r1.trans r2).length ▸ hb)
    exact (r1.trans r2).trans r3
  · rw [if_neg h]
    exact RangeKeep.refl _ _ _ _

theorem reverseRangeLoop_keep {α : Type} (key : α → Int) (a b : Nat) :
    ∀ (n : Nat) (data : List α) (i j : Nat), a ≤ i → j < b → b ≤ data.length →
      RangeKeep key a b data (reverseRangeLoop n data i j) := by
  intro n
  induction n with
  | zero => intro data i j _ _ _; exact RangeKeep.refl _ _ _ _
  | succ n ih =>
    intro data i j hi hj hb
    simp only [reverseRangeLoop]
    by_cases h : i < j
    · rw [if_pos h]
      have r1 := RangeKeep.swap key a b data i j hi (by omega) (by omega) hj hb
      exact r1.trans (ih _ (i + 1) (j - 1) (by omega) (by omega) (r1.length ▸ hb))
    · rw [if_neg h]
      exact RangeKeep.refl _ _ _ _

theorem reverseRange_func_keep {α : Type} (key : α → Int) (data : List α) (a b : Nat)
    (hab : a < b) (hb : b ≤ data.length) : RangeKeep key a b data (reverseRange_func data a b) :=
  reverseRangeLoop_keep key a b _ data a (b - 1) (le_refl _) (by omega) hb

theorem median_func_mem {α : Type} (less : α → α → Bool) (data : List α) (x y z s : Nat) :
    (median_func less data x y z s).1 = x ∨ (median_func less data x y z s).1 = y ∨
      (median_func less data x y z s).1 = z := by
  simp only [median_func, order2_func]
  split_ifs <;> simp

/-- The pivot chosen is an index of the range. -/
theorem choosePivot_func_range {α : Type} (less : α → α → Bool) (data : List α) (a b : Nat)
    (hab : a < b) :
    a ≤ (choosePivot_func less data a b).1 ∧ (choosePivot_func less data a b).1 < b := by
  have hfst : ∀ (r : Nat × Nat),
      (if r.2 = 0 then (r.1, sortedHint.increasingHint)
        else if r.2 = 12 then (r.1, sortedHint.decreasingHint)
        else (r.1, sortedHint.unknownHint)).1 = r.1 := by
    intro r
    split_ifs <;> rfl
  unfold choosePivot_func
  simp only []
  rw [hfst]
  by_cases h8 : b - a ≥ 8
  · rw [if_pos h8]
    by_cases h50 : b - a ≥ 50
    · rw [if_pos h50]
      simp only [medianAdjacent_func]
      generalize hs1 : (median_func less data (a + (b - a) / 4 * 1 - 1) (a + (b - a) / 4 * 1)
        (a + (b - a) / 4 * 1 + 1) 0) = m1
      generalize hs2 : (median_func less data (a + (b - a) / 4 * 2 - 1) (a + (b - a) / 4 * 2)
        (a + (b - a) / 4 * 2 + 1) m1.2) = m2
      generalize hs3 : (median_func less data (a + (b - a) / 4 * 3 - 1) (a + (b - a) / 4 * 3)
        (a + (b - a) / 4 * 3 + 1) m2.2) = m3
      have e1 := median_func_mem less data (a + (b - a) / 4 * 1 - 1) (a + (b - a) / 4 * 1)
        (a + (b - a) / 4 * 1 + 1) 0
      have e2 := median_func_mem less data (a + (b - a) / 4 * 2 - 1) (a + (b - a) / 4 * 2)
        (a + (b - a) / 4 * 2 + 1) m1.2
      have e3 := median_func_mem less data (a + (b - a) / 4 * 3 - 1) (a + (b - a) / 4 * 3)
        (a + (b - a) / 4 * 3 + 1) m2.2
      rw [hs1] at e1
      rw [hs2] at e2
      rw [hs3] at e3
      have e4 := median_func_mem less data m1.1 m2.1 m3.1 m3.2
      omega
    · rw [if_neg h50]
      have e := median_func_mem less data (a + (b - a) / 4 * 1) (a + (b - a) / 4 * 2)
        (a + (b - a) / 4 * 3) 0
      omega
  · rw [if_neg h8]
    simp only []
    omega

/-- On a range in order, the median of three indices in increasing order is
the middle one, found without a swap. -/
theorem median_func_of_sorted {α : Type} (key : α → Int) (data : List α) (a b x y z s : Nat)
    (hs : SortedOn key data a b) (hb : b ≤ data.length)
    (hx : a ≤ x) (hxy : x < y) (hyz : y < z) (hz : z < b) :
    median_func (keyLess key) data x y z s = (y, s) := by
  have n1 : lessAt (keyLess key) data y x = false := by
    rw [lessAt_keyLess key data y x (by omega) (by omega)]
    have := hs x y hx hxy (by omega)
    simpa using this
  have n2 : lessAt (keyLess key) data z y = false := by
    rw [lessAt_keyLess key data z y (by omega) (by omega)]
    have := hs y z (by omega) hyz hz
    simpa using this
  simp [median_func, order2_func, n1, n2]

/-- On a range in order of eight elements or more, the hint is that the range
is in increasing order. -/
theorem choosePivot_func_of_sorted {α : Type} (key : α → Int) (data : List α) (a b : Nat)
    (hs : SortedOn key data a b) (hb : b ≤ data.length) (h8 : b - a ≥ 8) :
    (choosePivot_func (keyLess key) data a b).2 = sortedHint.increasingHint := by
  unfold choosePivot_func
  simp only []
  rw [if_pos h8]
  by_cases h50 : b - a ≥ 50
  · rw [if_pos h50]
    simp only [medianAdjacent_func]
    have m1 := median_func_of_sorted key data a b (a + (b - a) / 4 * 1 - 1)
      (a + (b - a) / 4 * 1) (a + (b - a) / 4 * 1 + 1) 0 hs hb (by omega) (by omega) (by omega)
      (by omega)
    have m2 := median_func_of_sorted key data a b (a + (b - a) / 4 * 2 - 1)
      (a + (b - a) / 4 * 2) (a + (b - a) / 4 * 2 + 1) 0 hs hb (by omega) (by omega) (by omega)
      (by omega)
    have m3 := median_func_of_sorted key data a b (a + (b - a) / 4 * 3 - 1)
      (a + (b - a) / 4 * 3) (a + (b - a) / 4 * 3 + 1) 0 hs hb (by omega) (by omega) (by omega)
      (by omega)
    have m4 := median_func_of_sorted key data a b (a + (b - a) / 4 * 1)
      (a + (b - a) / 4 * 2) (a + (b - a) / 4 * 3) 0 hs hb (by omega) (by omega) (by omega)
      (by omega)
    simp only [m1, m2, m3, m4]
    simp
  · rw [if_neg h50]
    rw [median_func_of_sorted key data a b _ _ _ _ hs hb (by omega) (by omega) (by omega)
      (by omega)]
    simp

/-! ## `partialInsertionSort_func` -/

theorem SortedOn.of_frame {α : Type} {key : α → Int} {d d' : List α} {a b : Nat}
    (hs : SortedOn key d a b)
    (hf : ∀ k, a ≤ k → k < b → keyAt key d' k = keyAt key d k) : SortedOn key d' a b := by
  intro i j h1 h2 h3
  rw [hf i h1 (by omega), hf j (by omega) h3]
  exact hs i j h1 h2 h3

/-- A range in order up to `i` whose neighbours from `i` to `i'` are in order
is in order up to `i'`. -/
theorem SortedOn.extend {α : Type} {key : α → Int} {data : List α} {a i i' : Nat}
    (hs : SortedOn key data a i) (hai : a < i)
    (hadj : ∀ k, i ≤ k → k < i' → keyAt key data (k - 1) ≤ keyAt key data k) :
    SortedOn key data a i' := by
  intro p q
  induction q using Nat.strong_induction_on with
  | _ q ih =>
    intro hp hpq hq
    by_cases hqi : q < i
    · exact hs p q hp hpq hqi
    · have h1 := hadj q (by omega) hq
      by_cases hpq' : p = q - 1
      · rw [hpq']; exact h1
      · exact le_trans (ih (q - 1) (by omega) hp (by omega) (by omega)) h1

theorem scanSorted_spec {α : Type} (key : α → Int) (data : List α) :
    ∀ (n i : Nat), 1 ≤ i → i + n ≤ data.length →
      i ≤ scanSorted (keyLess key) data n i ∧
      scanSorted (keyLess key) data n i ≤ i + n ∧
      (∀ k, i ≤ k → k < scanSorted (keyLess key) data n i →
        keyAt key data (k - 1) ≤ keyAt key data k) ∧
      (scanSorted (keyLess key) data n i < i + n →
        keyAt key data (scanSorted (keyLess key) data n i) <
          keyAt key data (scanSorted (keyLess key) data n i - 1)) := by
  intro n
  induction n with
  | zero =>
    intro i _ _
    simp only [scanSorted]
    exact ⟨le_refl _, by omega, fun k h1 h2 => by omega, fun h => by omega⟩
  | succ n ih =>
    intro i hi hlen
    simp only [scanSorted, lessAt_keyLess key data i (i - 1) (by omega) (by omega),
      decide_eq_true_eq]
    by_cases h : keyAt key data i < keyAt key data (i - 1)
    · rw [if_pos h]
      exact ⟨le_refl _, by omega, fun k h1 h2 => by omega, fun _ => h⟩
    · rw [if_neg h]
      obtain ⟨h1, h2, h3, h4⟩ := ih (i + 1) (by omega) (by omega)
      refine ⟨by omega, by omega, ?_, fun hlt => h4 (by omega)⟩
      intro k hk1 hk2
      by_cases hki : k = i
      · subst hki; omega
      · exact h3 k (by omega) hk2

/-- On a range in order the scan for an out-of-order pair runs to the end. -/
theorem scanSorted_of_sorted {α : Type} (key : α → Int) (data : List α) (a b : Nat)
    (hs : SortedOn key data a b) (hb : b ≤ data.length) :
    ∀ (n i : Nat), a + 1 ≤ i → i + n ≤ b → scanSorted (keyLess key) data n i = i + n := by
  intro n
  induction n with
  | zero => intro i _ _; rfl
  | succ n ih =>
    intro i hi hn
    simp only [scanSorted, lessAt_keyLess key data i (i - 1) (by omega) (by omega),
      decide_eq_true_eq]
    have := hs (i - 1) i (by omega) (by omega) (by omega)
    rw [if_neg (by omega), ih (i + 1) (by omega) (by omega)]
    omega

/-- With no key of the range below the key before `a`, the shift to the left
stops at `a` at the latest: it is the inner loop of the insertion sort. -/
theorem shiftSmaller_eq {α : Type} (key : α → Int) (a : Nat) :
    ∀ (n : Nat) (data : List α), a + n < data.length →
      BoundedBelow key data a (a + n + 1) →
      shiftSmaller (keyLess key) (a + n) data = insertionInner (keyLess key) a n data := by
  intro n
  induction n with
  | zero =>
    intro data hlen hbb
    cases a with
    | zero => rfl
    | succ a =>
      have := hbb (by omega) (a + 1) (le_refl _) (by omega)
      simp only [Nat.add_sub_cancel] at this
      simp only [Nat.add_zero, shiftSmaller, insertionInner,
        lessAt_keyLess key data (a + 1) a (by omega) (by omega), decide_eq_true_eq]
      rw [if_neg (by omega)]
  | succ n ih =>
    intro data hlen hbb
    have e : a + (n + 1) = a + n + 1 := rfl
    rw [e]
    simp only [shiftSmaller, insertionInner]
    by_cases h : lessAt (keyLess key) data (a + n + 1) (a + n) = true
    · rw [if_pos h, if_pos h]
      apply ih
      · rw [length_swapAt]; omega
      · have r := RangeKeep.swap key a (a + n + 1 + 1) data (a + n + 1) (a + n) (by omega)
          (by omega) (by omega) (by omega) (by omega)
        have hbb' := hbb.keep r
        intro ha k h1 h2
        exact hbb' ha k h1 (by omega)
    · rw [if_neg h, if_neg h]

theorem shiftGreater_keep {α : Type} (key : α → Int) (less : α → α → Bool) (lo b : Nat) :
    ∀ (n : Nat) (data : List α) (j : Nat), lo + 1 ≤ j → j + n ≤ b → b ≤ data.length →
      RangeKeep key lo b data (shiftGreater less n data j) := by
  intro n
  induction n with
  | zero => intro data j _ _ _; exact RangeKeep.refl _ _ _ _
  | succ n ih =>
    intro data j hj hn hb
    simp only [shiftGreater]
    split_ifs
    · have r1 := RangeKeep.swap key lo b data j (j - 1) (by omega) (by omega) (by omega)
        (by omega) hb
      exact r1.trans (ih _ (j + 1) (by omega) (by omega) (r1.length ▸ hb))
    · exact RangeKeep.refl _ _ _ _

/-- The loop of the partial insertion sort moves elements inside the range
only, and the range is in order when it reports so. -/
theorem partialInsertionLoop_spec {α : Type} (key : α → Int) (a b : Nat) :
    ∀ (steps : Nat) (data : List α) (i : Nat), a + 1 ≤ i → i ≤ b → b ≤ data.length →
      SortedOn key data a i → BoundedBelow key data a b →
      RangeKeep key a b data (partialInsertionLoop (keyLess key) a b steps data i).1 ∧
      ((partialInsertionLoop (keyLess key) a b steps data i).2 = true →
        SortedOn key (partialInsertionLoop (keyLess key) a b steps data i).1 a b) := by
  intro steps
  induction steps with
  | zero =>
    intro data i _ _ _ _ _
    simp only [partialInsertionLoop]
    exact ⟨RangeKeep.refl _ _ _ _, fun h => by simp at h⟩
  | succ steps ih =>
    intro data i hi hib hb hs hbb
    obtain ⟨c1, c2, c3, c4⟩ := scanSorted_spec key data (b - i) i (by omega) (by omega)
    simp only [partialInsertionLoop]
    generalize scanSorted (keyLess key) data (b - i) i = i' at *
    have hs' : SortedOn key data a i' := hs.extend (by omega) c3
    by_cases hend : i' = b
    · rw [if_pos hend]
      exact ⟨RangeKeep.refl _ _ _ _, fun _ => hend ▸ hs'⟩
    · rw [if_neg hend]
      by_cases hshort : b - a < 50
      · rw [if_pos hshort]
        exact ⟨RangeKeep.refl _ _ _ _, fun h => by simp at h⟩
      · rw [if_neg hshort]
        have r1 : RangeKeep key a b data (swapAt data i' (i' - 1)) :=
          RangeKeep.swap key a b data i' (i' - 1) (by omega) (by omega) (by omega) (by omega) hb
        have hk1 : ∀ k, keyAt key (swapAt data i' (i' - 1)) k =
            if k = i' - 1 then keyAt key data i'
            else if k = i' then keyAt key data (i' - 1) else keyAt key data k :=
          fun k => keyAt_swapAt key data _ _ k (by omega) (by omega)
        have hbb1 := hbb.keep r1
        have step2 : ∃ data₂, (if i' - a ≥ 2 then
              shiftSmaller (keyLess key) (i' - 1) (swapAt data i' (i' - 1))
            else swapAt data i' (i' - 1)) = data₂ ∧
            SortedOn key data₂ a i' ∧ RangeKeep key a b (swapAt data i' (i' - 1)) data₂ := by
          by_cases h2 : i' - a ≥ 2
          · refine ⟨_, if_pos h2, ?_⟩
            have e : i' - 1 = a + (i' - 1 - a) := by omega
            have hbb1' : BoundedBelow key (swapAt data i' (i' - 1)) a (a + (i' - 1 - a) + 1) := by
              intro ha k h1 h2
              exact hbb1 ha k h1 (by omega)
            have hss := shiftSmaller_eq key a (i' - 1 - a) _
              (by rw [length_swapAt]; omega) hbb1'
            rw [← e] at hss
            rw [hss]
            obtain ⟨s, r⟩ := insertionInner_spec key a (i' - 1) (i' - 1 - a)
              (swapAt data i' (i' - 1)) (by omega) (by rw [length_swapAt]; omega)
              (by
                intro p q hp hpq hq hpn hqn
                rw [hk1 p, hk1 q, if_neg (by omega), if_neg (by omega), if_neg (by omega),
                  if_neg (by omega)]
                exact hs' p q hp hpq (by omega))
              (by intro q hq1 hq2; omega)
            rw [show i' - 1 + 1 = i' by omega] at s r
            exact ⟨s, r.mono (le_refl _) (by omega)⟩
          · refine ⟨_, if_neg h2, ?_, RangeKeep.refl _ _ _ _⟩
            intro p q hp hpq hq
            omega
        obtain ⟨data₂, e2, s2, r2⟩ := step2
        rw [e2]
        have step3 : ∃ data₃, (if b - i' ≥ 2 then
              shiftGreater (keyLess key) (b - (i' + 1)) data₂ (i' + 1)
            else data₂) = data₃ ∧ RangeKeep key i' b data₂ data₃ := by
          by_cases h3 : b - i' ≥ 2
          · exact ⟨_, if_pos h3, shiftGreater_keep key _ i' b _ data₂ (i' + 1) (le_refl _)
              (by omega) (by rw [r2.length, length_swapAt]; exact hb)⟩
          · exact ⟨_, if_neg h3, RangeKeep.refl _ _ _ _⟩
        obtain ⟨data₃, e3, r3⟩ := step3
        rw [e3]
        have rall : RangeKeep key a b data data₃ :=
          (r1.trans r2).trans (r3.mono (by omega) (le_refl _))
        obtain ⟨r4, s4⟩ := ih data₃ i' (by omega) (by omega) (by rw [rall.length]; exact hb)
          (s2.of_frame (fun k h1 h2 => r3.frame k (Or.inl h2))) (hbb.keep rall)
        exact ⟨rall.trans r4, s4⟩

theorem partialInsertionSort_func_spec {α : Type} (key : α → Int) (data : List α) (a b : Nat)
    (hab : a < b) (hb : b ≤ data.length) (hbb : BoundedBelow key data a b) :
    RangeKeep key a b data (partialInsertionSort_func (keyLess key) data a b).1 ∧
    ((partialInsertionSort_func (keyLess key) data a b).2 = true →
      SortedOn key (partialInsertionSort_func (keyLess key) data a b).1 a b) :=
  partialInsertionLoop_spec key a b 5 data (a + 1) (le_refl _) (by omega) hb
    (by intro p q h1 h2 h3; omega) hbb

/-- On a range in order the partial insertion sort reports so at once and
moves nothing. -/
theorem partialInsertionSort_func_of_sorted {α : Type} (key : α → Int) (data : List α)
    (a b : Nat) (hab : a < b) (hb : b ≤ data.length) (hs : SortedOn key data a b) :
    partialInsertionSort_func (keyLess key) data a b = (data, true) := by
  have h : ∀ steps, partialInsertionLoop (keyLess key) a b (steps + 1) data (a + 1) =
      (data, true) := by
    intro steps
    rw [partialInsertionLoop]
    simp only []
    rw [scanSorted_of_sorted key data a b hs hb (b - (a + 1)) (a + 1) (le_refl _) (by omega)]
    rw [if_pos (by omega)]
  exact h 4

/-! ## `pdqsort_func` -/

/-- A range is in order when the parts before and after `mid` are in order,
the keys before `mid` are below the key at `mid` and the keys after it are
not. -/
theorem SortedOn.of_parts {α : Type} {key : α → Int} {d : List α} {a mid b : Nat}
    (hl : SortedOn key d a mid) (hr : SortedOn key d (mid + 1) b)
    (hlo : ∀ k, a ≤ k → k < mid → keyAt key d k < keyAt key d mid)
    (hhi : ∀ k, mid < k → k < b → keyAt key d mid ≤ keyAt key d k) : SortedOn key d a b := by
  intro i j h1 h2 h3
  by_cases hj : j < mid
  · exact hl i j h1 h2 hj
  · by_cases hj' : j = mid
    · rw [hj']; exact le_of_lt (hlo i h1 (by omega))
    · by_cases hi : i < mid
      · exact le_trans (le_of_lt (hlo i h1 hi)) (hhi j (by omega) h3)
      · by_cases hi' : i = mid
        · rw [hi']; exact hhi j (by omega) h3
        · exact hr i j (by omega) h2 h3

theorem pdqsort_func_spec {α : Type} (key : α → Int) :
    ∀ (fuel : Nat) (data : List α) (a b limit : Nat) (wasBalanced wasPartitioned : Bool),
      a ≤ b → b ≤ data.length → b - a ≤ fuel → BoundedBelow key data a b →
      SortedOn key (pdqsort_func (keyLess key) fuel data a b limit wasBalanced wasPartitioned) a b ∧
      RangeKeep key a b data
        (pdqsort_func (keyLess key) fuel data a b limit wasBalanced wasPartitioned) := by
  intro fuel
  induction fuel with
  | zero =>
    intro data a b limit wb wp hab hb hf hbb
    simp only [pdqsort_func]
    exact insertionSort_func_spec key data a b hb
  | succ fuel ih =>
    intro data a b limit wb wp hab hb hf hbb
    generalize hres : pdqsort_func (keyLess key) (fuel + 1) data a b limit wb wp = res
    rw [pdqsort_func] at hres
    revert hres
    by_cases h12 : b - a ≤ 12
    · rw [if_pos h12]
      rintro rfl
      exact insertionSort_func_spec key data a b hb
    rw [if_neg h12]
    by_cases hlim : limit = 0
    · rw [if_pos hlim]
      rintro rfl
      exact heapSort_func_spec key data a b hab hb
    rw [if_neg hlim]
    lift_lets
    extract_lets data₁ limit₁ ph data₂ pivot hint likelySorted pi pe p mid
    intro hres
    have r1 : RangeKeep key a b data data₁ := by
      by_cases hwb : wb = true
      · simp only [data₁, if_pos hwb]
        exact RangeKeep.refl _ _ _ _
      · simp only [data₁, if_neg hwb]
        exact breakPatterns_func_keep key data a b hb
    have hph : a ≤ ph.1 ∧ ph.1 < b :=
      choosePivot_func_range (keyLess key) data₁ a b (by omega)
    have r2 : RangeKeep key a b data₁ data₂ := by
      by_cases hd : ph.2 = sortedHint.decreasingHint
      · simp only [data₂, if_pos hd]
        exact reverseRange_func_keep key data₁ a b (by omega) (by rw [r1.length]; exact hb)
      · simp only [data₂, if_neg hd]
        exact RangeKeep.refl _ _ _ _
    have hpivot : a ≤ pivot ∧ pivot < b := by
      by_cases hd : ph.2 = sortedHint.decreasingHint
      · simp only [pivot, if_pos hd]
        omega
      · simp only [pivot, if_neg hd]
        exact hph
    have r12 := r1.trans r2
    have r3 : RangeKeep key a b data₂ pi.1 ∧ (pi.2 = true → SortedOn key pi.1 a b) := by
      by_cases hl : likelySorted = true
      · simp only [pi, if_pos hl]
        exact partialInsertionSort_func_spec key data₂ a b (by omega)
          (by rw [r12.length]; exact hb) (hbb.keep r12)
      · simp only [pi, if_neg hl]
        exact ⟨RangeKeep.refl _ _ _ _, fun h => by simp at h⟩
    have r123 := r12.trans r3.1
    have hlen3 : b ≤ pi.1.length := by rw [r123.length]; exact hb
    clear_value pi pivot data₂ limit₁ data₁
    by_cases hsorted : pi.2 = true
    · rw [if_pos hsorted] at hres
      subst hres
      exact ⟨r3.2 hsorted, r123⟩
    rw [if_neg hsorted] at hres
    by_cases heq : a > 0 ∧ lessAt (keyLess key) pi.1 (a - 1) pivot = false
    · rw [if_pos heq] at hres
      obtain ⟨q1, q2, q3, q4, q5⟩ := partitionEqual_func_spec key pi.1 a b pivot (by omega) hlen3
        hpivot.1 hpivot.2
      have hmin : keyAt key pi.1 pivot ≤ keyAt key pi.1 (a - 1) := by
        have := heq.2
        rw [lessAt_keyLess key pi.1 _ _ (by omega) (by omega)] at this
        simpa using this
      change RangeKeep key a b pi.1 pe.1 at q1
      change a + 1 ≤ pe.2 at q2
      change pe.2 ≤ b at q3
      change ∀ k, a ≤ k → k < pe.2 → keyAt key pe.1 k ≤ keyAt key pi.1 pivot at q4
      change ∀ k, pe.2 ≤ k → k < b → keyAt key pi.1 pivot < keyAt key pe.1 k at q5
      clear_value pe
      have hbbe := (hbb.keep r123).keep q1
      have hlow : ∀ k, a ≤ k → k < pe.2 → keyAt key pe.1 k = keyAt key pi.1 pivot := by
        intro k h1 h2
        have h3 := q4 k h1 h2
        have h4 := hbbe heq.1 k h1 (by omega)
        rw [q1.frame (a - 1) (Or.inl (by omega))] at h4
        omega
      obtain ⟨s, r⟩ := ih pe.1 pe.2 b limit₁ wb wp q3 (by rw [q1.length]; exact hlen3)
        (by omega)
        (by
          intro _ k h1 h2
          rw [hlow (pe.2 - 1) (by omega) (by omega)]
          exact le_of_lt (q5 k h1 h2))
      rw [hres] at s r
      refine ⟨?_, r123.trans (q1.trans (r.mono (by omega) (le_refl _)))⟩
      intro i j h1 h2 h3
      by_cases hi : i < pe.2
      · rw [r.frame i (Or.inl hi), hlow i h1 hi]
        by_cases hj : j < pe.2
        · rw [r.frame j (Or.inl hj), hlow j (by omega) hj]
        · exact le_of_lt (r.lower_lt _ q5 j (by omega) h3)
      · exact s i j (by omega) h2 h3
    rw [if_neg heq] at hres
    obtain ⟨q1, q2, q3, q4, q5⟩ := partition_func_spec key pi.1 a b pivot (by omega) hlen3
      hpivot.1 hpivot.2
    change RangeKeep key a b pi.1 p.1 at q1
    change a ≤ mid at q2
    change mid < b at q3
    change ∀ k, a ≤ k → k < mid → keyAt key p.1 k < keyAt key p.1 mid at q4
    change ∀ k, mid < k → k < b → keyAt key p.1 mid ≤ keyAt key p.1 k at q5
    clear_value mid
    clear_value p
    have rp := r123.trans q1
    have hlenp : b ≤ p.1.length := by rw [rp.length]; exact hb
    have hbbp := hbb.keep rp
    by_cases hside : mid - a < b - mid
    · rw [if_pos hside] at hres
      obtain ⟨s1, k1⟩ := ih p.1 a mid limit₁ true true q2 (by omega) (by omega)
        (by
          intro ha k h1 h2
          exact hbbp ha k h1 (by omega))
      generalize pdqsort_func (keyLess key) fuel p.1 a mid limit₁ true true = resL at *
      have hmidL : keyAt key resL mid = keyAt key p.1 mid := k1.frame mid (Or.inr (le_refl _))
      obtain ⟨s2, k2⟩ := ih resL (mid + 1) b limit₁ (decide (mid - a ≥ (b - a) / 8)) p.2.2
        (by omega) (by rw [k1.length]; exact hlenp) (by omega)
        (by
          intro _ k h1 h2
          rw [Nat.add_sub_cancel, hmidL, k1.frame k (Or.inr (by omega))]
          exact q5 k (by omega) h2)
      rw [hres] at s2 k2
      have hmidR : keyAt key res mid = keyAt key p.1 mid := by
        rw [k2.frame mid (Or.inl (by omega)), hmidL]
      refine ⟨SortedOn.of_parts ?_ s2 ?_ ?_,
        rp.trans ((k1.mono (le_refl _) (by omega)).trans (k2.mono (by omega) (le_refl _)))⟩
      · exact s1.of_frame (fun k _ h2 => k2.frame k (Or.inl (by omega)))
      · intro k h1 h2
        rw [hmidR, k2.frame k (Or.inl (by omega))]
        exact k1.upper_lt _ q4 k h1 h2
      · intro k h1 h2
        rw [hmidR]
        refine k2.lower _ ?_ k (by omega) h2
        intro k' h1' h2'
        rw [k1.frame k' (Or.inr (by omega))]
        exact q5 k' (by omega) h2'
    · rw [if_neg hside] at hres
      obtain ⟨s1, k1⟩ := ih p.1 (mid + 1) b limit₁ true true (by omega) hlenp (by omega)
        (by
          intro _ k h1 h2
          rw [Nat.add_sub_cancel]
          exact q5 k (by omega) h2)
      generalize pdqsort_func (keyLess key) fuel p.1 (mid + 1) b limit₁ true true = resR at *
      have hmidR : keyAt key resR mid = keyAt key p.1 mid := k1.frame mid (Or.inl (by omega))
      have rpR := rp.trans (k1.mono (by omega) (le_refl _))
      obtain ⟨s2, k2⟩ := ih resR a mid limit₁ (decide (b - mid ≥ (b - a) / 8)) p.2.2
        q2 (by rw [k1.length]; omega) (by omega)
        (by
          intro ha k h1 h2
          exact (hbb.keep rpR) ha k h1 (by omega))
      rw [hres] at s2 k2
      have hmid : keyAt key res mid = keyAt key p.1 mid := by
        rw [k2.frame mid (Or.inr (le_refl _)), hmidR]
      refine ⟨SortedOn.of_parts s2 ?_ ?_ ?_, rpR.trans (k2.mono (le_refl _) (by omega))⟩
      · exact s1.of_frame (fun k h1 _ => k2.frame k (Or.inr (by omega)))
      · intro k h1 h2
        rw [hmid]
        refine k2.upper_lt _ ?_ k h1 h2
        intro k' h1' h2'
        rw [k1.frame k' (Or.inl (by omega))]
        exact q4 k' h1' h2'
      · intro k h1 h2
        rw [hmid, k2.frame k (Or.inr (by omega))]
        exact k1.lower _ (fun k' h1' h2' => q5 k' (by omega) h2') k (by omega) h2

/-! ## `sort.Slice` -/

theorem bitsLen_ne_zero (n : Nat) (hn : 0 < n) : bitsLen n ≠ 0 := by
  unfold bitsLen
  rw [if_neg (by omega)]
  omega

theorem pairwise_of_sortedOn {α : Type} (key : α → Int) (d : List α)
    (h : SortedOn key d 0 d.length) : d.Pairwise (fun x y => key x ≤ key y) := by
  rw [List.pairwise_iff_getElem]
  intro i j hi hj hij
  have := h i j (Nat.zero_le _) hij hj
  rwa [keyAt_of_lt key d i hi, keyAt_of_lt key d j hj] at this

theorem sortedOn_of_pairwise {α : Type} (key : α → Int) (d : List α)
    (h : d.Pairwise (fun x y => key x ≤ key y)) : SortedOn key d 0 d.length := by
  rw [List.pairwise_iff_getElem] at h
  intro i j _ hij hj
  rw [keyAt_of_lt key d i (by omega), keyAt_of_lt key d j hj]
  exact h i j (by omega) hj hij

/-- The result of `sort.Slice` with a comparison of keys holds the elements of
the slice, in an order in which the key never decreases. -/
theorem sortSlice_spec {α : Type} (key : α → Int) (x : List α) :
    (sortSlice (keyLess key) x).Perm x ∧
    (sortSlice (keyLess key) x).Pairwise (fun a b => key a ≤ key b) := by
  obtain ⟨s, r⟩ := pdqsort_func_spec key x.length x 0 x.length (bitsLen x.length) true true
    (Nat.zero_le _) (le_refl _) (by omega) (by intro h; omega)
  refine ⟨r.perm, pairwise_of_sortedOn key _ ?_⟩
  unfold sortSlice
  rw [r.length]
  exact s

theorem insertionInner_of_sorted {α : Type} (key : α → Int) (data : List α) (a b : Nat)
    (hs : SortedOn key data a b) (hb : b ≤ data.length) (n : Nat) (hn : a + n < b) :
    insertionInner (keyLess key) a n data = data := by
  cases n with
  | zero => rfl
  | succ n =>
    have := hs (a + n) (a + n + 1) (by omega) (by omega) hn
    simp only [insertionInner, lessAt_keyLess key data (a + n + 1) (a + n) (by omega) (by omega),
      decide_eq_true_eq]
    rw [if_neg (by omega)]

theorem insertionOuter_of_sorted {α : Type} (key : α → Int) (data : List α) (a b : Nat)
    (hs : SortedOn key data a b) (hb : b ≤ data.length) :
    ∀ m, a + m < b → insertionOuter (keyLess key) a b m data = data := by
  intro m
  induction m with
  | zero => intro _; rfl
  | succ m ih =>
    intro hm
    simp only [insertionOuter]
    rw [insertionInner_of_sorted key data a b hs hb _ (by omega)]
    exact ih (by omega)

/-- The insertion sort moves nothing in a range that is in order. -/
theorem insertionSort_func_of_sorted {α : Type} (key : α → Int) (data : List α) (a b : Nat)
    (hs : SortedOn key data a b) (hb : b ≤ data.length) :
    insertionSort_func (keyLess key) data a b = data := by
  unfold insertionSort_func
  by_cases h : a + 1 < b
  · exact insertionOuter_of_sorted key data a b hs hb _ (by omega)
  · have : b - (a + 1) = 0 := by omega
    rw [this]
    rfl

/-- A slice whose keys never decrease comes back from `sort.Slice` as it is. -/
theorem sortSlice_of_sorted {α : Type} (key : α → Int) (x : List α)
    (h : x.Pairwise (fun a b => key a ≤ key b)) : sortSlice (keyLess key) x = x := by
  have hs := sortedOn_of_pairwise key x h
  unfold sortSlice
  cases hlen : x.length with
  | zero =>
    rw [pdqsort_func]
    exact insertionSort_func_of_sorted key x 0 0 (by intro i j h1 h2 h3; omega) (Nat.zero_le _)
  | succ n =>
    rw [pdqsort_func]
    rw [hlen] at hs
    by_cases h12 : n + 1 - 0 ≤ 12
    · rw [if_pos h12]
      exact insertionSort_func_of_sorted key x 0 (n + 1) hs (by omega)
    · rw [if_neg h12, if_neg (bitsLen_ne_zero (n + 1) (by omega))]
      have hp := choosePivot_func_of_sorted key x 0 (n + 1) hs (by omega) (by omega)
      have hi := partialInsertionSort_func_of_sorted key x 0 (n + 1) (by omega) (by omega) hs
      simp [hp, hi]

/-! ## Slices of at most twelve elements: the order of equal keys -/

theorem swapAt_cons_succ {α : Type} (x : α) (xs : List α) (i j : Nat) :
    swapAt (x :: xs) (i + 1) (j + 1) = x :: swapAt xs i j := by
  simp only [swapAt, List.getElem?_cons_succ]
  split <;> simp

/-- Swapping two neighbours with different keys leaves the elements of each
key in their order. -/
theorem filter_swapAt_adjacent {α : Type} (key : α → Int) (k : Int) :
    ∀ (data : List α) (j : Nat), j + 1 < data.length →
      keyAt key data (j + 1) ≠ keyAt key data j →
      (swapAt data (j + 1) j).filter (fun c => decide (key c = k)) =
        data.filter (fun c => decide (key c = k)) := by
  intro data
  induction data with
  | nil => intro j hj; simp at hj
  | cons x xs ih =>
    intro j hj hne
    cases j with
    | zero =>
      cases xs with
      | nil => simp at hj
      | cons y ys =>
        simp only [keyAt, List.getElem?_cons_succ, List.getElem?_cons_zero] at hne
        simp only [swapAt, List.getElem?_cons_succ, List.getElem?_cons_zero, List.set_cons_succ,
          List.set_cons_zero, List.filter_cons]
        by_cases hx : key x = k
        · have hy : ¬ key y = k := fun h => hne (h.trans hx.symm)
          simp [hx, hy]
        · simp [hx]
    | succ j =>
      rw [swapAt_cons_succ, List.filter_cons, List.filter_cons]
      have := ih j (by simpa using hj)
        (by simpa [keyAt, List.getElem?_cons_succ] using hne)
      rw [this]

theorem length_insertionInner {α : Type} (less : α → α → Bool) (a : Nat) :
    ∀ (n : Nat) (data : List α), (insertionInner less a n data).length = data.length := by
  intro n
  induction n with
  | zero => intro data; rfl
  | succ n ih =>
    intro data
    simp only [insertionInner]
    split_ifs
    · rw [ih, length_swapAt]
    · rfl

theorem insertionInner_filter {α : Type} (key : α → Int) (k : Int) (a : Nat) :
    ∀ (n : Nat) (data : List α), a + n < data.length →
      (insertionInner (keyLess key) a n data).filter (fun c => decide (key c = k)) =
        data.filter (fun c => decide (key c = k)) := by
  intro n
  induction n with
  | zero => intro data _; rfl
  | succ n ih =>
    intro data hn
    simp only [insertionInner, lessAt_keyLess key data (a + n + 1) (a + n) (by omega) (by omega),
      decide_eq_true_eq]
    by_cases h : keyAt key data (a + n + 1) < keyAt key data (a + n)
    · rw [if_pos h, ih _ (by rw [length_swapAt]; omega)]
      exact filter_swapAt_adjacent key k data (a + n) (by omega) (by omega)
    · rw [if_neg h]

theorem insertionOuter_filter {α : Type} (key : α → Int) (k : Int) (a b : Nat) :
    ∀ (m : Nat) (data : List α), a + m < b → b ≤ data.length →
      (insertionOuter (keyLess key) a b m data).filter (fun c => decide (key c = k)) =
        data.filter (fun c => decide (key c = k)) := by
  intro m
  induction m with
  | zero => intro data _ _; rfl
  | succ m ih =>
    intro data hm hb
    simp only [insertionOuter]
    rw [ih _ (by omega) (by rw [length_insertionInner]; exact hb)]
    exact insertionInner_filter key k a _ data (by omega)

theorem insertionSort_func_filter {α : Type} (key : α → Int) (k : Int) (data : List α)
    (a b : Nat) (hb : b ≤ data.length) :
    (insertionSort_func (keyLess key) data a b).filter (fun c => decide (key c = k)) =
      data.filter (fun c => decide (key c = k)) := by
  unfold insertionSort_func
  by_cases h : a + 1 < b
  · exact insertionOuter_filter key k a b _ data (by omega) hb
  · have : b - (a + 1) = 0 := by omega
    rw [this]
    rfl

/-- On a slice of at most twelve elements `sort.Slice` is the insertion sort,
which leaves the elements of each key in the order they had. -/
theorem sortSlice_filter {α : Type} (key : α → Int) (x : List α) (h12 : x.length ≤ 12)
    (k : Int) :
    (sortSlice (keyLess key) x).filter (fun c => decide (key c = k)) =
      x.filter (fun c => decide (key c = k)) := by
  unfold sortSlice
  cases hlen : x.length with
  | zero =>
    rw [pdqsort_func]
    exact insertionSort_func_filter key k x 0 0 (Nat.zero_le _)
  | succ n =>
    rw [pdqsort_func, if_pos (by omega)]
    exact insertionSort_func_filter key k x 0 (n + 1) (by omega)

/-! ## `sort.Slice` with the comparison of `mergeChunks` -/

/-- The comparison of `mergeChunks` is the comparison of the keys that
`extractNumber` gives. -/
theorem chunkLess_eq : chunkLess = keyLess extractNumber := rfl

/-- The sorted fragments are the listed fragments. -/
theorem sortSlice_perm (l : List String) : (sortSlice chunkLess l).Perm l := by
  rw [chunkLess_eq]
  exact (sortSlice_spec extractNumber l).1

/-- The keys never decrease along the sorted fragments. -/
theorem sortSlice_ascending (l : List String) :
    (sortSlice chunkLess l).Pairwise (fun a b => extractNumber a ≤ extractNumber b) := by
  rw [chunkLess_eq]
  exact (sortSlice_spec extractNumber l).2

/-- A list whose keys never decrease is left as it is. -/
theorem sortSlice_of_ascending (l : List String)
    (h : l.Pairwise (fun a b => extractNumber a ≤ extractNumber b)) :
    sortSlice chunkLess l = l := by
  rw [chunkLess_eq]
  exact sortSlice_of_sorted extractNumber l h

/-- Up to twelve fragments, the fragments of each key come out in the order in
which they were listed. -/
theorem sortSlice_keeps_ties (l : List String) (h : l.length ≤ 12) (k : Int) :
    (sortSlice chunkLess l).filter (fun c => decide (extractNumber c = k)) =
      l.filter (fun c => decide (extractNumber c = k)) := by
  rw [chunkLess_eq]
  exact sortSlice_filter extractNumber l h k

/-! ## Facts about `mergeChunks` -/

@[simp] theorem emit_files (w : World) (e : Event) : (w.emit e).files = w.files := rfl

@[simp] theorem emit_ledger (w : World) (e : Event) : (w.emit e).ledger = w.ledger := rfl

@[simp] theorem emit_trace (w : World) (e : Event) : (w.emit e).trace = w.trace ++ [e] := rfl

@[simp] theorem setFile_ledger (w : World) (p : String) (c : Option Bytes) :
    (w.setFile p c).ledger = w.ledger := rfl

@[simp] theorem setFile_trace (w : World) (p : String) (c : Option Bytes) :
    (w.setFile p c).trace = w.trace := rfl

@[simp] theorem setFile_files_same (w : World) (p : String) (c : Option Bytes) :
    (w.setFile p c).files p = c := by
  simp [World.setFile]

theorem setFile_files_other (w : World) (p q : String) (c : Option Bytes) (h : q ≠ p) :
    (w.setFile p c).files q = w.files q := by
  simp [World.setFile, Function.update_noteq h]

/-- The copy loop on fragments that can all be opened and read, none of them
the output file: no error, the fragments are appended to the output in the
order given, and nothing else changes. -/
theorem copyChunks_ok (env : Env) (out : String) (chunks : List String) :
    ∀ (w : World) (base : Bytes), w.files out = some base →
    (∀ c ∈ chunks, env.openFile c = none ∧ env.read c = none ∧ (w.files c).isSome = true) →
    out ∉ chunks →
    (copyChunks env out w chunks).2 = none ∧
    (copyChunks env out w chunks).1.files out =
      some (base ++ (chunks.map (contentOf w)).flatten) ∧
    (∀ p, p ≠ out → (copyChunks env out w chunks).1.files p = w.files p) ∧
    (copyChunks env out w chunks).1.ledger = w.ledger ∧
    (copyChunks env out w chunks).1.trace =
      w.trace ++ (chunks.map (fun c => [Event.openFile c, Event.copy c out])).flatten := by
  induction chunks with
  | nil =>
    intro w base hbase _ _
    simp [copyChunks, hbase]
  | cons c rest ih =>
    intro w base hbase hread hout
    obtain ⟨hopen, hrd, hsome⟩ := hread c (List.mem_cons_self _ _)
    obtain ⟨content, hcontent⟩ := Option.isSome_iff_exists.mp hsome
    have hc : c ≠ out := fun h => hout (h ▸ List.mem_cons_self _ _)
    have hout' : out ∉ rest := fun h => hout (List.mem_cons_of_mem _ h)
    -- the state after this fragment has been copied
    let w' : World := ((w.emit (.openFile c)).emit (.copy c out)).setFile out
      (some (base ++ content))
    have hstep : copyChunks env out w (c :: rest) = copyChunks env out w' rest := by
      simp [copyChunks, hopen, hrd, hcontent, contentOf, hbase, w']
    have hfiles : ∀ p, p ≠ out → w'.files p = w.files p := by
      intro p hp
      simp [w', setFile_files_other _ _ _ _ hp]
    have hcontentOf : ∀ p ∈ rest, contentOf w' p = contentOf w p := by
      intro p hp
      have : p ≠ out := fun h => hout' (h ▸ hp)
      simp [contentOf, hfiles p this]
    have hread' : ∀ p ∈ rest,
        env.openFile p = none ∧ env.read p = none ∧ (w'.files p).isSome = true := by
      intro p hp
      obtain ⟨h1, h2, h3⟩ := hread p (List.mem_cons_of_mem _ hp)
      have : p ≠ out := fun h => hout' (h ▸ hp)
      exact ⟨h1, h2, by rw [hfiles p this]; exact h3⟩
    have hbase' : w'.files out = some (base ++ content) := by simp [w']
    obtain ⟨i1, i2, i3, i4, i5⟩ := ih w' (base ++ content) hbase' hread' hout'
    rw [hstep]
    refine ⟨i1, ?_, ?_, ?_, ?_⟩
    · rw [i2, List.map_congr_left hcontentOf]
      simp [contentOf, hcontent]
    · intro p hp
      rw [i3 p hp, hfiles p hp]
    · rw [i4]; rfl
    · rw [i5]
      simp [w']

theorem openedFiles_append (a b : List Event) :
    openedFiles (a ++ b) = openedFiles a ++ openedFiles b := by
  induction a with
  | nil => rfl
  | cons e es ih => cases e <;> simp [openedFiles, ih]

theorem errorRecords_append (a b : List Event) :
    errorRecords (a ++ b) = errorRecords a ++ errorRecords b := by
  induction a with
  | nil => rfl
  | cons e es ih => cases e <;> simp [errorRecords, ih]

theorem markCalls_append (a b : List Event) :
    markCalls (a ++ b) = markCalls a ++ markCalls b := by
  induction a with
  | nil => rfl
  | cons e es ih => cases e <;> simp [markCalls, ih]

theorem removedFiles_append (a b : List Event) :
    removedFiles (a ++ b) = removedFiles a ++ removedFiles b := by
  induction a with
  | nil => rfl
  | cons e es ih => cases e <;> simp [removedFiles, ih]

theorem execCalls_append (a b : List Event) :
    execCalls (a ++ b) = execCalls a ++ execCalls b := by
  induction a with
  | nil => rfl
  | cons e es ih => cases e <;> simp [execCalls, ih]

/-- The calls of a merge hand nothing to the error store, do not touch the
ledger, remove no file and run no command. -/
theorem readers_of_mergeCalls (evs : List Event) (h : ∀ e ∈ evs, e.isMergeCall = true) :
    errorRecords evs = [] ∧ markCalls evs = [] ∧ removedFiles evs = [] ∧ execCalls evs = [] ∧
    (∀ e ∈ evs, e.isLedgerCall = false) := by
  induction evs with
  | nil => exact ⟨rfl, rfl, rfl, rfl, by simp⟩
  | cons e es ih =>
    have he := h e (List.mem_cons_self _ _)
    obtain ⟨h1, h2, h3, h4, h5⟩ := ih (fun x hx => h x (List.mem_cons_of_mem _ hx))
    cases e <;>
      simp_all [errorRecords, markCalls, removedFiles, execCalls, Event.isMergeCall,
        Event.isLedgerCall]

theorem callsSince_of_trace (w w' : World) (evs : List Event)
    (h : w'.trace = w.trace ++ evs) : callsSince w w' = evs := by
  simp [callsSince, h]

/-- The copy loop, whatever its outcome: it makes file-system calls only,
opens fragments in the order given, all of them when it returns no error, and
leaves the ledger alone. -/
theorem copyChunks_frame (env : Env) (out : String) (chunks : List String) :
    ∀ w : World, ∃ evs : List Event,
      (copyChunks env out w chunks).1.trace = w.trace ++ evs ∧
      (∀ e ∈ evs, e.isMergeCall = true) ∧
      openedFiles evs <+: chunks ∧
      ((copyChunks env out w chunks).2 = none → openedFiles evs = chunks) ∧
      (copyChunks env out w chunks).1.ledger = w.ledger := by
  induction chunks with
  | nil =>
    intro w
    exact ⟨[], by simp [copyChunks], by simp, by simp [openedFiles], by simp [openedFiles], rfl⟩
  | cons c rest ih =>
    intro w
    unfold copyChunks
    cases hopen : env.openFile c with
    | some err =>
      refine ⟨[.openFile c], by simp, by simp [Event.isMergeCall], ?_, by simp, rfl⟩
      simp [openedFiles]
    | none =>
      cases hfile : w.files c with
      | none =>
        refine ⟨[.openFile c], by simp [hfile], by simp [Event.isMergeCall], ?_,
          by simp [hfile], by simp [hfile]⟩
        simp [openedFiles]
      | some content =>
        cases hread : env.read c with
        | some r =>
          obtain ⟨n, err⟩ := r
          refine ⟨[.openFile c, .copy c out], by simp [hfile], by simp [Event.isMergeCall], ?_,
            by simp [hfile], by simp [hfile]⟩
          simp [openedFiles]
        | none =>
          simp only [emit_files, hfile]
          obtain ⟨evs, h1, h2, h3, h4, h5⟩ := ih
            (((w.emit (.openFile c)).emit (.copy c out)).setFile out
              (some (contentOf ((w.emit (.openFile c)).emit (.copy c out)) out ++ content)))
          refine ⟨[.openFile c, .copy c out] ++ evs, ?_, ?_, ?_, ?_, ?_⟩
          · rw [h1]; simp
          · intro e he
            rcases List.mem_append.mp he with he | he
            · rcases List.mem_cons.mp he with rfl | he
              · rfl
              · rw [List.mem_singleton.mp he]; rfl
            · exact h2 e he
          · rw [openedFiles_append]
            simpa [openedFiles, List.prefix_cons_inj] using h3
          · intro hnone
            rw [openedFiles_append, h4 hnone]
            simp [openedFiles]
          · rw [h5]; rfl

/-- The outcome of the copy loop depends on the files only, not on the ledger
or on the calls made before. -/
theorem copyChunks_congr (env : Env) (out : String) (chunks : List String) :
    ∀ w w' : World, w.files = w'.files →
      (copyChunks env out w chunks).2 = (copyChunks env out w' chunks).2 ∧
      (copyChunks env out w chunks).1.files = (copyChunks env out w' chunks).1.files := by
  induction chunks with
  | nil => intro w w' h; exact ⟨rfl, h⟩
  | cons c rest ih =>
    intro w w' h
    unfold copyChunks
    cases hopen : env.openFile c with
    | some err => exact ⟨rfl, h⟩
    | none =>
      simp only [emit_files]
      rw [← h]
      cases hfile : w.files c with
      | none => exact ⟨rfl, h⟩
      | some content =>
        cases hread : env.read c with
        | some r =>
          obtain ⟨n, err⟩ := r
          simp [World.setFile, contentOf, h]
        | none =>
          apply ih
          simp [World.setFile, contentOf, h]

theorem mergeChunks_glob_error (env : Env) (w : World) (inputDir outputFile err : String)
    (hglob : env.glob (Join inputDir "*.chunk") = .error err) :
    mergeChunks env w inputDir outputFile =
      (w.emit (.glob (Join inputDir "*.chunk")), some ("Error reading chunks: " ++ err)) := by
  simp [mergeChunks, hglob]

theorem mergeChunks_mkdir_error (env : Env) (w : World) (inputDir outputFile err : String)
    (chunks : List String)
    (hglob : env.glob (Join inputDir "*.chunk") = .ok chunks)
    (hdir : env.mkdirAll (Dir outputFile) = some err) :
    mergeChunks env w inputDir outputFile =
      ((w.emit (.glob (Join inputDir "*.chunk"))).emit (.mkdirAll (Dir outputFile)),
        some ("Error creating output directory: " ++ err)) := by
  simp [mergeChunks, hglob, hdir]

theorem mergeChunks_create_error (env : Env) (w : World) (inputDir outputFile err : String)
    (chunks : List String)
    (hglob : env.glob (Join inputDir "*.chunk") = .ok chunks)
    (hdir : env.mkdirAll (Dir outputFile) = none)
    (hcreate : env.create outputFile = some err) :
    mergeChunks env w inputDir outputFile =
      (((w.emit (.glob (Join inputDir "*.chunk"))).emit (.mkdirAll (Dir outputFile))).emit
        (.create outputFile), some ("Error creating output file: " ++ err)) := by
  simp [mergeChunks, hglob, hdir, hcreate]

theorem mergeChunks_copy (env : Env) (w : World) (inputDir outputFile : String)
    (chunks : List String)
    (hglob : env.glob (Join inputDir "*.chunk") = .ok chunks)
    (hdir : env.mkdirAll (Dir outputFile) = none)
    (hcreate : env.create outputFile = none) :
    mergeChunks env w inputDir outputFile =
      copyChunks env outputFile
        ((((w.emit (.glob (Join inputDir "*.chunk"))).emit (.mkdirAll (Dir outputFile))).emit
          (.create outputFile)).setFile outputFile (some []))
        (sortSlice chunkLess chunks) := by
  simp [mergeChunks, hglob, hdir, hcreate]

/-- The outcome of `mergeChunks`, whatever it is: it makes file-system calls
only, leaves the ledger alone, and opens the listed fragments in the order
that `sort.Slice` gives them, all of them when it returns no error. -/
theorem mergeChunks_frame (env : Env) (w : World) (inputDir outputFile : String) :
    ∃ evs : List Event,
      (mergeChunks env w inputDir outputFile).1.trace = w.trace ++ evs ∧
      (∀ e ∈ evs, e.isMergeCall = true) ∧
      (mergeChunks env w inputDir outputFile).1.ledger = w.ledger ∧
      ∀ chunks, env.glob (Join inputDir "*.chunk") = .ok chunks →
        openedFiles evs <+: sortSlice chunkLess chunks ∧
        ((mergeChunks env w inputDir outputFile).2 = none →
          openedFiles evs = sortSlice chunkLess chunks) := by
  cases hglob : env.glob (Join inputDir "*.chunk") with
  | error err =>
    rw [mergeChunks_glob_error env w inputDir outputFile err hglob]
    exact ⟨[.glob (Join inputDir "*.chunk")], by simp, by simp [Event.isMergeCall], rfl,
      by intro chunks h; cases h⟩
  | ok chunks =>
    cases hdir : env.mkdirAll (Dir outputFile) with
    | some err =>
      rw [mergeChunks_mkdir_error env w inputDir outputFile err chunks hglob hdir]
      refine ⟨[.glob (Join inputDir "*.chunk"), .mkdirAll (Dir outputFile)], by simp,
        by simp [Event.isMergeCall], rfl, ?_⟩
      intro chunks' _
      simp [openedFiles]
    | none =>
      cases hcreate : env.create outputFile with
      | some err =>
        rw [mergeChunks_create_error env w inputDir outputFile err chunks hglob hdir hcreate]
        refine ⟨[.glob (Join inputDir "*.chunk"), .mkdirAll (Dir outputFile),
          .create outputFile], by simp, by simp [Event.isMergeCall], rfl, ?_⟩
        intro chunks' _
        simp [openedFiles]
      | none =>
        rw [mergeChunks_copy env w inputDir outputFile chunks hglob hdir hcreate]
        obtain ⟨evs, h1, h2, h3, h4, h5⟩ := copyChunks_frame env outputFile
          (sortSlice chunkLess chunks)
          ((((w.emit (.glob (Join inputDir "*.chunk"))).emit (.mkdirAll (Dir outputFile))).emit
            (.create outputFile)).setFile outputFile (some []))
        refine ⟨[.glob (Join inputDir "*.chunk"), .mkdirAll (Dir outputFile),
          .create outputFile] ++ evs, ?_, ?_, ?_, ?_⟩
        · rw [h1]; simp
        · intro e he
          rcases List.mem_append.mp he with he | he
          · simp only [List.mem_cons, List.mem_singleton, List.not_mem_nil, or_false] at he
            rcases he with rfl | rfl | rfl <;> rfl
          · exact h2 e he
        · rw [h5]; rfl
        · intro chunks' hc
          cases hc
          rw [openedFiles_append]
          simpa [openedFiles] using And.intro h3 h4

/-- The outcome of `mergeChunks` depends on the files only. -/
theorem mergeChunks_congr (env : Env) (w w' : World) (inputDir outputFile : String)
    (h : w.files = w'.files) :
    (mergeChunks env w inputDir outputFile).2 = (mergeChunks env w' inputDir outputFile).2 ∧
    (mergeChunks env w inputDir outputFile).1.files =
      (mergeChunks env w' inputDir outputFile).1.files := by
  cases hglob : env.glob (Join inputDir "*.chunk") with
  | error err =>
    rw [mergeChunks_glob_error env w inputDir outputFile err hglob,
      mergeChunks_glob_error env w' inputDir outputFile err hglob]
    exact ⟨rfl, h⟩
  | ok chunks =>
    cases hdir : env.mkdirAll (Dir outputFile) with
    | some err =>
      rw [mergeChunks_mkdir_error env w inputDir outputFile err chunks hglob hdir,
        mergeChunks_mkdir_error env w' inputDir outputFile err chunks hglob hdir]
      exact ⟨rfl, h⟩
    | none =>
      cases hcreate : env.create outputFile with
      | some err =>
        rw [mergeChunks_create_error env w inputDir outputFile err chunks hglob hdir hcreate,
          mergeChunks_create_error env w' inputDir outputFile err chunks hglob hdir hcreate]
        exact ⟨rfl, h⟩
      | none =>
        rw [mergeChunks_copy env w inputDir outputFile chunks hglob hdir hcreate,
          mergeChunks_copy env w' inputDir outputFile chunks hglob hdir hcreate]
        apply copyChunks_congr
        simp [World.setFile, h]

/-- C1: when the fragments of the input directory are listed, each of them can
be opened and read, the output file can be created (its directory and the file
itself) and is not one of the fragments, `mergeChunks` returns nil and the
output file holds the bytes of the fragments, one after the other in the order
of the sort, and nothing else; no other file is changed; with no fragment the
output file is created empty and nil is returned. -/
theorem mergeChunks_concatenates (env : Env) (w : World) (inputDir outputFile : String)
    (chunks : List String)
    (hglob : env.glob (Join inputDir "*.chunk") = .ok chunks)
    (hread : ∀ c ∈ chunks,
      env.openFile c = none ∧ env.read c = none ∧ (w.files c).isSome = true)
    (hdir : env.mkdirAll (Dir outputFile) = none)
    (hcreate : env.create outputFile = none)
    (hout : outputFile ∉ chunks) :
    (mergeChunks env w inputDir outputFile).2 = none ∧
    (mergeChunks env w inputDir outputFile).1.files outputFile =
      some (((sortSlice chunkLess chunks).map (contentOf w)).flatten) ∧
    (∀ p, p ≠ outputFile → (mergeChunks env w inputDir outputFile).1.files p = w.files p) ∧
    openedFiles (callsSince w (mergeChunks env w inputDir outputFile).1) =
      sortSlice chunkLess chunks ∧
    (chunks = [] → (mergeChunks env w inputDir outputFile).1.files outputFile = some []) := by
  have hperm := sortSlice_perm chunks
  -- the state in which the copy loop starts
  let w0 : World := (((w.emit (.glob (Join inputDir "*.chunk"))).emit
    (.mkdirAll (Dir outputFile))).emit (.create outputFile)).setFile outputFile (some [])
  have hmerge : mergeChunks env w inputDir outputFile =
      copyChunks env outputFile w0 (sortSlice chunkLess chunks) :=
    mergeChunks_copy env w inputDir outputFile chunks hglob hdir hcreate
  have hfiles : ∀ p, p ≠ outputFile → w0.files p = w.files p := by
    intro p hp
    simp [w0, setFile_files_other _ _ _ _ hp]
  have hout' : outputFile ∉ sortSlice chunkLess chunks := fun h => hout (hperm.mem_iff.mp h)
  have hread' : ∀ c ∈ sortSlice chunkLess chunks,
      env.openFile c = none ∧ env.read c = none ∧ (w0.files c).isSome = true := by
    intro c hc
    obtain ⟨h1, h2, h3⟩ := hread c (hperm.mem_iff.mp hc)
    have : c ≠ outputFile := fun h => hout' (h ▸ hc)
    exact ⟨h1, h2, by rw [hfiles c this]; exact h3⟩
  have hcontent : ∀ c ∈ sortSlice chunkLess chunks, contentOf w0 c = contentOf w c := by
    intro c hc
    have : c ≠ outputFile := fun h => hout' (h ▸ hc)
    simp [contentOf, hfiles c this]
  obtain ⟨c1, c2, c3, _, c5⟩ := copyChunks_ok env outputFile (sortSlice chunkLess chunks) w0 []
    (by simp [w0]) hread' hout'
  obtain ⟨evs, f1, _, _, f4⟩ := mergeChunks_frame env w inputDir outputFile
  have hfile : (mergeChunks env w inputDir outputFile).1.files outputFile =
      some (((sortSlice chunkLess chunks).map (contentOf w)).flatten) := by
    rw [hmerge, c2, List.map_congr_left hcontent]; rfl
  refine ⟨by rw [hmerge]; exact c1, hfile, ?_, ?_, ?_⟩
  · intro p hp
    rw [hmerge, c3 p hp, hfiles p hp]
  · rw [callsSince_of_trace _ _ evs f1]
    exact (f4 chunks hglob).2 (by rw [hmerge]; exact c1)
  · intro hnil
    rw [hfile, hnil]
    rfl

/-- The fragments holding `AA`, `BB` and `CC` are merged into `AABBCC`. -/
theorem mergeChunks_concatenates_witness :
    (mergeChunks calmEnv threeChunks "/videos/7" "/videos/7/merged.mp4").2 = none ∧
    (mergeChunks calmEnv threeChunks "/videos/7" "/videos/7/merged.mp4").1.files
      "/videos/7/merged.mp4" = some [65, 65, 66, 66, 67, 67] := by
  have h := mergeChunks_concatenates calmEnv threeChunks "/videos/7" "/videos/7/merged.mp4"
    ["/videos/7/chunk_1.chunk", "/videos/7/chunk_2.chunk", "/videos/7/chunk_3.chunk"]
    (by rfl) (by decide) (by decide) (by decide) (by decide)
  refine ⟨h.1, ?_⟩
  rw [h.2.1]
  decide

/-- C2: the order in which `mergeChunks` opens the fragments is that of
`sort.Slice`: a permutation of the list in which the key of `extractNumber`
never decreases from one fragment to the next; a fragment whose base name has
no digit stands before every fragment with a key of `0` or more. So
`chunk_2`, `chunk_10`, `chunk_1` are taken as `chunk_1`, `chunk_2`, `chunk_10`,
and a merge with `chunk_abc` returns nil with `chunk_abc` copied first. -/
theorem mergeChunks_order :
    (∀ chunks : List String,
      (sortSlice chunkLess chunks).Perm chunks ∧
      (sortSlice chunkLess chunks).Chain' (fun a b => extractNumber a ≤ extractNumber b) ∧
      (∀ (i j : Nat) (hi : i < (sortSlice chunkLess chunks).length)
          (hj : j < (sortSlice chunkLess chunks).length),
        (∀ c ∈ (Base ((sortSlice chunkLess chunks).get ⟨i, hi⟩)).data, c.isDigit = false) →
        0 ≤ extractNumber ((sortSlice chunkLess chunks).get ⟨j, hj⟩) → i < j) ∧
      (∀ (env : Env) (w : World) (inputDir outputFile : String),
        env.glob (Join inputDir "*.chunk") = .ok chunks →
        openedFiles (callsSince w (mergeChunks env w inputDir outputFile).1) <+:
          sortSlice chunkLess chunks ∧
        ((mergeChunks env w inputDir outputFile).2 = none →
          openedFiles (callsSince w (mergeChunks env w inputDir outputFile).1) =
            sortSlice chunkLess chunks))) ∧
    sortSlice chunkLess ["/v/chunk_2.chunk", "/v/chunk_10.chunk", "/v/chunk_1.chunk"] =
      ["/v/chunk_1.chunk", "/v/chunk_2.chunk", "/v/chunk_10.chunk"] ∧
    (mergeChunks calmEnv oddChunks "/videos/8" "/videos/8/merged.mp4").2 = none ∧
    openedFiles (mergeChunks calmEnv oddChunks "/videos/8" "/videos/8/merged.mp4").1.trace =
      ["/videos/8/chunk_abc.chunk", "/videos/8/chunk_1.chunk", "/videos/8/chunk_2.chunk",
        "/videos/8/chunk_10.chunk"] := by
  refine ⟨?_, by decide, by decide, by decide⟩
  intro chunks
  have hasc := sortSlice_ascending chunks
  refine ⟨sortSlice_perm chunks, hasc.chain', ?_, ?_⟩
  · intro i j hi hj hnone hkey
    have hi1 : extractNumber ((sortSlice chunkLess chunks).get ⟨i, hi⟩) = -1 :=
      extractNumber_of_no_digit _ hnone
    by_contra hij
    rcases Nat.lt_or_eq_of_le (Nat.not_lt.mp hij) with hlt | heq
    · have := (List.pairwise_iff_getElem.mp hasc) j i hj hi hlt
      simp only [List.get_eq_getElem] at hi1 hkey
      omega
    · subst heq
      omega
  · intro env w inputDir outputFile hglob
    obtain ⟨evs, f1, _, _, f4⟩ := mergeChunks_frame env w inputDir outputFile
    rw [callsSince_of_trace _ _ evs f1]
    exact f4 chunks hglob

/-- C7, as the specification has it, fails. The directory listing
`doubledChunks` is in lexical order, as `filepath.Glob` returns it, and
`mergeChunks` succeeds on it; the fragments are opened with `chunk_1.chunk`
before `chunk_01.chunk`, two names with the same key of which the second is
the lexically smaller one. So names with equal keys are not taken in lexical
order. -/
theorem tie_order_counterexample :
    doubledChunks.Pairwise (fun a b => a.data < b.data) ∧
    doubledEnv.glob (Join "/videos/9" "*.chunk") = .ok doubledChunks ∧
    (mergeChunks doubledEnv doubledWorld "/videos/9" "/videos/9/merged.mp4").2 = none ∧
    openedFiles (mergeChunks doubledEnv doubledWorld "/videos/9" "/videos/9/merged.mp4").1.trace =
      ["/videos/9/chunk_1.chunk", "/videos/9/chunk_01.chunk", "/videos/9/chunk_02.chunk",
        "/videos/9/chunk_2.chunk", "/videos/9/chunk_03.chunk", "/videos/9/chunk_3.chunk",
        "/videos/9/chunk_04.chunk", "/videos/9/chunk_4.chunk", "/videos/9/chunk_05.chunk",
        "/videos/9/chunk_5.chunk", "/videos/9/chunk_06.chunk", "/videos/9/chunk_6.chunk",
        "/videos/9/chunk_07.chunk", "/videos/9/chunk_7.chunk"] ∧
    sortSlice chunkLess doubledChunks =
      ["/videos/9/chunk_1.chunk", "/videos/9/chunk_01.chunk", "/videos/9/chunk_02.chunk",
        "/videos/9/chunk_2.chunk", "/videos/9/chunk_03.chunk", "/videos/9/chunk_3.chunk",
        "/videos/9/chunk_04.chunk", "/videos/9/chunk_4.chunk", "/videos/9/chunk_05.chunk",
        "/videos/9/chunk_5.chunk", "/videos/9/chunk_06.chunk", "/videos/9/chunk_6.chunk",
        "/videos/9/chunk_07.chunk", "/videos/9/chunk_7.chunk"] ∧
    extractNumber "/videos/9/chunk_1.chunk" = extractNumber "/videos/9/chunk_01.chunk" ∧
    "/videos/9/chunk_01.chunk".data < "/videos/9/chunk_1.chunk".data ∧
    ¬ specBefore "/videos/9/chunk_1.chunk" "/videos/9/chunk_01.chunk" ∧
    ¬ (sortSlice chunkLess doubledChunks).Chain' specBefore := by
  have h1 : sortSlice chunkLess doubledChunks =
      ["/videos/9/chunk_1.chunk", "/videos/9/chunk_01.chunk", "/videos/9/chunk_02.chunk",
        "/videos/9/chunk_2.chunk", "/videos/9/chunk_03.chunk", "/videos/9/chunk_3.chunk",
        "/videos/9/chunk_04.chunk", "/videos/9/chunk_4.chunk", "/videos/9/chunk_05.chunk",
        "/videos/9/chunk_5.chunk", "/videos/9/chunk_06.chunk", "/videos/9/chunk_6.chunk",
        "/videos/9/chunk_07.chunk", "/videos/9/chunk_7.chunk"] := by decide
  have h2 : ¬ specBefore "/videos/9/chunk_1.chunk" "/videos/9/chunk_01.chunk" := by
    unfold specBefore
    decide
  refine ⟨by decide, by rfl, by decide, by decide, h1, by decide, by decide, h2, ?_⟩
  rw [h1]
  intro h
  exact h2 (List.chain'_cons.mp h).1

/-- C7, amended: the order `mergeChunks` uses is a permutation of the listing
in which the keys never decrease. Only the keys are compared: up to twelve
fragments, the names of each key stay in the order in which they were listed
(for more, `tie_order_counterexample` shows that they need not). A listing
whose keys never decrease is returned unchanged, and so is the result of a
first sort, also when names share a key. The five names at the end are an
instance: `chunk_07.chunk` stays before `chunk_7.chunk` and `a.chunk` before
`b.chunk`. -/
theorem sortSlice_by_key_only (chunks : List String) :
    (sortSlice chunkLess chunks).Perm chunks ∧
    (sortSlice chunkLess chunks).Pairwise (fun a b => extractNumber a ≤ extractNumber b) ∧
    (chunks.length ≤ 12 → ∀ k : Int,
      (sortSlice chunkLess chunks).filter (fun c => decide (extractNumber c = k)) =
        chunks.filter (fun c => decide (extractNumber c = k))) ∧
    (chunks.Pairwise (fun a b => extractNumber a ≤ extractNumber b) →
      sortSlice chunkLess chunks = chunks) ∧
    sortSlice chunkLess (sortSlice chunkLess chunks) = sortSlice chunkLess chunks ∧
    (∀ env w inputDir outputFile, env.glob (Join inputDir "*.chunk") = .ok chunks →
      (mergeChunks env w inputDir outputFile).2 = none →
      openedFiles (callsSince w (mergeChunks env w inputDir outputFile).1) =
        sortSlice chunkLess chunks) ∧
    sortSlice chunkLess ["/v/chunk_07.chunk", "/v/chunk_1.chunk", "/v/chunk_7.chunk", "/v/a.chunk",
        "/v/b.chunk"] =
      ["/v/a.chunk", "/v/b.chunk", "/v/chunk_1.chunk", "/v/chunk_07.chunk", "/v/chunk_7.chunk"] := by
  refine ⟨sortSlice_perm chunks, sortSlice_ascending chunks, sortSlice_keeps_ties chunks,
    sortSlice_of_ascending chunks, sortSlice_of_ascending _ (sortSlice_ascending chunks), ?_,
    by decide⟩
  intro env w inputDir outputFile hglob hnil
  obtain ⟨evs, f1, _, _, f4⟩ := mergeChunks_frame env w inputDir outputFile
  rw [callsSince_of_trace _ _ evs f1]
  exact (f4 chunks hglob).2 hnil

/-! ## Facts about `logError` and `processVideo` -/

theorem logError_trace (env : Env) (w : World) (task : VideoTask) (message err : String) :
    (logError env w task message err).trace = w.trace ++ logErrorCalls env task message err := by
  simp [logError, RegisterError, logErrorCalls, errorDataOf]

@[simp] theorem logError_files (env : Env) (w : World) (task : VideoTask)
    (message err : String) : (logError env w task message err).files = w.files := rfl

@[simp] theorem logError_ledger (env : Env) (w : World) (task : VideoTask)
    (message err : String) : (logError env w task message err).ledger = w.ledger := rfl

/-- The run of `processVideo`, case by case. The calls of the merge are the
list `mevs`; it is followed by the two calls of `logError` when the merge
fails, by the creation of the output directory and again `logError` when that
fails, by the transcoder and nothing more when the transcoder fails, and by the
removal of the merged file when all went well. -/
theorem processVideo_run (env : Env) (w : World) (task : VideoTask) :
    ∃ mevs : List Event, (∀ e ∈ mevs, e.isMergeCall = true) ∧
      (processVideo env w task).1.ledger = w.ledger ∧
      (∀ err, mergeError env w task = some err →
        (processVideo env w task).2 = some err ∧
        (processVideo env w task).1.files = filesAfterMerge env w task ∧
        (processVideo env w task).1.trace =
          w.trace ++ (.slog .Info "Merging" [("path", .str task.Path)] :: mevs ++
            logErrorCalls env task "Error merging chunks" err)) ∧
      (mergeError env w task = none →
        (∀ err, mkdirError env task = some err →
          (processVideo env w task).2 = some err ∧
          (processVideo env w task).1.files = filesAfterMerge env w task ∧
          (processVideo env w task).1.trace =
            w.trace ++ (.slog .Info "Merging" [("path", .str task.Path)] :: mevs ++
              (transcodeCalls task).take 2 ++
              logErrorCalls env task "Error creating mpeg-dash directory" err)) ∧
        (mkdirError env task = none →
          (∀ err, transcodeError env task = some err →
            (processVideo env w task).2 =
              some ("failed to convert to MPEG-DASH: " ++ err ++ ", output: " ++
                transcodeOutput env task) ∧
            (processVideo env w task).1.files = filesAfterMerge env w task ∧
            (processVideo env w task).1.trace =
              w.trace ++ (.slog .Info "Merging" [("path", .str task.Path)] :: mevs ++
                transcodeCalls task)) ∧
          (transcodeError env task = none →
            (processVideo env w task).2 = none ∧
            (processVideo env w task).1.files =
              (if env.remove (mergedFileOf task) = none then
                Function.update (filesAfterMerge env w task) (mergedFileOf task) none
              else filesAfterMerge env w task) ∧
            (processVideo env w task).1.trace =
              w.trace ++ (.slog .Info "Merging" [("path", .str task.Path)] :: mevs ++
                transcodeCalls task ++ cleanupCalls env task)))) := by
  obtain ⟨mevs, f1, f2, f3, _⟩ := mergeChunks_frame env
    (w.emit (.slog .Info "Merging" [("path", .str task.Path)])) task.Path (mergedFileOf task)
  obtain ⟨c1, c2⟩ := mergeChunks_congr env
    (w.emit (.slog .Info "Merging" [("path", .str task.Path)])) w task.Path (mergedFileOf task) rfl
  simp only [mergeError, filesAfterMerge, mkdirError, transcodeError, transcodeOutput]
  rw [← c1, ← c2]
  simp only [mergedFileOf, mpegDashPathOf, transcodeCalls, cleanupCalls, logErrorCalls,
    errorDataOf] at *
  rcases hm : mergeChunks env (w.emit (.slog .Info "Merging" [("path", .str task.Path)]))
    task.Path (Join task.Path "merged.mp4") with ⟨m, e⟩
  rw [hm] at f1 f3
  simp only at f1 f3
  refine ⟨mevs, f2, ?_, ?_, ?_⟩
  · cases e with
    | some err => simp [processVideo, hm, f3]
    | none =>
      cases hd : env.mkdirAll (Join task.Path "mpeg-dash") with
      | some err => simp [processVideo, hm, hd, f3]
      | none =>
        rcases hf : env.ffmpeg (ffmpegArgs (Join task.Path "merged.mp4")
          (Join task.Path "mpeg-dash")) with ⟨output, ferr⟩
        cases ferr with
        | some err => simp [processVideo, hm, hd, hf, f3]
        | none =>
          cases hr : env.remove (Join task.Path "merged.mp4") with
          | some err => simp [processVideo, hm, hd, hf, hr, f3]
          | none => simp [processVideo, hm, hd, hf, hr, f3]
  · intro err herr
    subst herr
    simp [processVideo, hm, logError, RegisterError, f1]
  · intro hnone
    subst hnone
    refine ⟨?_, ?_⟩
    · intro err hd
      simp [processVideo, hm, hd, logError, RegisterError, f1]
    · intro hd
      rcases hf : env.ffmpeg (ffmpegArgs (Join task.Path "merged.mp4")
        (Join task.Path "mpeg-dash")) with ⟨output, ferr⟩
      refine ⟨?_, ?_⟩
      · intro err herr
        subst herr
        simp [processVideo, hm, hd, hf, f1]
      · intro herr
        subst herr
        cases hr : env.remove (Join task.Path "merged.mp4") with
        | some err => simp [processVideo, hm, hd, hf, hr, f1]
        | none => simp [processVideo, hm, hd, hf, hr, f1, World.setFile]

/-! ## The run of `Handle`, case by case -/

theorem mergeError_emit (env : Env) (w : World) (e : Event) (task : VideoTask) :
    mergeError env (w.emit e) task = mergeError env w task :=
  (mergeChunks_congr env (w.emit e) w task.Path (mergedFileOf task) rfl).1

theorem filesAfterMerge_emit (env : Env) (w : World) (e : Event) (task : VideoTask) :
    filesAfterMerge env (w.emit e) task = filesAfterMerge env w task :=
  (mergeChunks_congr env (w.emit e) w task.Path (mergedFileOf task) rfl).2

theorem Handle_decode_error (env : Env) (w : World) (msg : Message) (task : VideoTask)
    (err : String) (hdec : Unmarshal msg VideoTask.zero = (task, some err)) :
    Handle env w msg = logError env w task "Error decoding task" err := by
  simp [Handle, hdec]

theorem Handle_processed (env : Env) (w : World) (msg : Message) (task : VideoTask)
    (hdec : Unmarshal msg VideoTask.zero = (task, none)) (hproc : task.VideoID ∈ w.ledger) :
    Handle env w msg = (w.emit (.isProcessed task.VideoID)).emit
      (.slog .Warn "Video already processed" [("video_id", .int task.VideoID)]) := by
  simp [Handle, hdec, IsProcessed, hproc]

theorem Handle_process_error (env : Env) (w : World) (msg : Message) (task : VideoTask)
    (err : String) (hdec : Unmarshal msg VideoTask.zero = (task, none))
    (hproc : task.VideoID ∉ w.ledger)
    (hpv : (processVideo env (w.emit (.isProcessed task.VideoID)) task).2 = some err) :
    Handle env w msg =
      logError env (processVideo env (w.emit (.isProcessed task.VideoID)) task).1 task
        "Error processing video" err := by
  rcases hp : processVideo env (w.emit (.isProcessed task.VideoID)) task with ⟨p, perr⟩
  rw [hp] at hpv
  simp only at hpv
  subst hpv
  simp [Handle, hdec, IsProcessed, hproc, hp]

theorem Handle_mark_error (env : Env) (w : World) (msg : Message) (task : VideoTask)
    (err : String) (hdec : Unmarshal msg VideoTask.zero = (task, none))
    (hproc : task.VideoID ∉ w.ledger)
    (hpv : (processVideo env (w.emit (.isProcessed task.VideoID)) task).2 = none)
    (hdown : env.ledgerDown task.VideoID = some err) :
    Handle env w msg =
      logError env ((processVideo env (w.emit (.isProcessed task.VideoID)) task).1.emit
        (.markProcessed task.VideoID)) task "Error marking video as processed" err := by
  rcases hp : processVideo env (w.emit (.isProcessed task.VideoID)) task with ⟨p, perr⟩
  rw [hp] at hpv
  simp only at hpv
  subst hpv
  simp [Handle, hdec, IsProcessed, hproc, hp, MarkProcessed, hdown]

theorem Handle_success (env : Env) (w : World) (msg : Message) (task : VideoTask)
    (hdec : Unmarshal msg VideoTask.zero = (task, none))
    (hproc : task.VideoID ∉ w.ledger)
    (hpv : (processVideo env (w.emit (.isProcessed task.VideoID)) task).2 = none)
    (hdown : env.ledgerDown task.VideoID = none) :
    Handle env w msg =
      ({ ((processVideo env (w.emit (.isProcessed task.VideoID)) task).1.emit
            (.markProcessed task.VideoID)) with
          ledger := w.ledger ++ [task.VideoID] }).emit
        (.slog .Info "Video processing completed" [("video_id", .int task.VideoID)]) := by
  obtain ⟨_, _, hl, _⟩ := processVideo_run env (w.emit (.isProcessed task.VideoID)) task
  rcases hp : processVideo env (w.emit (.isProcessed task.VideoID)) task with ⟨p, perr⟩
  rw [hp] at hpv hl
  simp only [emit_ledger] at hpv hl
  subst hpv
  have hnot : task.VideoID ∉ p.ledger := by rw [hl]; exact hproc
  simp [Handle, hdec, IsProcessed, hproc, hp, MarkProcessed, hdown, hnot, hl]

/-- The run of `Handle` on a message that decodes to a task the ledger does not
hold, case by case: the calls made, the files and the ledger at the end. The
calls of the merge are the list `mevs`. -/
theorem Handle_run (env : Env) (w : World) (msg : Message) (task : VideoTask)
    (hdec : Unmarshal msg VideoTask.zero = (task, none))
    (hproc : task.VideoID ∉ w.ledger) :
    ∃ mevs : List Event, (∀ e ∈ mevs, e.isMergeCall = true) ∧
      (∀ err, mergeError env w task = some err →
        (Handle env w msg).files = filesAfterMerge env w task ∧
        (Handle env w msg).ledger = w.ledger ∧
        (Handle env w msg).trace =
          w.trace ++ (.isProcessed task.VideoID ::
            .slog .Info "Merging" [("path", .str task.Path)] :: mevs ++
            logErrorCalls env task "Error merging chunks" err ++
            logErrorCalls env task "Error processing video" err)) ∧
      (mergeError env w task = none →
        (∀ err, mkdirError env task = some err →
          (Handle env w msg).files = filesAfterMerge env w task ∧
          (Handle env w msg).ledger = w.ledger ∧
          (Handle env w msg).trace =
            w.trace ++ (.isProcessed task.VideoID ::
              .slog .Info "Merging" [("path", .str task.Path)] :: mevs ++
              (transcodeCalls task).take 2 ++
              logErrorCalls env task "Error creating mpeg-dash directory" err ++
              logErrorCalls env task "Error processing video" err)) ∧
        (mkdirError env task = none →
          (∀ err, transcodeError env task = some err →
            (Handle env w msg).files = filesAfterMerge env w task ∧
            (Handle env w msg).ledger = w.ledger ∧
            (Handle env w msg).trace =
              w.trace ++ (.isProcessed task.VideoID ::
                .slog .Info "Merging" [("path", .str task.Path)] :: mevs ++
                transcodeCalls task ++
                logErrorCalls env task "Error processing video"
                  ("failed to convert to MPEG-DASH: " ++ err ++ ", output: " ++
                    transcodeOutput env task))) ∧
          (transcodeError env task = none →
            (∀ err, env.ledgerDown task.VideoID = some err →
              (Handle env w msg).ledger = w.ledger ∧
              (Handle env w msg).trace =
                w.trace ++ (.isProcessed task.VideoID ::
                  .slog .Info "Merging" [("path", .str task.Path)] :: mevs ++
                  transcodeCalls task ++ cleanupCalls env task ++
                  [.markProcessed task.VideoID] ++
                  logErrorCalls env task "Error marking video as processed" err)) ∧
            (env.ledgerDown task.VideoID = none →
              (Handle env w msg).ledger = w.ledger ++ [task.VideoID] ∧
              (Handle env w msg).trace =
                w.trace ++ (.isProcessed task.VideoID ::
                  .slog .Info "Merging" [("path", .str task.Path)] :: mevs ++
                  transcodeCalls task ++ cleanupCalls env task ++
                  [.markProcessed task.VideoID,
                    .slog .Info "Video processing completed"
                      [("video_id", .int task.VideoID)]]))))) := by
  obtain ⟨mevs, hm, hl, hA, hB⟩ := processVideo_run env (w.emit (.isProcessed task.VideoID)) task
  rw [mergeError_emit] at hA hB
  simp only [filesAfterMerge_emit, emit_ledger, emit_trace] at hA hB hl
  refine ⟨mevs, hm, ?_, ?_⟩
  · intro err herr
    obtain ⟨h2, hf, ht⟩ := hA err herr
    rw [Handle_process_error env w msg task err hdec hproc h2]
    refine ⟨by rw [logError_files, hf], by rw [logError_ledger, hl], ?_⟩
    rw [logError_trace, ht]
    simp
  · intro hnone
    obtain ⟨hB1, hB2⟩ := hB hnone
    refine ⟨?_, ?_⟩
    · intro err herr
      obtain ⟨h2, hf, ht⟩ := hB1 err herr
      rw [Handle_process_error env w msg task err hdec hproc h2]
      refine ⟨by rw [logError_files, hf], by rw [logError_ledger, hl], ?_⟩
      rw [logError_trace, ht]
      simp
    · intro hdnone
      obtain ⟨hC1, hC2⟩ := hB2 hdnone
      refine ⟨?_, ?_⟩
      · intro err herr
        obtain ⟨h2, hf, ht⟩ := hC1 err herr
        rw [Handle_process_error env w msg task _ hdec hproc h2]
        refine ⟨by rw [logError_files, hf], by rw [logError_ledger, hl], ?_⟩
        rw [logError_trace, ht]
        simp
      · intro htnone
        obtain ⟨h2, _, ht⟩ := hC2 htnone
        refine ⟨?_, ?_⟩
        · intro err herr
          rw [Handle_mark_error env w msg task err hdec hproc h2 herr]
          refine ⟨by rw [logError_ledger, emit_ledger, hl], ?_⟩
          rw [logError_trace, emit_trace, ht]
          simp
        · intro herr
          rw [Handle_success env w msg task hdec hproc h2 herr]
          refine ⟨rfl, ?_⟩
          simp only [emit_trace]
          rw [ht]
          simp

/-! ## Reading the calls of a run -/

@[simp] theorem errorRecords_logErrorCalls (env : Env) (task : VideoTask) (m e : String) :
    errorRecords (logErrorCalls env task m e) = [errorDataOf env task m e] := rfl

@[simp] theorem markCalls_logErrorCalls (env : Env) (task : VideoTask) (m e : String) :
    markCalls (logErrorCalls env task m e) = [] := rfl

@[simp] theorem removedFiles_logErrorCalls (env : Env) (task : VideoTask) (m e : String) :
    removedFiles (logErrorCalls env task m e) = [] := rfl

@[simp] theorem execCalls_logErrorCalls (env : Env) (task : VideoTask) (m e : String) :
    execCalls (logErrorCalls env task m e) = [] := rfl

@[simp] theorem errorRecords_transcodeCalls (task : VideoTask) :
    errorRecords (transcodeCalls task) = [] := rfl

@[simp] theorem markCalls_transcodeCalls (task : VideoTask) :
    markCalls (transcodeCalls task) = [] := rfl

@[simp] theorem removedFiles_transcodeCalls (task : VideoTask) :
    removedFiles (transcodeCalls task) = [] := rfl

@[simp] theorem execCalls_transcodeCalls (task : VideoTask) :
    execCalls (transcodeCalls task) = [ffmpegArgs (mergedFileOf task) (mpegDashPathOf task)] := rfl

@[simp] theorem errorRecords_mkdirCalls (task : VideoTask) :
    errorRecords ((transcodeCalls task).take 2) = [] := rfl

@[simp] theorem markCalls_mkdirCalls (task : VideoTask) :
    markCalls ((transcodeCalls task).take 2) = [] := rfl

@[simp] theorem removedFiles_mkdirCalls (task : VideoTask) :
    removedFiles ((transcodeCalls task).take 2) = [] := rfl

@[simp] theorem execCalls_mkdirCalls (task : VideoTask) :
    execCalls ((transcodeCalls task).take 2) = [] := rfl

@[simp] theorem errorRecords_cleanupCalls (env : Env) (task : VideoTask) :
    errorRecords (cleanupCalls env task) = [] := by
  unfold cleanupCalls
  cases env.remove (mergedFileOf task) <;> rfl

@[simp] theorem markCalls_cleanupCalls (env : Env) (task : VideoTask) :
    markCalls (cleanupCalls env task) = [] := by
  unfold cleanupCalls
  cases env.remove (mergedFileOf task) <;> rfl

@[simp] theorem execCalls_cleanupCalls (env : Env) (task : VideoTask) :
    execCalls (cleanupCalls env task) = [] := by
  unfold cleanupCalls
  cases env.remove (mergedFileOf task) <;> rfl

theorem getLast?_append_logErrorCalls (l : List Event) (env : Env) (task : VideoTask)
    (m e : String) :
    (l ++ logErrorCalls env task m e).getLast? =
      some (.registerError (errorDataOf env task m e) e) := by
  simp [logErrorCalls, List.getLast?_append]

/-- The last call of a run of `Handle` is the completion note only when the
task has been entered into the ledger by that run. -/
theorem ledger_of_completion (env : Env) (w : World) (msg : Message) (task : VideoTask)
    (hdec : Unmarshal msg VideoTask.zero = (task, none))
    (hlast : (Handle env w msg).trace.getLast? =
      some (.slog .Info "Video processing completed" [("video_id", .int task.VideoID)])) :
    task.VideoID ∈ (Handle env w msg).ledger := by
  by_cases hproc : task.VideoID ∈ w.ledger
  · rw [Handle_processed env w msg task hdec hproc]
    exact hproc
  · obtain ⟨mevs, _, hA, hB⟩ := Handle_run env w msg task hdec hproc
    cases hme : mergeError env w task with
    | some err =>
      obtain ⟨_, _, ht⟩ := hA err hme
      rw [ht, ← List.append_assoc, getLast?_append_logErrorCalls] at hlast
      cases hlast
    | none =>
      obtain ⟨hB1, hB2⟩ := hB hme
      cases hmk : mkdirError env task with
      | some err =>
        obtain ⟨_, _, ht⟩ := hB1 err hmk
        rw [ht, ← List.append_assoc, getLast?_append_logErrorCalls] at hlast
        cases hlast
      | none =>
        obtain ⟨hC1, hC2⟩ := hB2 hmk
        cases htr : transcodeError env task with
        | some err =>
          obtain ⟨_, _, ht⟩ := hC1 err htr
          rw [ht, ← List.append_assoc, getLast?_append_logErrorCalls] at hlast
          cases hlast
        | none =>
          obtain ⟨hD1, hD2⟩ := hC2 htr
          cases hld : env.ledgerDown task.VideoID with
          | some err =>
            obtain ⟨_, ht⟩ := hD1 err hld
            rw [ht, ← List.append_assoc, getLast?_append_logErrorCalls] at hlast
            cases hlast
          | none =>
            rw [(hD2 hld).1]
            simp

/-! ## Properties of `Handle` -/

/-- C5: on a message that decodes to a task which `IsProcessed` reports as
processed, `Handle` reads the ledger, logs a warning and returns: no file
call, no transcoder run, no `MarkProcessed`, no error record, files and ledger
as before. A run that ended with the completion note has entered the task into
the ledger, so a second `Handle` of the same message finds it processed and
leaves files, ledger and error records as the first run left them. -/
theorem Handle_skips_processed (msg : Message) (task : VideoTask)
    (hdec : Unmarshal msg VideoTask.zero = (task, none)) :
    (∀ (env : Env) (w : World), (IsProcessed w task.VideoID).2 = true →
      callsSince w (Handle env w msg) =
        [.isProcessed task.VideoID,
          .slog .Warn "Video already processed" [("video_id", .int task.VideoID)]] ∧
      (∀ e ∈ callsSince w (Handle env w msg), e.isFileCall = false ∧ e.isExec = false) ∧
      markCalls (callsSince w (Handle env w msg)) = [] ∧
      errorRecords (callsSince w (Handle env w msg)) = [] ∧
      (Handle env w msg).files = w.files ∧
      (Handle env w msg).ledger = w.ledger) ∧
    (∀ (env₁ env₂ : Env) (w : World),
      (Handle env₁ w msg).trace.getLast? =
        some (.slog .Info "Video processing completed" [("video_id", .int task.VideoID)]) →
      (IsProcessed (Handle env₁ w msg) task.VideoID).2 = true ∧
      (Handle env₂ (Handle env₁ w msg) msg).files = (Handle env₁ w msg).files ∧
      (Handle env₂ (Handle env₁ w msg) msg).ledger = (Handle env₁ w msg).ledger ∧
      errorRecords (Handle env₂ (Handle env₁ w msg) msg).trace =
        errorRecords (Handle env₁ w msg).trace ∧
      markCalls (callsSince (Handle env₁ w msg) (Handle env₂ (Handle env₁ w msg) msg)) = [] ∧
      execCalls (callsSince (Handle env₁ w msg) (Handle env₂ (Handle env₁ w msg) msg)) = [] ∧
      openedFiles (callsSince (Handle env₁ w msg) (Handle env₂ (Handle env₁ w msg) msg)) =
        []) := by
  have hskip : ∀ (env : Env) (w : World), task.VideoID ∈ w.ledger →
      Handle env w msg = (w.emit (.isProcessed task.VideoID)).emit
        (.slog .Warn "Video already processed" [("video_id", .int task.VideoID)]) :=
    fun env w h => Handle_processed env w msg task hdec h
  refine ⟨?_, ?_⟩
  · intro env w hproc
    have hmem : task.VideoID ∈ w.ledger := by simpa [IsProcessed] using hproc
    have hcalls : callsSince w (Handle env w msg) =
        [.isProcessed task.VideoID,
          .slog .Warn "Video already processed" [("video_id", .int task.VideoID)]] := by
      rw [hskip env w hmem]
      simp [callsSince]
    rw [hcalls, hskip env w hmem]
    refine ⟨rfl, ?_, rfl, rfl, rfl, rfl⟩
    intro e he
    simp only [List.mem_cons, List.mem_singleton, List.not_mem_nil, or_false] at he
    rcases he with rfl | rfl <;> exact ⟨rfl, rfl⟩
  · intro env₁ env₂ w hlast
    have hmem := ledger_of_completion env₁ w msg task hdec hlast
    have hcalls : callsSince (Handle env₁ w msg) (Handle env₂ (Handle env₁ w msg) msg) =
        [.isProcessed task.VideoID,
          .slog .Warn "Video already processed" [("video_id", .int task.VideoID)]] := by
      rw [hskip env₂ _ hmem]
      simp [callsSince]
    rw [hcalls, hskip env₂ _ hmem]
    refine ⟨by simpa [IsProcessed] using hmem, rfl, rfl, ?_, rfl, rfl, rfl⟩
    simp [errorRecords_append, errorRecords]

/-- A second `Handle` of the message for video 7 after a first run that went
well: the ledger still holds 7 alone and no error record has been written. -/
theorem Handle_skips_processed_witness :
    (Handle calmEnv threeChunks task7Message).ledger = [7] ∧
    (Handle calmEnv (Handle calmEnv threeChunks task7Message) task7Message).ledger = [7] ∧
    errorRecords (Handle calmEnv (Handle calmEnv threeChunks task7Message) task7Message).trace =
      [] := by
  have h := (Handle_skips_processed task7Message ⟨7, "/videos/7"⟩ (by decide)).2
    calmEnv calmEnv threeChunks (by decide)
  have h1 : (Handle calmEnv threeChunks task7Message).ledger = [7] := by decide
  have h2 : errorRecords (Handle calmEnv threeChunks task7Message).trace = [] := by decide
  exact ⟨h1, by rw [h.2.2.1, h1], by rw [h.2.2.2.1, h2]⟩

/-- The calls to `MarkProcessed` and the ledger after a run of `Handle` on a
message that decodes to a task the ledger does not hold. -/
theorem Handle_run_marks (env : Env) (w : World) (msg : Message) (task : VideoTask)
    (hdec : Unmarshal msg VideoTask.zero = (task, none))
    (hproc : task.VideoID ∉ w.ledger) :
    (mergeError env w task = none ∧ mkdirError env task = none ∧
        transcodeError env task = none ∧
      markCalls (callsSince w (Handle env w msg)) = [task.VideoID] ∧
      ((Handle env w msg).ledger = w.ledger ∨
        (Handle env w msg).ledger = w.ledger ++ [task.VideoID])) ∨
    ((mergeError env w task ≠ none ∨ mkdirError env task ≠ none ∨
        transcodeError env task ≠ none) ∧
      markCalls (callsSince w (Handle env w msg)) = [] ∧
      (Handle env w msg).ledger = w.ledger) := by
  obtain ⟨mevs, hm, hA, hB⟩ := Handle_run env w msg task hdec hproc
  obtain ⟨_, hmk, _, _, _⟩ := readers_of_mergeCalls mevs hm
  cases hme : mergeError env w task with
  | some err =>
    obtain ⟨_, hl, ht⟩ := hA err hme
    refine Or.inr ⟨Or.inl (by simp), ?_, hl⟩
    rw [callsSince_of_trace _ _ _ ht]
    simp only [markCalls_append, markCalls_cleanupCalls, markCalls_transcodeCalls,
      markCalls_logErrorCalls, markCalls_mkdirCalls]
    simp [markCalls, hmk]
  | none =>
    obtain ⟨hB1, hB2⟩ := hB hme
    cases hmd : mkdirError env task with
    | some err =>
      obtain ⟨_, hl, ht⟩ := hB1 err hmd
      refine Or.inr ⟨Or.inr (Or.inl (by simp)), ?_, hl⟩
      rw [callsSince_of_trace _ _ _ ht]
      simp only [markCalls_append, markCalls_cleanupCalls, markCalls_transcodeCalls,
        markCalls_logErrorCalls, markCalls_mkdirCalls]
      simp [markCalls, hmk]
    | none =>
      obtain ⟨hC1, hC2⟩ := hB2 hmd
      cases htr : transcodeError env task with
      | some err =>
        obtain ⟨_, hl, ht⟩ := hC1 err htr
        refine Or.inr ⟨Or.inr (Or.inr (by simp)), ?_, hl⟩
        rw [callsSince_of_trace _ _ _ ht]
        simp only [markCalls_append, markCalls_cleanupCalls, markCalls_transcodeCalls,
          markCalls_logErrorCalls, markCalls_mkdirCalls]
        simp [markCalls, hmk]
      | none =>
        obtain ⟨hD1, hD2⟩ := hC2 htr
        cases hld : env.ledgerDown task.VideoID with
        | some err =>
          obtain ⟨hl, ht⟩ := hD1 err hld
          refine Or.inl ⟨rfl, rfl, rfl, ?_, Or.inl hl⟩
          rw [callsSince_of_trace _ _ _ ht]
          simp only [markCalls_append, markCalls_cleanupCalls, markCalls_transcodeCalls,
            markCalls_logErrorCalls, markCalls_mkdirCalls]
          simp [markCalls, hmk]
        | none =>
          obtain ⟨hl, ht⟩ := hD2 hld
          refine Or.inl ⟨rfl, rfl, rfl, ?_, Or.inr hl⟩
          rw [callsSince_of_trace _ _ _ ht]
          simp only [markCalls_append, markCalls_cleanupCalls, markCalls_transcodeCalls,
            markCalls_logErrorCalls, markCalls_mkdirCalls]
          simp [markCalls, hmk]

/-- C6: in a run of `Handle`, `MarkProcessed` is called at most once. If it is
called, or if the ledger changes, then the message decoded, the task was not
in the ledger, the merge returned nil, the output directory was created and
the transcoder returned no error; the call is for the identifier of the task.
If the message does not decode, or the merge fails, or the transcoder fails,
`MarkProcessed` is not called and the ledger is as before. -/
theorem Handle_marks_only_on_success (env : Env) (w : World) (msg : Message) :
    (markCalls (callsSince w (Handle env w msg))).length ≤ 1 ∧
    ((markCalls (callsSince w (Handle env w msg)) ≠ [] ∨ (Handle env w msg).ledger ≠ w.ledger) →
      (Unmarshal msg VideoTask.zero).2 = none ∧
      (IsProcessed w (Unmarshal msg VideoTask.zero).1.VideoID).2 = false ∧
      mergeError env w (Unmarshal msg VideoTask.zero).1 = none ∧
      mkdirError env (Unmarshal msg VideoTask.zero).1 = none ∧
      transcodeError env (Unmarshal msg VideoTask.zero).1 = none ∧
      markCalls (callsSince w (Handle env w msg)) = [(Unmarshal msg VideoTask.zero).1.VideoID] ∧
      ((Handle env w msg).ledger ≠ w.ledger →
        (Handle env w msg).ledger = w.ledger ++ [(Unmarshal msg VideoTask.zero).1.VideoID])) ∧
    (((Unmarshal msg VideoTask.zero).2 ≠ none ∨
        mergeError env w (Unmarshal msg VideoTask.zero).1 ≠ none ∨
        transcodeError env (Unmarshal msg VideoTask.zero).1 ≠ none) →
      markCalls (callsSince w (Handle env w msg)) = [] ∧
      (Handle env w msg).ledger = w.ledger) := by
  rcases hu : Unmarshal msg VideoTask.zero with ⟨task, uerr⟩
  simp only
  cases uerr with
  | some err =>
    have hH := Handle_decode_error env w msg task err hu
    have hc : callsSince w (Handle env w msg) = logErrorCalls env task "Error decoding task" err :=
      callsSince_of_trace _ _ _ (by rw [hH, logError_trace])
    have hl : (Handle env w msg).ledger = w.ledger := by rw [hH]; rfl
    rw [hc, hl]
    simp
  | none =>
    by_cases hproc : task.VideoID ∈ w.ledger
    · have hH := Handle_processed env w msg task hu hproc
      have hc : markCalls (callsSince w (Handle env w msg)) = [] := by
        rw [hH]; simp [callsSince, markCalls]
      have hl : (Handle env w msg).ledger = w.ledger := by rw [hH]; rfl
      rw [hc, hl]
      simp
    · have hnp : (IsProcessed w task.VideoID).2 = false := by simp [IsProcessed, hproc]
      rcases Handle_run_marks env w msg task hu hproc with
        ⟨h1, h2, h3, h4, h5⟩ | ⟨h1, h2, h3⟩
      · rw [h4]
        refine ⟨by simp, ?_, ?_⟩
        · intro _
          refine ⟨rfl, hnp, h1, h2, h3, rfl, ?_⟩
          intro hne
          rcases h5 with h5 | h5
          · exact absurd h5 hne
          · exact h5
        · intro hfail
          rcases hfail with hf | hf | hf
          · exact absurd rfl hf
          · exact absurd h1 hf
          · exact absurd h3 hf
      · rw [h2, h3]
        simp

theorem copyChunks_out_isSome (env : Env) (out : String) (chunks : List String) :
    ∀ w : World, (w.files out).isSome = true →
      ((copyChunks env out w chunks).1.files out).isSome = true := by
  induction chunks with
  | nil => intro w h; exact h
  | cons c rest ih =>
    intro w h
    unfold copyChunks
    cases hopen : env.openFile c with
    | some err => exact h
    | none =>
      simp only [emit_files]
      cases hfile : w.files c with
      | none => exact h
      | some content =>
        cases hread : env.read c with
        | some r =>
          obtain ⟨n, err⟩ := r
          simp
        | none =>
          apply ih
          simp

/-- After a merge without error the output file is there. -/
theorem mergeChunks_out_isSome (env : Env) (w : World) (inputDir outputFile : String)
    (h : (mergeChunks env w inputDir outputFile).2 = none) :
    ((mergeChunks env w inputDir outputFile).1.files outputFile).isSome = true := by
  cases hglob : env.glob (Join inputDir "*.chunk") with
  | error err =>
    rw [mergeChunks_glob_error env w inputDir outputFile err hglob] at h
    cases h
  | ok chunks =>
    cases hdir : env.mkdirAll (Dir outputFile) with
    | some err =>
      rw [mergeChunks_mkdir_error env w inputDir outputFile err chunks hglob hdir] at h
      cases h
    | none =>
      cases hcreate : env.create outputFile with
      | some err =>
        rw [mergeChunks_create_error env w inputDir outputFile err chunks hglob hdir hcreate] at h
        cases h
      | none =>
        rw [mergeChunks_copy env w inputDir outputFile chunks hglob hdir hcreate]
        apply copyChunks_out_isSome
        simp

/-- C9, amended: when the message decodes, the task is not in the ledger, the
merge and the creation of the output directory succeed and the transcoder
returns an error (non-zero exit, or no start), `Handle` leaves the files as
the merge left them, the merged file among them, and removes nothing; it does
not call `MarkProcessed` and leaves the ledger as it was; it runs the
transcoder once and hands exactly one record to the error store. The label of
the record is `Error processing video`, the label of `Handle` for every error
of `processVideo`; it is the details that name the failed conversion, and
they end with the output captured from the transcoder. -/
theorem Handle_transcode_failure (env : Env) (w : World) (msg : Message) (task : VideoTask)
    (err : String)
    (hdec : Unmarshal msg VideoTask.zero = (task, none))
    (hproc : (IsProcessed w task.VideoID).2 = false)
    (hmerge : mergeError env w task = none)
    (hmkdir : mkdirError env task = none)
    (htrans : transcodeError env task = some err) :
    (Handle env w msg).files = filesAfterMerge env w task ∧
    ((Handle env w msg).files (mergedFileOf task)).isSome = true ∧
    removedFiles (callsSince w (Handle env w msg)) = [] ∧
    markCalls (callsSince w (Handle env w msg)) = [] ∧
    (Handle env w msg).ledger = w.ledger ∧
    execCalls (callsSince w (Handle env w msg)) =
      [ffmpegArgs (mergedFileOf task) (mpegDashPathOf task)] ∧
    errorRecords (callsSince w (Handle env w msg)) =
      [{ video_id := task.VideoID
         error := "Error processing video"
         details := "failed to convert to MPEG-DASH: " ++ err ++ ", output: " ++
           transcodeOutput env task
         time := env.now }] := by
  have hnot : task.VideoID ∉ w.ledger := by simpa [IsProcessed] using hproc
  obtain ⟨mevs, hm, _, hB⟩ := Handle_run env w msg task hdec hnot
  obtain ⟨r1, r2, r3, r4, _⟩ := readers_of_mergeCalls mevs hm
  obtain ⟨hf, hl, ht⟩ := ((hB hmerge).2 hmkdir).1 err htrans
  have hc := callsSince_of_trace _ _ _ ht
  refine ⟨hf, ?_, ?_, ?_, hl, ?_, ?_⟩
  · rw [hf]
    exact mergeChunks_out_isSome env w task.Path (mergedFileOf task) hmerge
  · rw [hc]
    simp only [removedFiles_append, removedFiles_transcodeCalls, removedFiles_logErrorCalls]
    simp [removedFiles, r3]
  · rw [hc]
    simp only [markCalls_append, markCalls_transcodeCalls, markCalls_logErrorCalls]
    simp [markCalls, r2]
  · rw [hc]
    simp only [execCalls_append, execCalls_transcodeCalls, execCalls_logErrorCalls]
    simp [execCalls, r4]
  · rw [hc]
    simp only [errorRecords_append, errorRecords_transcodeCalls, errorRecords_logErrorCalls]
    simp [errorRecords, r1, errorDataOf]

/-- With a transcoder that exits with status 1 the merged file stays, the
ledger stays empty and one record is written. -/
theorem Handle_transcode_failure_witness :
    (Handle failingTranscoder threeChunks task7Message).files "/videos/7/merged.mp4" =
      some [65, 65, 66, 66, 67, 67] ∧
    (Handle failingTranscoder threeChunks task7Message).ledger = [] ∧
    errorRecords (callsSince threeChunks (Handle failingTranscoder threeChunks task7Message)) =
      [{ video_id := 7
         error := "Error processing video"
         details := "failed to convert to MPEG-DASH: exit status 1, output: " ++
           "merged.mp4: Invalid data found when processing input"
         time := 0 }] := by
  have h := Handle_transcode_failure failingTranscoder threeChunks task7Message
    ⟨7, "/videos/7"⟩ "exit status 1" (by decide) (by decide) (by decide) (by decide) (by decide)
  refine ⟨?_, h.2.2.2.2.1, ?_⟩
  · rw [h.1]
    decide
  · rw [h.2.2.2.2.2.2]
    decide

/-- C9, as the specification has it, fails on the name of the stage. With a
transcoder that exits with status 1 after a merge without error, the label of
the one record is `Error processing video`, not `transcode`; it is the label
that `Handle` gives to every error `processVideo` returns, an error of the
merge among them, where the transcoder is never started. -/
theorem transcode_stage_counterexample :
    Unmarshal task7Message VideoTask.zero = (⟨7, "/videos/7"⟩, none) ∧
    mergeError failingTranscoder threeChunks ⟨7, "/videos/7"⟩ = none ∧
    mkdirError failingTranscoder ⟨7, "/videos/7"⟩ = none ∧
    transcodeError failingTranscoder ⟨7, "/videos/7"⟩ = some "exit status 1" ∧
    (errorRecords (callsSince threeChunks
      (Handle failingTranscoder threeChunks task7Message))).map (fun r => r.error) =
      ["Error processing video"] ∧
    (∀ r ∈ errorRecords (callsSince threeChunks
      (Handle failingTranscoder threeChunks task7Message)), r.error ≠ "transcode") ∧
    (errorRecords (callsSince threeChunks
      (Handle readOnlyDisk threeChunks task7Message))).map (fun r => r.error) =
      ["Error merging chunks", "Error processing video"] ∧
    execCalls (callsSince threeChunks (Handle readOnlyDisk threeChunks task7Message)) = [] := by
  refine ⟨by decide, by decide, by decide, by decide, by decide, by decide, by decide,
    by decide⟩

/-- C8 fails on a merge error: with an output file that cannot be created, the
one failure is handed to the error store twice, by `processVideo` as an error
of merging the chunks and by `Handle` as an error of processing the video. -/
theorem merge_failure_reported_twice :
    (Unmarshal task7Message VideoTask.zero) = (⟨7, "/videos/7"⟩, none) ∧
    mergeError readOnlyDisk threeChunks ⟨7, "/videos/7"⟩ =
      some "Error creating output file: open /videos/7/merged.mp4: read-only file system" ∧
    errorRecords (callsSince threeChunks (Handle readOnlyDisk threeChunks task7Message)) =
      [{ video_id := 7
         error := "Error merging chunks"
         details := "Error creating output file: open /videos/7/merged.mp4: read-only file system"
         time := 0 },
       { video_id := 7
         error := "Error processing video"
         details := "Error creating output file: open /videos/7/merged.mp4: read-only file system"
         time := 0 }] := by
  refine ⟨by decide, by decide, by decide⟩

/-- The records handed to the error store in a run of `Handle` on a message
that decodes to a task the ledger does not hold: two for an error of the merge
and for an error of creating the output directory, one for an error of the
transcoder, one for an error of the ledger. -/
theorem Handle_run_records (env : Env) (w : World) (msg : Message) (task : VideoTask)
    (hdec : Unmarshal msg VideoTask.zero = (task, none))
    (hproc : task.VideoID ∉ w.ledger) :
    (∀ err, mergeError env w task = some err →
      errorRecords (callsSince w (Handle env w msg)) =
        [errorDataOf env task "Error merging chunks" err,
          errorDataOf env task "Error processing video" err]) ∧
    (mergeError env w task = none →
      (∀ err, mkdirError env task = some err →
        errorRecords (callsSince w (Handle env w msg)) =
          [errorDataOf env task "Error creating mpeg-dash directory" err,
            errorDataOf env task "Error processing video" err]) ∧
      (mkdirError env task = none →
        (∀ err, transcodeError env task = some err →
          errorRecords (callsSince w (Handle env w msg)) =
            [errorDataOf env task "Error processing video"
              ("failed to convert to MPEG-DASH: " ++ err ++ ", output: " ++
                transcodeOutput env task)]) ∧
        (transcodeError env task = none →
          (∀ err, env.ledgerDown task.VideoID = some err →
            errorRecords (callsSince w (Handle env w msg)) =
              [errorDataOf env task "Error marking video as processed" err]) ∧
          (env.ledgerDown task.VideoID = none →
            errorRecords (callsSince w (Handle env w msg)) = [])))) := by
  obtain ⟨mevs, hm, hA, hB⟩ := Handle_run env w msg task hdec hproc
  obtain ⟨r1, _, _, _, _⟩ := readers_of_mergeCalls mevs hm
  refine ⟨?_, ?_⟩
  · intro err herr
    rw [callsSince_of_trace _ _ _ (hA err herr).2.2]
    simp only [errorRecords_append, errorRecords_logErrorCalls]
    simp [errorRecords, r1]
  · intro hme
    refine ⟨?_, ?_⟩
    · intro err herr
      rw [callsSince_of_trace _ _ _ ((hB hme).1 err herr).2.2]
      simp only [errorRecords_append, errorRecords_logErrorCalls, errorRecords_mkdirCalls]
      simp [errorRecords, r1]
    · intro hmd
      refine ⟨?_, ?_⟩
      · intro err herr
        rw [callsSince_of_trace _ _ _ (((hB hme).2 hmd).1 err herr).2.2]
        simp only [errorRecords_append, errorRecords_logErrorCalls, errorRecords_transcodeCalls]
        simp [errorRecords, r1]
      · intro htr
        refine ⟨?_, ?_⟩
        · intro err herr
          rw [callsSince_of_trace _ _ _ ((((hB hme).2 hmd).2 htr).1 err herr).2]
          simp only [errorRecords_append, errorRecords_logErrorCalls,
            errorRecords_transcodeCalls, errorRecords_cleanupCalls]
          simp [errorRecords, r1]
        · intro herr
          rw [callsSince_of_trace _ _ _ ((((hB hme).2 hmd).2 htr).2 herr).2]
          simp only [errorRecords_append, errorRecords_transcodeCalls,
            errorRecords_cleanupCalls]
          simp [errorRecords, r1]

/-- A member that names another field leaves the identifier as it is. -/
theorem storeMember_VideoID (st : VideoTask × Option String) (m : String × JValue)
    (h : keyMatches m.1 "video_id" = false) : (storeMember st m).1.VideoID = st.1.VideoID := by
  unfold storeMember
  rw [h]
  simp only [Bool.false_eq_true, if_false]
  split_ifs
  · split <;> rfl
  · rfl

theorem foldl_storeMember_VideoID (members : List (String × JValue)) :
    ∀ st : VideoTask × Option String,
      (∀ m ∈ members, keyMatches m.1 "video_id" = false) →
      (members.foldl storeMember st).1.VideoID = st.1.VideoID := by
  induction members with
  | nil => intro st _; rfl
  | cons m rest ih =>
    intro st h
    rw [List.foldl_cons, ih _ (fun x hx => h x (List.mem_cons_of_mem _ hx)),
      storeMember_VideoID st m (h m (List.mem_cons_self _ _))]

/-- C10, as the specification has it, fails: the message
`{"video_id": 5, "path": 123}` does not decode, since `path` is a number, and
the one error record carries the identifier 5, which the decoder had stored,
not the zero value. -/
theorem decode_failure_keeps_video_id :
    (Unmarshal illTypedMessage VideoTask.zero).2 =
      some "json: cannot unmarshal number into Go struct field VideoTask.path of type string" ∧
    errorRecords (callsSince threeChunks (Handle calmEnv threeChunks illTypedMessage)) =
      [{ video_id := 5
         error := "Error decoding task"
         details :=
           "json: cannot unmarshal number into Go struct field VideoTask.path of type string"
         time := 0 }] ∧
    (errorRecords (callsSince threeChunks (Handle calmEnv threeChunks illTypedMessage))).map
      ErrorData.video_id ≠ [VideoTask.zero.VideoID] := by
  refine ⟨by decide, by decide, by decide⟩

/-- C10, amended: on a message that does not decode, `Handle` makes the two
calls of `logError` and no other: no file call, no read or write of the ledger,
no transcoder run; files and ledger stay as they were. Exactly one record is
handed to the error store; it is the record of a decoding error, and its
identifier is the one the decoder left in the task: the zero value when the
message is not JSON, is not a JSON object, or is an object without a member
for `video_id`. -/
theorem Handle_decode_failure (env : Env) (w : World) (msg : Message) (task : VideoTask)
    (err : String) (hdec : Unmarshal msg VideoTask.zero = (task, some err)) :
    callsSince w (Handle env w msg) = logErrorCalls env task "Error decoding task" err ∧
    (∀ e ∈ callsSince w (Handle env w msg),
      e.isFileCall = false ∧ e.isLedgerCall = false ∧ e.isExec = false) ∧
    (Handle env w msg).files = w.files ∧
    (Handle env w msg).ledger = w.ledger ∧
    errorRecords (callsSince w (Handle env w msg)) =
      [{ video_id := task.VideoID
         error := "Error decoding task"
         details := err
         time := env.now }] ∧
    ((∀ members, msg ≠ .json (.object members)) → task.VideoID = 0) ∧
    (∀ members, msg = .json (.object members) →
      (∀ m ∈ members, keyMatches m.1 "video_id" = false) → task.VideoID = 0) := by
  have hH := Handle_decode_error env w msg task err hdec
  have hc : callsSince w (Handle env w msg) = logErrorCalls env task "Error decoding task" err :=
    callsSince_of_trace _ _ _ (by rw [hH, logError_trace])
  rw [hc, hH]
  refine ⟨rfl, ?_, rfl, rfl, rfl, ?_, ?_⟩
  · intro e he
    simp only [logErrorCalls, List.mem_cons, List.mem_singleton, List.not_mem_nil,
      or_false] at he
    rcases he with rfl | rfl <;> exact ⟨rfl, rfl, rfl⟩
  · intro hno
    cases msg with
    | notJSON e =>
      simp only [Unmarshal, Prod.mk.injEq] at hdec
      rw [← hdec.1]; rfl
    | json v =>
      cases v with
      | object members => exact absurd rfl (hno members)
      | null => simp [Unmarshal] at hdec
      | bool b => simp only [Unmarshal, Prod.mk.injEq] at hdec; rw [← hdec.1]; rfl
      | number l => simp only [Unmarshal, Prod.mk.injEq] at hdec; rw [← hdec.1]; rfl
      | string s => simp only [Unmarshal, Prod.mk.injEq] at hdec; rw [← hdec.1]; rfl
      | array a => simp only [Unmarshal, Prod.mk.injEq] at hdec; rw [← hdec.1]; rfl
  · intro members hmsg hkeys
    subst hmsg
    have := foldl_storeMember_VideoID members (VideoTask.zero, none) hkeys
    simp only [Unmarshal] at hdec
    rw [hdec] at this
    exact this

/-- A message that is not JSON is reported once, with the zero identifier. -/
theorem Handle_decode_failure_witness :
    callsSince threeChunks (Handle calmEnv threeChunks garbledMessage) =
      logErrorCalls calmEnv VideoTask.zero "Error decoding task"
        "invalid character 'v' looking for beginning of value" ∧
    errorRecords (callsSince threeChunks (Handle calmEnv threeChunks garbledMessage)) =
      [{ video_id := 0
         error := "Error decoding task"
         details := "invalid character 'v' looking for beginning of value"
         time := 0 }] :=
  have h := Handle_decode_failure calmEnv threeChunks garbledMessage VideoTask.zero
    "invalid character 'v' looking for beginning of value" (by decide)
  ⟨h.1, h.2.2.2.2.1⟩

end Converter
